import Mathlib

/-!
# cellsim: the per-direction `DelayQueue` of `sender/cellsim.cc`

A shallow embedding of the class `DelayQueue` (constructor, `schedule_from_file`,
`write`, `read`, `wait_time`, `tick`) and theorems about it.

Conventions of the embedding.

* `uint64_t` and `size_t` values are natural numbers; every addition the code makes
  on them is taken modulo `2 ^ 64` (`UINT64`), the `uint32_t` counters modulo `2 ^ 32`.
* `int` values are integers; a value stored into an `int` goes through `to_int`
  (reduction into `[-2^31, 2^31)`), which is how the conversions `uint64_t → int`
  and `size_t → int` behave; the one `int` addition of the code wraps the same way.
* `assert` that fails aborts the process: the function returns `none`.
* `timestamp()` (header `timestamp.h`) is the millisecond clock; every call of a
  member function is made at one clock reading, the parameter `now`.
* `rand() / (float) RAND_MAX` is the parameter `r` of `write`; `r` and the loss
  rate are rationals (every finite `float` is one).
* The trace file is the list of numbers `fscanf` reads from it (`Config.trace`, the
  only field of `Config` that is not a member of the class);
  the runs modelled are those in which `fopen` succeeds.
* `_output` is the list of records printed so far; `render` gives the text of one.
  The diagnostic that `write` prints to `stderr` is not a member of the class and
  is left out.
-/

namespace Cellsim

/-- Bytes of a `std::string`. -/
abbrev Payload := List UInt8

/-- The modulus of `uint64_t` arithmetic. -/
def UINT64 : Nat := 18446744073709551616

/-- The modulus of `uint32_t` arithmetic. -/
def UINT32 : Nat := 4294967296

/-- The constant `INT_MAX` of `limits.h`. -/
def INT_MAX : Int := 2147483647

/-- Conversion of an integer value to a 32-bit `int`. -/
def to_int (x : Int) : Int := (x + 2147483648) % 4294967296 - 2147483648

/-- Conversion of an integer value to `uint64_t` (or `size_t`). -/
def to_u64 (x : Int) : Int := x % 18446744073709551616

/-- Class `DelayQueue::DelayedPacket`. -/
structure DelayedPacket where
  entry_time : Nat
  release_time : Nat
  contents : Payload
deriving DecidableEq

/-- Class `DelayQueue::PartialPacket`. -/
structure PartialPacket where
  bytes_earned : Int
  packet : DelayedPacket
deriving DecidableEq

/-- One record printed to `_output`; `render` gives its text. -/
inductive LogLine where
  | initialized (filename : String) (services : Int)
  | direction (name : String)
  | base_timestamp (base : Nat)
  | queue_full (now size : Nat)
  | enqueued (now size : Nat)
  | opportunity (pdo_time : Nat) (size : Int)
  | delivery (pdo_time size : Nat) (latency : Int)
deriving DecidableEq

/-- Text of a record, following the `fprintf` format strings (without the newline). -/
def render : LogLine → String
  | LogLine.initialized filename services =>
      "# Initialized " ++ filename ++ " queue with " ++ toString services ++ " services."
  | LogLine.direction name => "# Direction: " ++ name
  | LogLine.base_timestamp base => "# base timestamp: " ++ toString base
  | LogLine.queue_full now size => "# " ++ toString now ++ " + " ++ toString size ++ " (dropped)"
  | LogLine.enqueued now size => toString now ++ " + " ++ toString size
  | LogLine.opportunity pdo_time size => toString pdo_time ++ " # " ++ toString size
  | LogLine.delivery pdo_time size latency =>
      toString pdo_time ++ " - " ++ toString size ++ " " ++ toString latency

/-- The `const` members of a `DelayQueue` and the contents of its trace file. -/
structure Config where
  _name : String
  _ms_delay : Nat
  _loss_rate : ℚ
  _file_name : String
  trace : List Nat

/-- The mutable members of a `DelayQueue`. -/
structure DelayQueue where
  _output : List LogLine
  _delay : List DelayedPacket
  _pdp : List DelayedPacket
  _limbo : List PartialPacket
  _schedule : List Nat
  _delivered : List Payload
  _total_bytes : Nat
  _used_bytes : Nat
  _queued_bytes : Nat
  _bin_sec : Nat
  _base_timestamp : Nat
  _packets_added : Nat
  _packets_dropped : Nat
deriving DecidableEq

/-- Constant `SERVICE_PACKET_SIZE`. -/
def SERVICE_PACKET_SIZE : Int := 1514

/-- Constant `queue_limit_in_packets`. -/
def queue_limit_in_packets : Nat := 256

/-- Member `convert_timestamp`. -/
def convert_timestamp (absolute_timestamp : Nat) : Nat := absolute_timestamp

/-- The `while` loop of `schedule_from_file`: `file` is what is left to read. -/
def schedule_loop (base_timestamp : Nat) : List Nat → List Nat → Option (List Nat)
  | [], schedule => some schedule
  | ms :: file, schedule =>
    let ms := (ms + base_timestamp) % UINT64
    match schedule.getLast? with
    | none => schedule_loop base_timestamp file (schedule ++ [ms])
    | some back =>
      if ms ≥ back then schedule_loop base_timestamp file (schedule ++ [ms]) else none

/-- Member `schedule_from_file`. -/
def schedule_from_file (c : Config) (base_timestamp : Nat) (q : DelayQueue) :
    Option DelayQueue :=
  if q._schedule = [] then
    match schedule_loop base_timestamp c.trace q._schedule with
    | none => none
    | some schedule => some { q with _schedule := schedule }
  else none

/-- The constructor `DelayQueue::DelayQueue`. -/
def init (c : Config) (base_timestamp : Nat) : Option DelayQueue :=
  match schedule_from_file c base_timestamp
      { _output := [], _delay := [], _pdp := [], _limbo := [], _schedule := [], _delivered := [],
        _total_bytes := 0, _used_bytes := 0, _queued_bytes := 0,
        _bin_sec := base_timestamp / 1000, _base_timestamp := base_timestamp,
        _packets_added := 0, _packets_dropped := 0 } with
  | none => none
  | some q =>
    some { q with _output := q._output ++
      [LogLine.initialized c._file_name (to_int q._schedule.length),
       LogLine.direction c._name,
       LogLine.base_timestamp base_timestamp] }

/-- Member `write`; `r` is the value of `rand() / (float) RAND_MAX`. -/
def write (c : Config) (now : Nat) (r : ℚ) (packet : Payload) (q : DelayQueue) :
    DelayQueue :=
  let q := { q with _packets_added := (q._packets_added + 1) % UINT32 }
  if r < c._loss_rate then
    { q with _packets_dropped := (q._packets_dropped + 1) % UINT32 }
  else
    if q._delay.length ≥ queue_limit_in_packets then
      { q with _output := q._output ++
          [LogLine.queue_full (convert_timestamp now) packet.length] }
    else
      let p : DelayedPacket := ⟨now, (now + c._ms_delay) % UINT64, packet⟩
      { q with
        _delay := q._delay ++ [p]
        _output := q._output ++ [LogLine.enqueued (convert_timestamp now) packet.length]
        _queued_bytes := (q._queued_bytes + packet.length) % UINT64 }

/-- First loop of `tick`: packets whose release time has come go from `delay` to `pdp`. -/
def migrate (now : Nat) : List DelayedPacket → List DelayedPacket →
    List DelayedPacket × List DelayedPacket
  | [], pdp => ([], pdp)
  | front :: delay, pdp =>
    if front.release_time ≤ now then migrate now delay (pdp ++ [front])
    else (front :: delay, pdp)

/-- The block "deliver packet" of `tick` (it stands there twice): the counters, the
delivery record and the push onto `_delivered`. -/
def deliver (pdo_time : Nat) (packet : DelayedPacket) (q : DelayQueue) : DelayQueue :=
  { q with
    _total_bytes := (q._total_bytes + packet.contents.length) % UINT64
    _used_bytes := (q._used_bytes + packet.contents.length) % UINT64
    _output := q._output ++
      [LogLine.delivery (convert_timestamp pdo_time) packet.contents.length
        (to_int (to_u64 ((pdo_time : Int) - packet.entry_time)))]
    _delivered := q._delivered ++ [packet.contents] }

/-- The block "execute limbo queue first" of `tick`; returns the queue and what is
left of `bytes_to_play_with`. -/
def execute_limbo (pdo_time : Nat) (q : DelayQueue) (bytes_to_play_with : Int) :
    Option (DelayQueue × Int) :=
  match q._limbo with
  | [] => some (q, bytes_to_play_with)
  | front :: rest =>
    if to_int (front.bytes_earned + bytes_to_play_with)
        ≥ to_int front.packet.contents.length then
      let q1 := deliver pdo_time front.packet q
      let left := to_int (to_u64 (to_u64 bytes_to_play_with
        - to_u64 ((front.packet.contents.length : Int) - to_u64 front.bytes_earned)))
      if left ≥ 0 then
        if rest = [] then some ({ q1 with _limbo := rest }, left) else none
      else none
    else
      let earned := to_int (front.bytes_earned + bytes_to_play_with)
      if earned < to_int front.packet.contents.length then
        some ({ q with _limbo := { front with bytes_earned := earned } :: rest }, 0)
      else none

/-- The loop "execute regular queue" of `tick`. The first argument is the content of
`_pdp`; it is written back to the queue when the loop stops. -/
def execute_regular (pdo_time : Nat) : List DelayedPacket → DelayQueue → Int →
    Option DelayQueue
  | [], q, bytes_to_play_with =>
    if bytes_to_play_with > 0 then
      if q._limbo = [] then
        some { q with
          _pdp := []
          _total_bytes := (q._total_bytes + bytes_to_play_with.toNat) % UINT64 }
      else none
    else some { q with _pdp := [] }
  | packet :: pdp, q, bytes_to_play_with =>
    if bytes_to_play_with > 0 then
      if q._limbo = [] then
        if bytes_to_play_with ≥ to_int packet.contents.length then
          execute_regular pdo_time pdp (deliver pdo_time packet q)
            (to_int (to_u64 (to_u64 bytes_to_play_with - packet.contents.length)))
        else
          let limbo := q._limbo ++ [(⟨bytes_to_play_with, packet⟩ : PartialPacket)]
          let left : Int := match limbo with
            | [] => bytes_to_play_with
            | front :: _ => to_int (bytes_to_play_with - front.bytes_earned)
          if left = 0 then some { q with _pdp := pdp, _limbo := limbo } else none
      else none
    else some { q with _pdp := packet :: pdp }

/-- One packet delivery opportunity: the body of the schedule loop of `tick`. -/
def pdo (pdo_time : Nat) (q : DelayQueue) : Option DelayQueue :=
  let q := { q with _output := q._output ++
    [LogLine.opportunity (convert_timestamp pdo_time) SERVICE_PACKET_SIZE] }
  match execute_limbo pdo_time q SERVICE_PACKET_SIZE with
  | none => none
  | some (q1, bytes_to_play_with) => execute_regular pdo_time q1._pdp q1 bytes_to_play_with

/-- The loop "execute packet delivery schedule" of `tick`. The first argument is the
content of `_schedule`; it is written back to the queue before each opportunity and
when the loop stops. -/
def execute_schedule (now : Nat) : List Nat → DelayQueue → Option DelayQueue
  | [], q => some { q with _schedule := [] }
  | pdo_time :: schedule, q =>
    if pdo_time ≤ now then
      match pdo pdo_time { q with _schedule := schedule } with
      | none => none
      | some q1 => execute_schedule now schedule q1
    else some { q with _schedule := pdo_time :: schedule }

/-- Last loop of `tick` ("while now / 1000 > _bin_sec"). `fuel` bounds the number of
iterations; `tick` passes `now / 1000 - _bin_sec`, the number the loop makes
(`bin_rollover_bin_sec`: the condition of the loop is false when it stops). -/
def bin_rollover (now : Nat) : Nat → DelayQueue → DelayQueue
  | 0, q => q
  | fuel + 1, q =>
    if now / 1000 > q._bin_sec then
      bin_rollover now fuel
        { q with _total_bytes := 0, _used_bytes := 0, _queued_bytes := 0,
                 _bin_sec := (q._bin_sec + 1) % UINT64 }
    else q

/-- Member `tick`. -/
def tick (c : Config) (now : Nat) (q : DelayQueue) : Option DelayQueue :=
  match (if q._schedule = [] then schedule_from_file c now q else some q) with
  | none => none
  | some q1 =>
    let moved := migrate now q1._delay q1._pdp
    match execute_schedule now q1._schedule { q1 with _delay := moved.1, _pdp := moved.2 } with
    | none => none
    | some q2 => some (bin_rollover now (now / 1000 - q2._bin_sec) q2)

/-- Member `wait_time`. -/
def wait_time (c : Config) (now : Nat) (q : DelayQueue) : Option (Int × DelayQueue) :=
  match tick c now q with
  | none => none
  | some q1 =>
    let delay_wait : Int := match q1._delay with
      | [] => INT_MAX
      | front :: _ =>
        let w := to_int (to_u64 ((front.release_time : Int) - now))
        if w < 0 then 0 else w
    match q1._schedule with
    | [] => some (min delay_wait INT_MAX, q1)
    | front :: _ =>
      let schedule_wait := to_int (to_u64 ((front : Int) - now))
      if schedule_wait ≥ 0 then some (min delay_wait schedule_wait, q1) else none

/-- Member `read`. -/
def read (c : Config) (now : Nat) (q : DelayQueue) : Option (List Payload × DelayQueue) :=
  match tick c now q with
  | none => none
  | some q1 => some (q1._delivered, { q1 with _delivered := [] })

/-- The packets in the queue, oldest first: the one in limbo, then `_pdp`, then `_delay`. -/
def pending (q : DelayQueue) : List DelayedPacket :=
  q._limbo.map (fun l => l.packet) ++ q._pdp ++ q._delay

/-- The payload sequence `delivered ++ limbo ++ pdp ++ delay`. -/
def flow (q : DelayQueue) : List Payload :=
  q._delivered ++ (pending q).map (fun p => p.contents)

/-- The times of the opportunity records of a log, in order. -/
def pdo_times : List LogLine → List Nat
  | [] => []
  | LogLine.opportunity t _ :: log => t :: pdo_times log
  | _ :: log => pdo_times log

/-- A call of one of the three public member functions, with its clock reading. -/
inductive Call where
  | write (now : Nat) (r : ℚ) (packet : Payload)
  | read (now : Nat)
  | wait_time (now : Nat)

/-- The clock reading of a call. -/
def Call.time : Call → Nat
  | Call.write now _ _ => now
  | Call.read now => now
  | Call.wait_time now => now

/-- A packet handed to `write` is accepted when it is neither dropped by the loss draw
nor dropped because `_delay` is full. -/
def accepts (c : Config) (r : ℚ) (q : DelayQueue) : Bool :=
  !(decide (r < c._loss_rate)) && decide (q._delay.length < queue_limit_in_packets)

/-- A queue together with what its caller has seen so far. -/
structure History where
  queue : DelayQueue
  returned : List Payload
  accepted : List Payload

/-- One call: `returned` collects what `read` returns, `accepted` the payloads that
`write` accepted. -/
def call (c : Config) (h : History) : Call → Option History
  | Call.write now r packet =>
    some { queue := write c now r packet h.queue
           returned := h.returned
           accepted := if accepts c r h.queue then h.accepted ++ [packet] else h.accepted }
  | Call.read now =>
    match read c now h.queue with
    | none => none
    | some (out, q) => some { h with queue := q, returned := h.returned ++ out }
  | Call.wait_time now =>
    match wait_time c now h.queue with
    | none => none
    | some (_, q) => some { h with queue := q }

/-- A sequence of calls, stopped by the first failed assertion. -/
def run (c : Config) : History → List Call → Option History
  | h, [] => some h
  | h, k :: calls =>
    match call c h k with
    | none => none
    | some h1 => run c h1 calls

/-- The states a queue goes through: construction, then any calls. -/
inductive Reachable (c : Config) : DelayQueue → Prop where
  | init (base : Nat) (q : DelayQueue) : init c base = some q → Reachable c q
  | write (q : DelayQueue) (now : Nat) (r : ℚ) (packet : Payload) :
      Reachable c q → Reachable c (write c now r packet q)
  | read (q : DelayQueue) (now : Nat) (out : List Payload) (q1 : DelayQueue) :
      Reachable c q → read c now q = some (out, q1) → Reachable c q1
  | wait_time (q : DelayQueue) (now : Nat) (w : Int) (q1 : DelayQueue) :
      Reachable c q → wait_time c now q = some (w, q1) → Reachable c q1

/-- The states reached by calls made at non-decreasing times, none later than `T`. -/
inductive ReachableAt (c : Config) : Nat → DelayQueue → Prop where
  | init (base T : Nat) (q : DelayQueue) : init c base = some q → ReachableAt c T q
  | write (T : Nat) (q : DelayQueue) (now : Nat) (r : ℚ) (packet : Payload) :
      ReachableAt c T q → T ≤ now → ReachableAt c now (write c now r packet q)
  | read (T : Nat) (q : DelayQueue) (now : Nat) (out : List Payload) (q1 : DelayQueue) :
      ReachableAt c T q → T ≤ now → read c now q = some (out, q1) → ReachableAt c now q1
  | wait_time (T : Nat) (q : DelayQueue) (now : Nat) (w : Int) (q1 : DelayQueue) :
      ReachableAt c T q → T ≤ now → wait_time c now q = some (w, q1) →
      ReachableAt c now q1

/-- Reference definition of `write`, member by member, following the specification:
`packets_added` grows by one in every case; a loss drop (`r < loss_rate`, tested
first) counts in `packets_dropped` and changes nothing else; a queue-limit drop (256
or more entries in `delay`) leaves `delay`, `queued_bytes` and `packets_dropped` alone
and prints the dropped-packet record; otherwise the entry
`(now, now + propagation delay, packet)` goes to the back of `delay`, the size of the
packet is added to `queued_bytes` and the ingress record is printed. Counters are the
`uint32_t` / `uint64_t` members of the class, so sums are taken in their types. -/
def write_reference (c : Config) (now : Nat) (r : ℚ) (packet : Payload) (q : DelayQueue) :
    DelayQueue :=
  let lost : Prop := r < c._loss_rate
  let full : Prop := 256 ≤ q._delay.length
  { _packets_added := (q._packets_added + 1) % UINT32
    _packets_dropped := if lost then (q._packets_dropped + 1) % UINT32 else q._packets_dropped
    _delay :=
      if lost ∨ full then q._delay
      else q._delay ++ [{ entry_time := now, release_time := (now + c._ms_delay) % UINT64,
                          contents := packet }]
    _queued_bytes :=
      if lost ∨ full then q._queued_bytes else (q._queued_bytes + packet.length) % UINT64
    _output :=
      if lost then q._output
      else if full then q._output ++ [LogLine.queue_full now packet.length]
      else q._output ++ [LogLine.enqueued now packet.length]
    _pdp := q._pdp
    _limbo := q._limbo
    _schedule := q._schedule
    _delivered := q._delivered
    _total_bytes := q._total_bytes
    _used_bytes := q._used_bytes
    _bin_sec := q._bin_sec
    _base_timestamp := q._base_timestamp }

/-- Calls of `write` one after the other at the same clock reading `now`, each with
its loss draw. -/
def write_all (c : Config) (now : Nat) : List (ℚ × Payload) → DelayQueue → DelayQueue
  | [], q => q
  | w :: ws, q => write_all c now ws (write c now w.1 w.2 q)

/-- The value `d` of the specification of `wait_time`: the time until the front of
`delay` is released, not below zero; `INT_MAX` when `delay` is empty. -/
def delay_deadline (now : Nat) (q : DelayQueue) : Int :=
  match q._delay with
  | [] => INT_MAX
  | front :: _ => max 0 ((front.release_time : Int) - now)

/-- The value `s` of the specification of `wait_time`: the time until the front of
`schedule`; `INT_MAX` when `schedule` is empty. -/
def schedule_deadline (now : Nat) (q : DelayQueue) : Int :=
  match q._schedule with
  | [] => INT_MAX
  | front :: _ => (front : Int) - now

/-- Opportunities fired one after the other, at the times of the list. -/
def fire : List Nat → DelayQueue → Option DelayQueue
  | [], q => some q
  | t :: ts, q =>
    match pdo t q with
    | none => none
    | some q1 => fire ts q1

/-- No call of the list is a `read`. -/
def no_read : List Call → Bool
  | [] => true
  | Call.read _ :: _ => false
  | _ :: calls => no_read calls

/-- The schedule that `schedule_from_file` builds from the trace with base `now`. -/
def reload (c : Config) (now : Nat) : List Nat :=
  c.trace.map (fun ms => (ms + now) % UINT64)

/-- The schedule that the delivery loop of `tick` works on: the reloaded one when the
schedule was empty. -/
def due_schedule (c : Config) (now : Nat) (q : DelayQueue) : List Nat :=
  if q._schedule = [] then reload c now else q._schedule

/-- The limbo queue is as the assertions of `tick` expect it: at most one packet, with
fewer bytes earned than its size (both as `int`). -/
def LimboOK (q : DelayQueue) : Prop :=
  q._limbo = [] ∨ ∃ l, q._limbo = [l] ∧ -2147483648 ≤ l.bytes_earned ∧
    l.bytes_earned < to_int l.packet.contents.length

/-- A call of a member function as `main` makes it; `write` takes its loss draw from
the generator of the process. -/
inductive Op where
  | write (now : Nat) (packet : Payload)
  | read (now : Nat)
  | wait_time (now : Nat)

/-- A call that `main` makes on one of its two queues. -/
inductive Event where
  | uplink (op : Op)
  | downlink (op : Op)

/-- The two queues of `main` and the state of the generator behind `rand()`, which
both share: the number of calls of `rand()` since `srand(0)`. -/
structure Links where
  uplink : DelayQueue
  downlink : DelayQueue
  rand_calls : Nat
deriving DecidableEq

/-- The two constructors of `main`, at the clock reading `now`; each calls `srand(0)`,
and `rand()` is not called before the first `write`. -/
def start (up down : Config) (now : Nat) : Option Links :=
  match init up now with
  | none => none
  | some uplink =>
    match init down now with
    | none => none
    | some downlink => some ⟨uplink, downlink, 0⟩

/-- One call on one queue with the loss draw `r` (used by `write` only). -/
def run_op (c : Config) (r : ℚ) (q : DelayQueue) : Op → Option DelayQueue
  | Op.write now packet => some (write c now r packet q)
  | Op.read now =>
    match read c now q with
    | none => none
    | some (_, q1) => some q1
  | Op.wait_time now =>
    match wait_time c now q with
    | none => none
    | some (_, q1) => some q1

/-- Whether a call draws from the generator: `write` calls `rand()` once, in every
case; `read` and `wait_time` do not. -/
def op_draws : Op → Nat
  | Op.write _ _ => 1
  | _ => 0

/-- One call of `main`. `rnd k` is the value of `rand() / (float) RAND_MAX` at call
number `k` (from 0) of `rand()` after `srand(0)`. -/
def step (rnd : Nat → ℚ) (up down : Config) (s : Links) : Event → Option Links
  | Event.uplink op =>
    match run_op up (rnd s.rand_calls) s.uplink op with
    | none => none
    | some q => some { s with uplink := q, rand_calls := s.rand_calls + op_draws op }
  | Event.downlink op =>
    match run_op down (rnd s.rand_calls) s.downlink op with
    | none => none
    | some q => some { s with downlink := q, rand_calls := s.rand_calls + op_draws op }

/-- A sequence of calls of `main`, stopped by the first failed assertion. -/
def steps (rnd : Nat → ℚ) (up down : Config) : Links → List Event → Option Links
  | s, [] => some s
  | s, e :: es =>
    match step rnd up down s e with
    | none => none
    | some s1 => steps rnd up down s1 es

/-- Whether a call of `write` took the branch of the stochastic drop, the only one
that counts the packet in `_packets_dropped`. -/
def lost (c : Config) (now : Nat) (r : ℚ) (packet : Payload) (q : DelayQueue) : Bool :=
  decide ((write c now r packet q)._packets_dropped ≠ q._packets_dropped)

/-- The loss decisions of the uplink along a sequence of calls of `main`: one entry
for each `write` to the uplink, in order. -/
def uplink_drops (rnd : Nat → ℚ) (up down : Config) : Links → List Event → List Bool
  | _, [] => []
  | s, e :: es =>
    match step rnd up down s e with
    | none => []
    | some s1 =>
      match e with
      | Event.uplink (Op.write now packet) =>
        lost up now (rnd s.rand_calls) packet s.uplink :: uplink_drops rnd up down s1 es
      | _ => uplink_drops rnd up down s1 es

/-- The calls of `write` that the uplink receives in a sequence of calls of `main`. -/
def uplink_writes : List Event → List (Nat × Payload)
  | [] => []
  | Event.uplink (Op.write now packet) :: es => (now, packet) :: uplink_writes es
  | _ :: es => uplink_writes es

/-- The queue that each `write` of a sequence of calls goes to, in order (`true`: the
uplink). -/
def write_pattern : List Event → List Bool
  | [] => []
  | Event.uplink (Op.write _ _) :: es => true :: write_pattern es
  | Event.downlink (Op.write _ _) :: es => false :: write_pattern es
  | _ :: es => write_pattern es

/-- The tests `rnd k < loss` for the positions `k` of a pattern that hold `true`,
counted from `k`. -/
def draws_at (rnd : Nat → ℚ) (loss : ℚ) : Nat → List Bool → List Bool
  | _, [] => []
  | k, true :: pattern => decide (rnd k < loss) :: draws_at rnd loss (k + 1) pattern
  | k, false :: pattern => draws_at rnd loss (k + 1) pattern

/-- Member `tick` without its last loop: the state just before the bin rollover. -/
def serve (c : Config) (now : Nat) (q : DelayQueue) : Option DelayQueue :=
  match (if q._schedule = [] then schedule_from_file c now q else some q) with
  | none => none
  | some q1 =>
    let moved := migrate now q1._delay q1._pdp
    execute_schedule now q1._schedule { q1 with _delay := moved.1, _pdp := moved.2 }

/-- Total size of a list of packets. -/
def bytes (l : List DelayedPacket) : Nat :=
  (l.map (fun p => p.contents.length)).sum

/-- The `bytes_earned` of the packet in limbo, taken as 0 when limbo is empty. -/
def earned (q : DelayQueue) : Int :=
  match q._limbo with
  | [] => 0
  | front :: _ => front.bytes_earned

/-- A `uint64_t` counter that held `x` holds `y` after `a` has been added to it: the
sum taken modulo `2^64`, and the plain sum when that is below `2^64`. -/
def counts (x a y : Nat) : Prop :=
  y % UINT64 = (x + a) % UINT64 ∧ (x + a < UINT64 → y = x + a)

/-- The sizes in the delivery records of a log whose opportunity time lies in the
one-second bin `bin`, added up. -/
def delivered_in_bin (bin : Nat) : List LogLine → Nat
  | [] => 0
  | LogLine.delivery pdo_time size _ :: log =>
    (if pdo_time / 1000 = bin then size else 0) + delivered_in_bin bin log
  | _ :: log => delivered_in_bin bin log

/-- Every packet in the queue has at most `2^31 - 1514` bytes: its size fits an `int`
with room for the bytes of one opportunity. -/
def Sized (q : DelayQueue) : Prop :=
  ∀ p ∈ pending q, (p.contents.length : Int) ≤ 2147482134

/-- The limbo queue holds at most one packet, with `0 < bytes_earned < size`. -/
def LimboFine (q : DelayQueue) : Prop :=
  q._limbo = [] ∨ ∃ l, q._limbo = [l] ∧ 0 < l.bytes_earned ∧
    l.bytes_earned < l.packet.contents.length

/-- The states a queue goes through when the payloads written to it have at most
`2^31 - 1514` bytes. -/
inductive ReachableSized (c : Config) : DelayQueue → Prop where
  | init (base : Nat) (q : DelayQueue) : init c base = some q → ReachableSized c q
  | write (q : DelayQueue) (now : Nat) (r : ℚ) (packet : Payload) :
      ReachableSized c q → (packet.length : Int) ≤ 2147482134 →
      ReachableSized c (write c now r packet q)
  | read (q : DelayQueue) (now : Nat) (out : List Payload) (q1 : DelayQueue) :
      ReachableSized c q → read c now q = some (out, q1) → ReachableSized c q1
  | wait_time (q : DelayQueue) (now : Nat) (w : Int) (q1 : DelayQueue) :
      ReachableSized c q → wait_time c now q = some (w, q1) → ReachableSized c q1

/-! ## Integer conversions -/

theorem to_int_to_u64 (x : Int) : to_int (to_u64 x) = to_int x := by
  unfold to_int to_u64; omega

theorem to_int_bounds (x : Int) : -2147483648 ≤ to_int x ∧ to_int x < 2147483648 := by
  unfold to_int; omega

theorem to_int_of_bounds (x : Int) (h1 : -2147483648 ≤ x) (h2 : x < 2147483648) :
    to_int x = x := by
  unfold to_int; omega

theorem to_int_sub_u64 (a b : Int) : to_int (to_u64 (to_u64 a - b)) = to_int (a - b) := by
  unfold to_int to_u64; omega

theorem to_int_sub_sub_u64 (a s e : Int) :
    to_int (to_u64 (to_u64 a - to_u64 (s - to_u64 e))) = to_int (a - (s - e)) := by
  unfold to_int to_u64; omega

/-! ## The migration loop -/

theorem migrate_fst (now : Nat) (delay pdp : List DelayedPacket) :
    (migrate now delay pdp).1 = delay.dropWhile (fun p => decide (p.release_time ≤ now)) := by
  induction delay generalizing pdp with
  | nil => rfl
  | cons p delay ih =>
    by_cases h : p.release_time ≤ now
    · simp [migrate, h, ih]
    · simp [migrate, h]

theorem migrate_snd (now : Nat) (delay pdp : List DelayedPacket) :
    (migrate now delay pdp).2
      = pdp ++ delay.takeWhile (fun p => decide (p.release_time ≤ now)) := by
  induction delay generalizing pdp with
  | nil => simp [migrate]
  | cons p delay ih =>
    by_cases h : p.release_time ≤ now
    · simp [migrate, h, ih]
    · simp [migrate, h]

theorem migrate_append (now : Nat) (delay pdp : List DelayedPacket) :
    (migrate now delay pdp).2 ++ (migrate now delay pdp).1 = pdp ++ delay := by
  rw [migrate_fst, migrate_snd, List.append_assoc, List.takeWhile_append_dropWhile]

/-! ## One delivery opportunity -/

theorem pdo_times_append (a b : List LogLine) :
    pdo_times (a ++ b) = pdo_times a ++ pdo_times b := by
  induction a with
  | nil => rfl
  | cons x a ih => cases x <;> simp [pdo_times, ih]

/-- The three ways `execute_limbo` returns. -/
theorem execute_limbo_cases (t : Nat) (q q1 : DelayQueue) (b b1 : Int)
    (h : execute_limbo t q b = some (q1, b1)) :
    (q._limbo = [] ∧ q1 = q ∧ b1 = b) ∨
    (∃ front, q._limbo = [front] ∧
      to_int (front.bytes_earned + b) ≥ to_int front.packet.contents.length ∧
      q1 = { deliver t front.packet q with _limbo := [] } ∧
      b1 = to_int (b - (front.packet.contents.length - front.bytes_earned)) ∧ 0 ≤ b1) ∨
    (∃ front rest, q._limbo = front :: rest ∧
      to_int (front.bytes_earned + b) < to_int front.packet.contents.length ∧
      q1 = { q with _limbo :=
        { front with bytes_earned := to_int (front.bytes_earned + b) } :: rest } ∧
      b1 = 0) := by
  unfold execute_limbo at h
  split at h
  · next hl =>
    left
    simp only [Option.some.injEq, Prod.mk.injEq] at h
    exact ⟨hl, h.1.symm, h.2.symm⟩
  · next front rest hl =>
    right
    dsimp only at h
    split_ifs at h with h1 h2 h3 h4
    · left
      simp only [Option.some.injEq, Prod.mk.injEq] at h
      subst h3
      refine ⟨front, hl, h1, h.1.symm, ?_, ?_⟩
      · rw [← h.2, to_int_sub_sub_u64]
      · rw [← h.2]; exact h2
    · right
      simp only [Option.some.injEq, Prod.mk.injEq] at h
      exact ⟨front, rest, hl, h4, h.1.symm, h.2.symm⟩

/-- What the loop over `_pdp` leaves alone, and where its packets go: a first part `D`
of `limbo ++ pdp` is delivered, in order, the rest stays in `limbo ++ pdp`. -/
theorem execute_regular_spec (t : Nat) (pdp : List DelayedPacket) :
    ∀ (q q1 : DelayQueue) (b : Int), execute_regular t pdp q b = some q1 →
      q1._delay = q._delay ∧ q1._schedule = q._schedule ∧ q1._bin_sec = q._bin_sec ∧
      pdo_times q1._output = pdo_times q._output ∧
      ∃ D, q._limbo.map (fun l => l.packet) ++ pdp
            = D ++ (q1._limbo.map (fun l => l.packet) ++ q1._pdp) ∧
        q1._delivered = q._delivered ++ D.map (fun p => p.contents) := by
  induction pdp with
  | nil =>
    intro q q1 b h
    unfold execute_regular at h
    split_ifs at h with h1 h2
    · simp only [Option.some.injEq] at h
      subst h
      exact ⟨rfl, rfl, rfl, rfl, [], by simp⟩
    · simp only [Option.some.injEq] at h
      subst h
      exact ⟨rfl, rfl, rfl, rfl, [], by simp⟩
  | cons packet pdp ih =>
    intro q q1 b h
    unfold execute_regular at h
    split_ifs at h with h1 h2 h3
    · obtain ⟨e1, e2, e3, e4, D, e5, e6⟩ := ih _ _ _ h
      refine ⟨e1, e2, e3, ?_, packet :: D, ?_, ?_⟩
      · rw [e4]; simp [deliver, pdo_times_append, pdo_times]
      · simp only [deliver, h2, List.map_nil, List.nil_append] at e5
        simp [h2, e5]
      · rw [e6]; simp [deliver]
    · dsimp only at h
      split_ifs at h with h4
      simp only [Option.some.injEq] at h
      subst h
      exact ⟨rfl, rfl, rfl, rfl, [], by simp [h2]⟩
    · simp only [Option.some.injEq] at h
      subst h
      exact ⟨rfl, rfl, rfl, rfl, [], by simp⟩

/-- One opportunity: a first part `D` of `limbo ++ pdp` is delivered, in order. -/
theorem pdo_spec (t : Nat) (q q1 : DelayQueue) (h : pdo t q = some q1) :
    q1._delay = q._delay ∧ q1._schedule = q._schedule ∧ q1._bin_sec = q._bin_sec ∧
    pdo_times q1._output = pdo_times q._output ++ [t] ∧
    ∃ D, q._limbo.map (fun l => l.packet) ++ q._pdp
          = D ++ (q1._limbo.map (fun l => l.packet) ++ q1._pdp) ∧
      q1._delivered = q._delivered ++ D.map (fun p => p.contents) := by
  unfold pdo at h
  dsimp only at h
  split at h
  · exact absurd h (by simp)
  · next q2 b hl =>
    obtain ⟨e1, e2, e3, e4, D, e5, e6⟩ := execute_regular_spec t _ _ _ _ h
    rcases execute_limbo_cases t _ _ _ _ hl with ⟨c1, c2, _⟩ | ⟨f, c1, _, c2, _⟩ | ⟨f, r, c1, _, c2, _⟩
    · subst c2
      refine ⟨e1, e2, e3, ?_, D, e5, e6⟩
      rw [e4]; simp [pdo_times_append, pdo_times, convert_timestamp]
    · subst c2
      dsimp only [deliver] at e1 e2 e3 e4 e5 e6 c1
      refine ⟨e1, e2, e3, ?_, f.packet :: D, ?_, ?_⟩
      · rw [e4]; simp [pdo_times_append, pdo_times, convert_timestamp]
      · simp only [List.map_nil, List.nil_append] at e5
        simp [c1, e5]
      · rw [e6]; simp
    · subst c2
      dsimp only at e1 e2 e3 e4 e5 e6 c1
      refine ⟨e1, e2, e3, ?_, D, ?_, e6⟩
      · rw [e4]; simp [pdo_times_append, pdo_times, convert_timestamp]
      · rw [← e5]; simp [c1]

/-- The schedule loop fires the opportunities that are due, in order, and keeps the
others; a first part `D` of `limbo ++ pdp` is delivered, in order. -/
theorem execute_schedule_spec (now : Nat) (schedule : List Nat) :
    ∀ (q q1 : DelayQueue), execute_schedule now schedule q = some q1 →
      q1._delay = q._delay ∧ q1._bin_sec = q._bin_sec ∧
      q1._schedule = schedule.dropWhile (fun t => decide (t ≤ now)) ∧
      pdo_times q1._output
        = pdo_times q._output ++ schedule.takeWhile (fun t => decide (t ≤ now)) ∧
      ∃ D, q._limbo.map (fun l => l.packet) ++ q._pdp
            = D ++ (q1._limbo.map (fun l => l.packet) ++ q1._pdp) ∧
        q1._delivered = q._delivered ++ D.map (fun p => p.contents) := by
  induction schedule with
  | nil =>
    intro q q1 h
    simp only [execute_schedule, Option.some.injEq] at h
    subst h
    exact ⟨rfl, rfl, rfl, by simp, [], by simp⟩
  | cons t schedule ih =>
    intro q q1 h
    unfold execute_schedule at h
    split_ifs at h with h1
    · split at h
      · exact absurd h (by simp)
      · next q2 hp =>
        obtain ⟨a1, a2, a3, a4, D1, a5, a6⟩ := pdo_spec t _ _ hp
        obtain ⟨b1, b2, b3, b4, D2, b5, b6⟩ := ih _ _ h
        dsimp only at a1 a2 a3 a4 a5 a6
        refine ⟨b1.trans a1, b2.trans a3, ?_, ?_, D1 ++ D2, ?_, ?_⟩
        · simp [h1, b3]
        · rw [b4, a4]; simp [h1]
        · rw [a5, b5]; simp
        · rw [b6, a6]; simp
    · simp only [Option.some.injEq] at h
      subst h
      exact ⟨rfl, rfl, by simp [h1], by simp [h1], [], by simp⟩

/-! ## The bin rollover -/

theorem bin_rollover_frame (now : Nat) : ∀ (fuel : Nat) (q : DelayQueue),
    (bin_rollover now fuel q)._output = q._output ∧
    (bin_rollover now fuel q)._delay = q._delay ∧
    (bin_rollover now fuel q)._pdp = q._pdp ∧
    (bin_rollover now fuel q)._limbo = q._limbo ∧
    (bin_rollover now fuel q)._schedule = q._schedule ∧
    (bin_rollover now fuel q)._delivered = q._delivered ∧
    (bin_rollover now fuel q)._base_timestamp = q._base_timestamp ∧
    (bin_rollover now fuel q)._packets_added = q._packets_added ∧
    (bin_rollover now fuel q)._packets_dropped = q._packets_dropped := by
  intro fuel
  induction fuel with
  | zero => intro q; simp [bin_rollover]
  | succ n ih =>
    intro q
    unfold bin_rollover
    split_ifs with h
    · have := ih { q with _total_bytes := 0, _used_bytes := 0, _queued_bytes := 0,
                          _bin_sec := (q._bin_sec + 1) % UINT64 }
      simpa using this
    · simp

/-- With nothing to roll over the loop does nothing. -/
theorem bin_rollover_done (now fuel : Nat) (q : DelayQueue) (h : now / 1000 ≤ q._bin_sec) :
    bin_rollover now fuel q = q := by
  cases fuel with
  | zero => rfl
  | succ n => simp [bin_rollover, Nat.not_lt.mpr h]

/-- The loop stops with `_bin_sec` at `now / 1000` or beyond (`now` a `uint64_t`). -/
theorem bin_rollover_bin_sec (now : Nat) (hnow : now < UINT64) : ∀ (fuel : Nat) (q : DelayQueue),
    now / 1000 - q._bin_sec ≤ fuel → now / 1000 ≤ (bin_rollover now fuel q)._bin_sec := by
  intro fuel
  induction fuel with
  | zero => intro q h; simp only [bin_rollover]; omega
  | succ n ih =>
    intro q h
    unfold bin_rollover
    split_ifs with h1
    · apply ih
      have : q._bin_sec + 1 < UINT64 := by unfold UINT64 at *; omega
      simp only [Nat.mod_eq_of_lt this]
      omega
    · omega

/-! ## Loading the schedule -/

theorem schedule_loop_eq (base : Nat) (file : List Nat) :
    ∀ (schedule s : List Nat), schedule_loop base file schedule = some s →
      s = schedule ++ file.map (fun ms => (ms + base) % UINT64) := by
  induction file with
  | nil => intro schedule s h; simp only [schedule_loop, Option.some.injEq] at h; simp [h]
  | cons ms file ih =>
    intro schedule s h
    unfold schedule_loop at h
    dsimp only at h
    split at h
    · rw [ih _ _ h]; simp
    · split_ifs at h
      rw [ih _ _ h]; simp

theorem schedule_loop_sorted (base : Nat) (file : List Nat) :
    ∀ (schedule : List Nat),
      List.Chain' (fun a b => a ≤ b) (schedule ++ file.map (fun ms => (ms + base) % UINT64)) →
      schedule_loop base file schedule
        = some (schedule ++ file.map (fun ms => (ms + base) % UINT64)) := by
  induction file with
  | nil => intro schedule _; simp [schedule_loop]
  | cons ms file ih =>
    intro schedule h
    have h2 : List.Chain' (fun a b => a ≤ b)
        ((schedule ++ [(ms + base) % UINT64]) ++ file.map (fun ms => (ms + base) % UINT64)) := by
      simpa using h
    unfold schedule_loop
    dsimp only
    split
    · rw [ih _ h2]; simp
    · next back hb =>
      have hle : back ≤ (ms + base) % UINT64 := by
        rw [List.chain'_append] at h
        exact h.2.2 back hb _ (by simp)
      rw [if_pos hle, ih _ h2]; simp

theorem schedule_from_file_eq (c : Config) (base : Nat) (q q1 : DelayQueue)
    (h : schedule_from_file c base q = some q1) :
    q._schedule = [] ∧ q1 = { q with _schedule := reload c base } := by
  unfold schedule_from_file at h
  split_ifs at h with h1
  split at h
  · exact absurd h (by simp)
  · next s hs =>
    have := schedule_loop_eq _ _ _ _ hs
    simp only [Option.some.injEq] at h
    subst h
    rw [h1] at this
    simp only [List.nil_append] at this
    exact ⟨h1, by rw [this]; rfl⟩

/-! ## `tick` -/

/-- The work of `tick`: packets released by `now` move to `pdp`, the opportunities due
by `now` fire in order, a first part `D` of the packets is delivered in order. -/
theorem tick_spec (c : Config) (now : Nat) (q q1 : DelayQueue) (h : tick c now q = some q1) :
    q1._delay = q._delay.dropWhile (fun p => decide (p.release_time ≤ now)) ∧
    q1._schedule = (due_schedule c now q).dropWhile (fun t => decide (t ≤ now)) ∧
    pdo_times q1._output
      = pdo_times q._output ++ (due_schedule c now q).takeWhile (fun t => decide (t ≤ now)) ∧
    (now < UINT64 → now / 1000 ≤ q1._bin_sec) ∧
    ∃ D, q._limbo.map (fun l => l.packet) ++ q._pdp
            ++ q._delay.takeWhile (fun p => decide (p.release_time ≤ now))
          = D ++ (q1._limbo.map (fun l => l.packet) ++ q1._pdp) ∧
      q1._delivered = q._delivered ++ D.map (fun p => p.contents) := by
  unfold tick at h
  split at h
  · exact absurd h (by simp)
  · next q2 hq2 =>
    dsimp only at h
    split at h
    · exact absurd h (by simp)
    · next q3 hq3 =>
      simp only [Option.some.injEq] at h
      have hq2' : q2 = { q with _schedule := due_schedule c now q } := by
        unfold due_schedule
        split_ifs at hq2 with he
        · rw [if_pos he]; exact (schedule_from_file_eq c now q q2 hq2).2
        · rw [if_neg he]; simp only [Option.some.injEq] at hq2; rw [← hq2]
      subst hq2'
      obtain ⟨a1, a2, a3, a4, D, a5, a6⟩ := execute_schedule_spec now _ _ _ hq3
      obtain ⟨f1, f2, f3, f4, f5, f6, -⟩ := bin_rollover_frame now (now / 1000 - q3._bin_sec) q3
      dsimp only at a1 a2 a3 a4 a5 a6
      rw [migrate_fst] at a1
      rw [migrate_snd] at a5
      subst h
      refine ⟨by rw [f2, a1], by rw [f5, a3], by rw [f1, a4], ?_, D, ?_, ?_⟩
      · intro hnow
        exact bin_rollover_bin_sec now hnow _ _ (le_refl _)
      · rw [f4, f3, ← a5]; simp
      · rw [f6, a6]

/-- The packets `tick` delivers are a first part `D` of the pending ones; a packet it
delivers or leaves in `limbo` or `pdp` was there before or was released by `now`. -/
theorem tick_pending (c : Config) (now : Nat) (q q1 : DelayQueue)
    (h : tick c now q = some q1) :
    ∃ D, pending q = D ++ pending q1 ∧
      q1._delivered = q._delivered ++ D.map (fun p => p.contents) ∧
      ∀ p, p ∈ D ++ (q1._limbo.map (fun l => l.packet) ++ q1._pdp) →
        p ∈ q._limbo.map (fun l => l.packet) ++ q._pdp ∨
        (p ∈ q._delay ∧ p.release_time ≤ now) := by
  obtain ⟨h1, -, -, -, D, h5, h6⟩ := tick_spec c now q q1 h
  refine ⟨D, ?_, h6, ?_⟩
  · unfold pending
    rw [h1, ← List.append_assoc D, ← h5]
    simp [List.takeWhile_append_dropWhile]
  · intro p hp
    rw [← h5, List.mem_append] at hp
    rcases hp with hp | hp
    · exact Or.inl hp
    · exact Or.inr ⟨List.takeWhile_subset _ hp, by simpa using List.mem_takeWhile_imp hp⟩

theorem tick_flow (c : Config) (now : Nat) (q q1 : DelayQueue) (h : tick c now q = some q1) :
    flow q1 = flow q := by
  obtain ⟨D, h1, h2, -⟩ := tick_pending c now q q1 h
  unfold flow
  rw [h1, h2]; simp

theorem write_flow (c : Config) (now : Nat) (r : ℚ) (packet : Payload) (q : DelayQueue) :
    flow (write c now r packet q)
      = if accepts c r q then flow q ++ [packet] else flow q := by
  unfold write accepts flow pending queue_limit_in_packets
  dsimp only
  by_cases h1 : r < c._loss_rate
  · simp [h1]
  · by_cases h2 : q._delay.length < 256
    · simp [h1, h2, Nat.not_le.mpr h2]
    · simp [h1, h2, Nat.not_lt.mp h2]

theorem read_flow (c : Config) (now : Nat) (q q1 : DelayQueue) (out : List Payload)
    (h : read c now q = some (out, q1)) : out ++ flow q1 = flow q := by
  unfold read at h
  split at h
  · exact absurd h (by simp)
  · next q2 hq2 =>
    simp only [Option.some.injEq, Prod.mk.injEq] at h
    rw [← tick_flow c now q q2 hq2, ← h.1, ← h.2]
    simp [flow, pending]

theorem wait_time_tick (c : Config) (now : Nat) (q q1 : DelayQueue) (w : Int)
    (h : wait_time c now q = some (w, q1)) : tick c now q = some q1 := by
  unfold wait_time at h
  split at h
  · exact absurd h (by simp)
  · next q2 hq2 =>
    dsimp only at h
    split at h
    · simp only [Option.some.injEq, Prod.mk.injEq] at h
      rw [hq2, h.2]
    · split_ifs at h
      simp only [Option.some.injEq, Prod.mk.injEq] at h
      rw [hq2, h.2]

theorem call_flow (c : Config) (h h1 : History) (k : Call) (hk : call c h k = some h1) :
    h1.returned ++ flow h1.queue = h.returned ++ flow h.queue ++
      (h1.accepted.drop h.accepted.length) ∧
    h1.accepted = h.accepted ++ h1.accepted.drop h.accepted.length := by
  cases k with
  | write now r packet =>
    simp only [call, Option.some.injEq] at hk
    subst hk
    dsimp only
    rw [write_flow]
    by_cases ha : accepts c r h.queue = true
    · simp [ha]
    · simp [ha]
  | read now =>
    simp only [call] at hk
    split at hk
    · exact absurd hk (by simp)
    · next out q hr =>
      simp only [Option.some.injEq] at hk
      subst hk
      simp [← read_flow c now _ _ _ hr]
  | wait_time now =>
    simp only [call] at hk
    split at hk
    · exact absurd hk (by simp)
    · next w q hw =>
      simp only [Option.some.injEq] at hk
      subst hk
      simp [tick_flow c now _ _ (wait_time_tick c now _ _ _ hw)]

theorem run_flow (c : Config) (calls : List Call) :
    ∀ (h h1 : History), run c h calls = some h1 →
      ∃ new, h1.accepted = h.accepted ++ new ∧
        h1.returned ++ flow h1.queue = h.returned ++ flow h.queue ++ new := by
  induction calls with
  | nil =>
    intro h h1 hr
    simp only [run, Option.some.injEq] at hr
    subst hr
    exact ⟨[], by simp, by simp⟩
  | cons k calls ih =>
    intro h h1 hr
    unfold run at hr
    split at hr
    · exact absurd hr (by simp)
    · next h2 hk =>
      obtain ⟨new, e1, e2⟩ := ih h2 h1 hr
      obtain ⟨f1, f2⟩ := call_flow c h h2 k hk
      refine ⟨h2.accepted.drop h.accepted.length ++ new, ?_, ?_⟩
      · rw [e1, ← List.append_assoc, ← f2]
      · rw [e2, f1]; simp

theorem init_fields (c : Config) (base : Nat) (q : DelayQueue) (h : init c base = some q) :
    q._delay = [] ∧ q._pdp = [] ∧ q._limbo = [] ∧ q._delivered = [] ∧
    q._schedule = reload c base ∧ q._total_bytes = 0 ∧ q._used_bytes = 0 ∧
    q._bin_sec = base / 1000 := by
  unfold init at h
  split at h
  · exact absurd h (by simp)
  · next q2 hq2 =>
    obtain ⟨-, e⟩ := schedule_from_file_eq c base _ _ hq2
    simp only [Option.some.injEq] at h
    subst h; subst e
    simp

/-! ## Release times along a run -/

theorem read_tick (c : Config) (now : Nat) (q q1 : DelayQueue) (out : List Payload)
    (h : read c now q = some (out, q1)) :
    ∃ q2, tick c now q = some q2 ∧ out = q2._delivered ∧ q1 = { q2 with _delivered := [] } := by
  unfold read at h
  split at h
  · exact absurd h (by simp)
  · next q2 hq2 =>
    simp only [Option.some.injEq, Prod.mk.injEq] at h
    exact ⟨q2, hq2, h.1.symm, h.2.symm⟩

/-- What holds of the packets of a queue whose last call was made at `T` or before. -/
theorem tick_released (c : Config) (T now : Nat) (q q1 : DelayQueue) (hT : T ≤ now)
    (h : tick c now q = some q1)
    (h1 : ∀ p ∈ q._limbo.map (fun l => l.packet) ++ q._pdp, p.release_time ≤ T)
    (h2 : ∀ p ∈ pending q, p.entry_time ≤ T ∧
      p.release_time = (p.entry_time + c._ms_delay) % UINT64) :
    (∀ p ∈ q1._limbo.map (fun l => l.packet) ++ q1._pdp, p.release_time ≤ now) ∧
    (∀ p ∈ pending q1, p.entry_time ≤ now ∧
      p.release_time = (p.entry_time + c._ms_delay) % UINT64) := by
  obtain ⟨D, e1, -, e3⟩ := tick_pending c now q q1 h
  constructor
  · intro p hp
    rcases e3 p (List.mem_append_right D hp) with hq | hq
    · exact le_trans (h1 p hq) hT
    · exact hq.2
  · intro p hp
    have := h2 p (by rw [e1]; exact List.mem_append_right D hp)
    exact ⟨le_trans this.1 hT, this.2⟩

theorem reachableAt_released (c : Config) (T : Nat) (q : DelayQueue) (h : ReachableAt c T q) :
    (∀ p ∈ q._limbo.map (fun l => l.packet) ++ q._pdp, p.release_time ≤ T) ∧
    (∀ p ∈ pending q, p.entry_time ≤ T ∧
      p.release_time = (p.entry_time + c._ms_delay) % UINT64) := by
  induction h with
  | init base T q h0 =>
    obtain ⟨i1, i2, i3, -⟩ := init_fields c base q h0
    simp [pending, i1, i2, i3]
  | write T q now r packet _ hT ih =>
    obtain ⟨ih1, ih2⟩ := ih
    have hl : (write c now r packet q)._limbo = q._limbo := by
      unfold write; dsimp only; split_ifs <;> rfl
    have hp : (write c now r packet q)._pdp = q._pdp := by
      unfold write; dsimp only; split_ifs <;> rfl
    have hd : (write c now r packet q)._delay = q._delay ∨
        (write c now r packet q)._delay
          = q._delay ++ [⟨now, (now + c._ms_delay) % UINT64, packet⟩] := by
      unfold write; dsimp only; split_ifs
      · exact Or.inl rfl
      · exact Or.inl rfl
      · exact Or.inr rfl
    constructor
    · intro p hm
      rw [hl, hp] at hm
      exact le_trans (ih1 p hm) hT
    · intro p hm
      unfold pending at hm ih2
      rw [hl, hp] at hm
      rcases hd with hd | hd
      · rw [hd] at hm
        exact ⟨le_trans (ih2 p hm).1 hT, (ih2 p hm).2⟩
      · rw [hd, ← List.append_assoc, List.mem_append] at hm
        rcases hm with hm | hm
        · exact ⟨le_trans (ih2 p hm).1 hT, (ih2 p hm).2⟩
        · simp only [List.mem_singleton] at hm
          rw [hm]
          exact ⟨le_refl _, rfl⟩
  | read T q now out q1 _ hT hr ih =>
    obtain ⟨q2, t1, -, t3⟩ := read_tick c now q q1 out hr
    have := tick_released c T now q q2 hT t1 ih.1 ih.2
    subst t3
    exact this
  | wait_time T q now w q1 _ hT hw ih =>
    exact tick_released c T now q q1 hT (wait_time_tick c now q q1 w hw) ih.1 ih.2

/-! ## A second `tick` at the same time -/

theorem migrate_dropWhile (now : Nat) (delay pdp : List DelayedPacket) :
    migrate now (delay.dropWhile (fun p => decide (p.release_time ≤ now))) pdp
      = (delay.dropWhile (fun p => decide (p.release_time ≤ now)), pdp) := by
  induction delay with
  | nil => rfl
  | cons p delay ih =>
    by_cases h : p.release_time ≤ now
    · simpa [List.dropWhile, h] using ih
    · simp [List.dropWhile, h, migrate]

theorem execute_schedule_dropWhile (now : Nat) (schedule : List Nat) (q : DelayQueue) :
    execute_schedule now (schedule.dropWhile (fun t => decide (t ≤ now))) q
      = some { q with _schedule := schedule.dropWhile (fun t => decide (t ≤ now)) } := by
  induction schedule with
  | nil => rfl
  | cons t schedule ih =>
    by_cases h : t ≤ now
    · simpa [List.dropWhile, h] using ih
    · simp [List.dropWhile, h, execute_schedule]

/-! ## The queue limit -/

theorem write_all_delay (c : Config) (now : Nat) (ws : List (ℚ × Payload))
    (hw : ∀ w ∈ ws, ¬ w.1 < c._loss_rate) :
    ∀ (q : DelayQueue),
      (write_all c now ws q)._delay = q._delay ++
        (ws.take (queue_limit_in_packets - q._delay.length)).map
          (fun w => ⟨now, (now + c._ms_delay) % UINT64, w.2⟩) ∧
      (write_all c now ws q)._delivered = q._delivered := by
  induction ws with
  | nil => intro q; simp [write_all]
  | cons w ws ih =>
    intro q
    have hw1 : ¬ w.1 < c._loss_rate := hw w (List.mem_cons_self _ _)
    obtain ⟨e1, e2⟩ := ih (fun x hx => hw x (List.mem_cons_of_mem _ hx)) (write c now w.1 w.2 q)
    unfold write_all
    rw [e1, e2]
    unfold write queue_limit_in_packets
    dsimp only
    by_cases hfull : 256 ≤ q._delay.length
    · have h0 : 256 - q._delay.length = 0 := by omega
      simp [hw1, hfull, h0]
    · have h1 : 256 - q._delay.length = (256 - (q._delay.length + 1)) + 1 := by omega
      simp only [hw1, if_false, ge_iff_le, hfull, List.length_append, List.length_singleton]
      rw [h1, List.take_succ_cons]
      simp

/-! ## Between two reads -/

theorem run_no_read (c : Config) (calls : List Call) :
    ∀ (h h1 : History), no_read calls = true → run c h calls = some h1 →
      h1.returned = h.returned := by
  induction calls with
  | nil =>
    intro h h1 _ hr
    simp only [run, Option.some.injEq] at hr
    rw [hr]
  | cons k calls ih =>
    intro h h1 hn hr
    unfold run at hr
    split at hr
    · exact absurd hr (by simp)
    · next h2 hk =>
      cases k with
      | read now => simp [no_read] at hn
      | write now r packet =>
        simp only [call, Option.some.injEq] at hk
        rw [ih h2 h1 (by simpa [no_read] using hn) hr, ← hk]
      | wait_time now =>
        simp only [call] at hk
        split at hk
        · exact absurd hk (by simp)
        · simp only [Option.some.injEq] at hk
          rw [ih h2 h1 (by simpa [no_read] using hn) hr, ← hk]

/-! ## After `tick` nothing is due -/

theorem dropWhile_front {α : Type} (P : α → Bool) (l : List α) (x : α) (xs : List α)
    (h : l.dropWhile P = x :: xs) : P x = false := by
  induction l with
  | nil => simp at h
  | cons y l ih =>
    rw [List.dropWhile_cons] at h
    split_ifs at h with hy
    · exact ih h
    · simp only [List.cons.injEq] at h
      rw [← h.1]; simpa using hy

/-- After `tick` the front of `delay` is not released yet and the front of `schedule`
is not due yet. -/
theorem tick_fronts (c : Config) (now : Nat) (q q1 : DelayQueue) (h : tick c now q = some q1) :
    (∀ p rest, q1._delay = p :: rest → now < p.release_time) ∧
    (∀ t rest, q1._schedule = t :: rest → now < t) := by
  obtain ⟨e1, e2, -⟩ := tick_spec c now q q1 h
  constructor
  · intro p rest hp
    rw [e1] at hp
    have := dropWhile_front _ _ _ _ hp
    simpa using this
  · intro t rest ht
    rw [e2] at ht
    have := dropWhile_front _ _ _ _ ht
    simpa using this

/-! ## The assertions of `tick` hold when the limbo queue is in order -/

theorem execute_regular_zero (t : Nat) (pdp : List DelayedPacket) (q : DelayQueue) (b : Int)
    (hb : b ≤ 0) (hp : q._pdp = pdp) : execute_regular t pdp q b = some q := by
  subst hp
  cases hq : q._pdp with
  | nil =>
    unfold execute_regular
    rw [if_neg (by omega)]
    cases q; simp only at hq; subst hq; rfl
  | cons p pdp =>
    unfold execute_regular
    rw [if_neg (by omega)]
    cases q; simp only at hq; subst hq; rfl

theorem execute_regular_ok (t : Nat) (pdp : List DelayedPacket) :
    ∀ (q : DelayQueue) (b : Int), q._limbo = [] →
      ∃ q1, execute_regular t pdp q b = some q1 ∧ LimboOK q1 := by
  induction pdp with
  | nil =>
    intro q b hl
    unfold execute_regular
    split_ifs
    · exact ⟨_, rfl, Or.inl hl⟩
    · exact ⟨_, rfl, Or.inl hl⟩
  | cons packet pdp ih =>
    intro q b hl
    unfold execute_regular
    split_ifs with h1 h2
    · exact ih _ _ hl
    · dsimp only
      rw [hl]
      simp only [List.nil_append, sub_self]
      have : to_int 0 = 0 := by decide
      rw [if_pos this]
      refine ⟨_, rfl, Or.inr ⟨⟨b, packet⟩, rfl, by dsimp only; omega, by dsimp only; omega⟩⟩
    · exact ⟨_, rfl, Or.inl hl⟩

theorem pdo_ok (t : Nat) (q : DelayQueue) (h : LimboOK q) :
    ∃ q1, pdo t q = some q1 ∧ LimboOK q1 := by
  unfold pdo
  dsimp only
  rcases h with h | ⟨l, h, hl1, hl2⟩
  · unfold execute_limbo
    simp only [h]
    exact execute_regular_ok t _ _ _ rfl
  · unfold execute_limbo
    simp only [h]
    by_cases hc : to_int (l.bytes_earned + SERVICE_PACKET_SIZE)
        ≥ to_int l.packet.contents.length
    · rw [if_pos hc]
      have hleft : to_int (to_u64 (to_u64 SERVICE_PACKET_SIZE
          - to_u64 ((l.packet.contents.length : Int) - to_u64 l.bytes_earned))) ≥ 0 := by
        rw [to_int_sub_sub_u64]
        unfold to_int SERVICE_PACKET_SIZE at *
        omega
      rw [if_pos hleft]
      simp only [if_true]
      exact execute_regular_ok t _ _ _ rfl
    · rw [if_neg hc, if_pos (by omega)]
      simp only
      refine ⟨_, execute_regular_zero t _ _ 0 (le_refl 0) rfl, Or.inr ⟨_, rfl, ?_, ?_⟩⟩
      · exact (to_int_bounds _).1
      · dsimp only; omega

theorem execute_schedule_ok (now : Nat) (schedule : List Nat) :
    ∀ (q : DelayQueue), LimboOK q →
      ∃ q1, execute_schedule now schedule q = some q1 ∧ LimboOK q1 := by
  induction schedule with
  | nil => intro q h; exact ⟨_, rfl, h⟩
  | cons t schedule ih =>
    intro q h
    unfold execute_schedule
    split_ifs with h1
    · obtain ⟨q1, e1, e2⟩ := pdo_ok t { q with _schedule := schedule } h
      rw [e1]
      exact ih q1 e2
    · exact ⟨_, rfl, h⟩

/-- `tick` returns when the limbo queue is in order and the schedule, if it has to be
reloaded, comes out non-decreasing. -/
theorem tick_ok (c : Config) (now : Nat) (q : DelayQueue) (h : LimboOK q)
    (hs : q._schedule = [] → List.Chain' (fun a b => a ≤ b) (reload c now)) :
    ∃ q1, tick c now q = some q1 ∧ LimboOK q1 := by
  have hrl : ∀ (fuel : Nat) (q : DelayQueue), LimboOK q → LimboOK (bin_rollover now fuel q) := by
    intro fuel q hq
    unfold LimboOK
    rw [(bin_rollover_frame now fuel q).2.2.2.1]
    exact hq
  unfold tick
  by_cases he : q._schedule = []
  · rw [if_pos he]
    unfold schedule_from_file
    rw [if_pos he, he]
    have := schedule_loop_sorted now c.trace [] (by simpa [reload] using hs he)
    rw [this]
    dsimp only
    obtain ⟨q1, e1, e2⟩ := execute_schedule_ok now ([] ++ List.map (fun ms => (ms + now) % UINT64) c.trace)
      { q with _schedule := [] ++ List.map (fun ms => (ms + now) % UINT64) c.trace,
               _delay := (migrate now q._delay q._pdp).1,
               _pdp := (migrate now q._delay q._pdp).2 } h
    rw [e1]
    exact ⟨_, rfl, hrl _ _ e2⟩
  · rw [if_neg he]
    dsimp only
    obtain ⟨q1, e1, e2⟩ := execute_schedule_ok now q._schedule
      { q with _delay := (migrate now q._delay q._pdp).1,
               _pdp := (migrate now q._delay q._pdp).2 } h
    rw [e1]
    exact ⟨_, rfl, hrl _ _ e2⟩

/-! ## A packet in limbo -/

theorem execute_regular_output (t : Nat) (pdp : List DelayedPacket) :
    ∀ (q q1 : DelayQueue) (b : Int), execute_regular t pdp q b = some q1 →
      ∃ L, q1._output = q._output ++ L := by
  induction pdp with
  | nil =>
    intro q q1 b h
    unfold execute_regular at h
    split_ifs at h <;> simp only [Option.some.injEq] at h <;> subst h <;> exact ⟨[], by simp⟩
  | cons packet pdp ih =>
    intro q q1 b h
    unfold execute_regular at h
    split_ifs at h with h1 h2 h3
    · obtain ⟨L, e⟩ := ih _ _ _ h
      exact ⟨[LogLine.delivery (convert_timestamp t) packet.contents.length
        (to_int (to_u64 ((t : Int) - packet.entry_time)))] ++ L, by rw [e]; simp [deliver]⟩
    · dsimp only at h
      split_ifs at h
      simp only [Option.some.injEq] at h
      subst h
      exact ⟨[], by simp⟩
    · simp only [Option.some.injEq] at h
      subst h
      exact ⟨[], by simp⟩

/-- An opportunity that cannot complete the packet in limbo adds its 1514 bytes to
`bytes_earned` and does nothing else. -/
theorem pdo_limbo_grows (t : Nat) (q : DelayQueue) (p : DelayedPacket) (b : Int)
    (hq : q._limbo = [⟨b, p⟩]) (hb : 0 < b) (hlt : b + 1514 < p.contents.length)
    (hs : (p.contents.length : Int) ≤ 2147482134) :
    pdo t q = some { q with _limbo := [⟨b + 1514, p⟩],
                            _output := q._output ++ [LogLine.opportunity t 1514] } := by
  have e1 : to_int (b + 1514) = b + 1514 := to_int_of_bounds _ (by omega) (by omega)
  have e2 : to_int (p.contents.length : Int) = p.contents.length :=
    to_int_of_bounds _ (by omega) (by omega)
  unfold pdo execute_limbo
  simp only [hq, SERVICE_PACKET_SIZE, e1, e2, convert_timestamp]
  rw [if_neg (by omega), if_pos hlt]
  exact execute_regular_zero t _ _ 0 (le_refl 0) rfl

/-- An opportunity that can complete the packet in limbo delivers it before anything
else. -/
theorem pdo_limbo_complete (t : Nat) (q : DelayQueue) (p : DelayedPacket) (b : Int)
    (hq : q._limbo = [⟨b, p⟩]) (hbs : b < p.contents.length)
    (hge : (p.contents.length : Int) ≤ b + 1514)
    (hs : (p.contents.length : Int) ≤ 2147482134) :
    ∃ q2 D, pdo t q = some q2 ∧
      q2._delivered = q._delivered ++ p.contents :: D.map (fun x => x.contents) ∧
      q._pdp = D ++ (q2._limbo.map (fun l => l.packet) ++ q2._pdp) ∧
      LogLine.delivery t p.contents.length (to_int (to_u64 ((t : Int) - p.entry_time)))
        ∈ q2._output := by
  have e1 : to_int (b + 1514) = b + 1514 := to_int_of_bounds _ (by omega) (by omega)
  have e2 : to_int (p.contents.length : Int) = p.contents.length :=
    to_int_of_bounds _ (by omega) (by omega)
  have e3 : to_int (1514 - ((p.contents.length : Int) - b)) = 1514 - (p.contents.length - b) :=
    to_int_of_bounds _ (by omega) (by omega)
  unfold pdo execute_limbo
  simp only [hq, SERVICE_PACKET_SIZE, e1, e2, convert_timestamp, to_int_sub_sub_u64, e3]
  rw [if_pos (by omega), if_pos (by omega)]
  simp only [if_true]
  obtain ⟨q2, f1, -⟩ := execute_regular_ok t q._pdp
    { deliver t p { q with _output := q._output ++ [LogLine.opportunity t 1514] } with
      _limbo := [] } (1514 - ((p.contents.length : Int) - b)) rfl
  obtain ⟨-, -, -, -, D, g1, g2⟩ := execute_regular_spec t _ _ _ _ f1
  obtain ⟨L, g3⟩ := execute_regular_output t _ _ _ _ f1
  refine ⟨q2, D, f1, ?_, ?_, ?_⟩
  · rw [g2]; simp [deliver]
  · simpa using g1
  · rw [g3]; simp [deliver, convert_timestamp]

theorem fire_grows (p : DelayedPacket) (hs : (p.contents.length : Int) ≤ 2147482134)
    (ts : List Nat) :
    ∀ (q : DelayQueue) (b : Int), q._limbo = [⟨b, p⟩] → 0 < b →
      b + 1514 * ts.length < p.contents.length →
      ∃ q1, fire ts q = some q1 ∧ q1._limbo = [⟨b + 1514 * ts.length, p⟩] ∧
        q1._delivered = q._delivered ∧ q1._pdp = q._pdp := by
  induction ts with
  | nil => intro q b hq _ _; exact ⟨q, rfl, by simpa using hq, rfl, rfl⟩
  | cons t ts ih =>
    intro q b hq hb hlt
    simp only [List.length_cons, Nat.cast_add, Nat.cast_one] at hlt
    unfold fire
    rw [pdo_limbo_grows t q p b hq hb (by omega) hs]
    dsimp only
    obtain ⟨q1, e1, e2, e3, e4⟩ := ih
      { q with _limbo := [⟨b + 1514, p⟩],
               _output := q._output ++ [LogLine.opportunity t 1514] }
      (b + 1514) rfl (by omega) (by omega)
    refine ⟨q1, e1, ?_, e3, e4⟩
    rw [e2]
    simp only [List.length_cons, Nat.cast_add, Nat.cast_one]
    congr 2
    ring

/-- An opportunity that finds `limbo` empty and a packet larger than 1514 bytes at
the head of `pdp` puts it in limbo with 1514 bytes earned. -/
theorem pdo_pdp_limbo (t : Nat) (q : DelayQueue) (p : DelayedPacket) (rest : List DelayedPacket)
    (hl : q._limbo = []) (hp : q._pdp = p :: rest) (hgt : 1514 < (p.contents.length : Int))
    (hs : (p.contents.length : Int) ≤ 2147482134) :
    pdo t q = some { q with _pdp := rest, _limbo := [⟨1514, p⟩],
                            _output := q._output ++ [LogLine.opportunity t 1514] } := by
  have e2 : to_int (p.contents.length : Int) = p.contents.length :=
    to_int_of_bounds _ (by omega) (by omega)
  have e3 : to_int 0 = 0 := by decide
  unfold pdo execute_limbo
  simp only [hl, hp, SERVICE_PACKET_SIZE, convert_timestamp]
  unfold execute_regular
  simp only [e2, List.nil_append, sub_self, e3]
  rw [if_pos (by decide), if_pos trivial, if_neg (by omega), if_pos trivial]

theorem ceil_div_1514 (x n : Int) (h : n = ⌈((x : Int) : ℚ) / 1514⌉) :
    1514 * (n - 1) < x ∧ x ≤ 1514 * n := by
  have h2 := (Int.ceil_eq_iff.mp h.symm)
  obtain ⟨h3, h4⟩ := h2
  rw [lt_div_iff₀ (by norm_num : (0 : ℚ) < 1514)] at h3
  rw [div_le_iff₀ (by norm_num : (0 : ℚ) < 1514)] at h4
  constructor
  · have : (((n - 1) * 1514 : Int) : ℚ) < ((x : Int) : ℚ) := by push_cast; exact h3
    have := Int.cast_lt.mp this
    omega
  · have : ((x : Int) : ℚ) ≤ ((n * 1514 : Int) : ℚ) := by push_cast; exact h4
    have := Int.cast_le.mp this
    omega

theorem limbo_completion_steps (p : DelayedPacket) (hs : (p.contents.length : Int) ≤ 2147482134)
    (b : Int) (ts : List Nat) (t : Nat) (q : DelayQueue) (hb : 0 < b)
    (hq : q._limbo = [⟨b, p⟩])
    (h1 : 1514 * (ts.length : Int) < (p.contents.length : Int) - b)
    (h2 : (p.contents.length : Int) - b ≤ 1514 * ((ts.length : Int) + 1)) :
    (∀ j, j ≤ ts.length → ∃ qj, fire (ts.take j) q = some qj ∧
      qj._limbo = [⟨b + 1514 * j, p⟩] ∧ qj._delivered = q._delivered ∧ qj._pdp = q._pdp) ∧
    ∃ q1 q2 D, fire ts q = some q1 ∧ pdo t q1 = some q2 ∧
      q2._delivered = q._delivered ++ p.contents :: D.map (fun x => x.contents) ∧
      q._pdp = D ++ (q2._limbo.map (fun l => l.packet) ++ q2._pdp) ∧
      LogLine.delivery t p.contents.length (to_int (to_u64 ((t : Int) - p.entry_time)))
        ∈ q2._output := by
  constructor
  · intro j hj
    have hlen : (ts.take j).length = j := by simp [hj]
    have hj' : (j : Int) ≤ ts.length := by exact_mod_cast hj
    obtain ⟨qj, e1, e2, e3, e4⟩ := fire_grows p hs (ts.take j) q b hq hb
      (by rw [hlen]; omega)
    exact ⟨qj, e1, by rw [e2, hlen], e3, e4⟩
  · obtain ⟨q1, e1, e2, e3, e4⟩ := fire_grows p hs ts q b hq hb (by omega)
    obtain ⟨q2, D, f1, f2, f3, f4⟩ := pdo_limbo_complete t q1 p (b + 1514 * ts.length) e2
      (by omega) (by omega) hs
    exact ⟨q1, q2, D, e1, f1, by rw [f2, e3], by rw [← e4, f3], f4⟩

/-! ## Growth of the log -/

theorem pdo_output (t : Nat) (q q1 : DelayQueue) (h : pdo t q = some q1) :
    ∃ L, q1._output = q._output ++ L := by
  unfold pdo at h
  dsimp only at h
  split at h
  · exact absurd h (by simp)
  · next q2 b hl =>
    obtain ⟨L, e⟩ := execute_regular_output t _ _ _ _ h
    rcases execute_limbo_cases t _ _ _ _ hl with ⟨_, c2, _⟩ | ⟨f, _, _, c2, _⟩ | ⟨f, r, _, _, c2, _⟩
    · subst c2
      exact ⟨[LogLine.opportunity (convert_timestamp t) SERVICE_PACKET_SIZE] ++ L,
        by rw [e]; simp⟩
    · subst c2
      exact ⟨[LogLine.opportunity (convert_timestamp t) SERVICE_PACKET_SIZE,
        LogLine.delivery (convert_timestamp t) f.packet.contents.length
          (to_int (to_u64 ((t : Int) - f.packet.entry_time)))] ++ L, by rw [e]; simp [deliver]⟩
    · subst c2
      exact ⟨[LogLine.opportunity (convert_timestamp t) SERVICE_PACKET_SIZE] ++ L,
        by rw [e]; simp⟩

theorem execute_schedule_output (now : Nat) (schedule : List Nat) :
    ∀ (q q1 : DelayQueue), execute_schedule now schedule q = some q1 →
      ∃ L, q1._output = q._output ++ L := by
  induction schedule with
  | nil =>
    intro q q1 h
    simp only [execute_schedule, Option.some.injEq] at h
    subst h
    exact ⟨[], by simp⟩
  | cons t schedule ih =>
    intro q q1 h
    unfold execute_schedule at h
    split_ifs at h with h1
    · split at h
      · exact absurd h (by simp)
      · next q2 hp =>
        obtain ⟨L1, e1⟩ := pdo_output t _ _ hp
        obtain ⟨L2, e2⟩ := ih _ _ h
        exact ⟨L1 ++ L2, by rw [e2, e1]; simp⟩
    · simp only [Option.some.injEq] at h
      subst h
      exact ⟨[], by simp⟩

/-- An opportunity that finds `limbo` empty and at the head of `pdp` a packet of at
most 1514 bytes delivers that packet first. -/
theorem pdo_head_fits (t : Nat) (q : DelayQueue) (p : DelayedPacket) (rest : List DelayedPacket)
    (hl : q._limbo = []) (hp : q._pdp = p :: rest) (hsz : p.contents.length ≤ 1514) :
    ∃ (q1 : DelayQueue) (D : List DelayedPacket), pdo t q = some q1 ∧ LimboOK q1 ∧
      q1._delivered = q._delivered ++ p.contents :: D.map (fun x => x.contents) ∧
      ∃ L, q1._output = q._output ++ LogLine.opportunity t 1514 ::
        LogLine.delivery t p.contents.length (to_int (to_u64 ((t : Int) - p.entry_time)))
          :: L := by
  have e2 : to_int (p.contents.length : Int) = p.contents.length :=
    to_int_of_bounds _ (by omega) (by omega)
  unfold pdo execute_limbo
  simp only [hl, hp, SERVICE_PACKET_SIZE, convert_timestamp]
  unfold execute_regular
  simp only [e2]
  rw [if_pos (by decide), if_pos trivial, if_pos (by omega)]
  obtain ⟨q1, f1, f2⟩ := execute_regular_ok t rest
    (deliver t p { q with _output := q._output ++ [LogLine.opportunity t 1514],
                          _limbo := [], _pdp := p :: rest })
    (to_int (to_u64 (to_u64 1514 - (p.contents.length : Int)))) rfl
  obtain ⟨-, -, -, -, D, -, g2⟩ := execute_regular_spec t _ _ _ _ f1
  obtain ⟨L, g3⟩ := execute_regular_output t _ _ _ _ f1
  refine ⟨q1, D, f1, f2, ?_, L, ?_⟩
  · rw [g2]; simp [deliver]
  · rw [g3]; simp [deliver, convert_timestamp]

theorem takeWhile_eq_filter_of_sorted (now : Nat) (l : List Nat)
    (h : l.Sorted (fun a b => a ≤ b)) :
    l.takeWhile (fun t => decide (t ≤ now)) = l.filter (fun t => decide (t ≤ now)) ∧
    l.dropWhile (fun t => decide (t ≤ now)) = l.filter (fun t => decide (now < t)) := by
  induction l with
  | nil => simp
  | cons a l ih =>
    obtain ⟨h1, h2⟩ := List.sorted_cons.mp h
    obtain ⟨i1, i2⟩ := ih h2
    by_cases ha : a ≤ now
    · simp [List.takeWhile, List.dropWhile, List.filter, ha, i1, i2, Nat.not_lt.mpr ha]
    · have hall : ∀ b ∈ l, ¬ b ≤ now := fun b hb hle => ha (le_trans (h1 b hb) hle)
      have hf1 : l.filter (fun t => decide (t ≤ now)) = [] := by
        rw [List.filter_eq_nil_iff]; intro b hb; simpa using hall b hb
      have hf2 : l.filter (fun t => decide (now < t)) = l := by
        rw [List.filter_eq_self]; intro b hb; simpa using hall b hb
      simp [List.takeWhile, List.dropWhile, List.filter, ha, hf1, hf2, Nat.not_le.mp ha]

theorem reload_of_range (c : Config) (now : Nat) (h : ∀ o ∈ c.trace, o + now < UINT64) :
    reload c now = c.trace.map (fun o => now + o) := by
  unfold reload
  apply List.map_congr_left
  intro o ho
  rw [Nat.mod_eq_of_lt (h o ho), Nat.add_comm]

/-- The opportunity that completes the packet in limbo, with the test and the
assertion as the code makes them, on `int` values. -/
theorem pdo_limbo_complete_int (t : Nat) (q : DelayQueue) (p : DelayedPacket) (b : Int)
    (hq : q._limbo = [⟨b, p⟩])
    (h1 : to_int (b + 1514) ≥ to_int (p.contents.length : Int))
    (h2 : to_int (1514 - ((p.contents.length : Int) - b)) ≥ 0) :
    ∃ (q2 : DelayQueue) (D : List DelayedPacket), pdo t q = some q2 ∧
      q2._delivered = q._delivered ++ p.contents :: D.map (fun x => x.contents) ∧
      q._pdp = D ++ (q2._limbo.map (fun l => l.packet) ++ q2._pdp) := by
  unfold pdo execute_limbo
  simp only [hq, SERVICE_PACKET_SIZE, convert_timestamp, to_int_sub_sub_u64]
  rw [if_pos h1, if_pos h2]
  simp only [if_true]
  obtain ⟨q2, f1, -⟩ := execute_regular_ok t q._pdp
    { deliver t p { q with _output := q._output ++ [LogLine.opportunity t 1514] } with
      _limbo := [] } (to_int (1514 - ((p.contents.length : Int) - b))) rfl
  obtain ⟨-, -, -, -, D, g1, g2⟩ := execute_regular_spec t _ _ _ _ f1
  refine ⟨q2, D, f1, ?_, ?_⟩
  · rw [g2]; simp [deliver]
  · simpa using g1

/-- The schedule loop on a queue with a packet in limbo: with `n` opportunities due, the
packet stays in limbo with `1514 n` more bytes earned and nothing is delivered when
that is not enough, and is delivered before anything else when it is. -/
theorem execute_schedule_limbo (now : Nat) (p : DelayedPacket)
    (hs : (p.contents.length : Int) ≤ 2147482134) (schedule : List Nat) :
    ∀ (q q1 : DelayQueue) (b : Int), q._limbo = [⟨b, p⟩] → 0 < b → b < p.contents.length →
      execute_schedule now schedule q = some q1 →
      (b + 1514 * ((schedule.takeWhile (fun t => decide (t ≤ now))).length : Int)
          < p.contents.length →
        q1._limbo = [⟨b + 1514 *
          ((schedule.takeWhile (fun t => decide (t ≤ now))).length : Int), p⟩] ∧
        q1._delivered = q._delivered) ∧
      ((p.contents.length : Int)
          ≤ b + 1514 * ((schedule.takeWhile (fun t => decide (t ≤ now))).length : Int) →
        ∃ D : List Payload, q1._delivered = q._delivered ++ p.contents :: D) := by
  induction schedule with
  | nil =>
    intro q q1 b hq hb hbs h
    simp only [execute_schedule, Option.some.injEq] at h
    subst h
    simp only [List.takeWhile_nil, List.length_nil, Nat.cast_zero, mul_zero, add_zero]
    exact ⟨fun _ => ⟨hq, trivial⟩, fun h => absurd h (by omega)⟩
  | cons t schedule ih =>
    intro q q1 b hq hb hbs h
    unfold execute_schedule at h
    by_cases ht : t ≤ now
    · rw [if_pos ht] at h
      have hlen : ((t :: schedule).takeWhile (fun t => decide (t ≤ now))).length
          = (schedule.takeWhile (fun t => decide (t ≤ now))).length + 1 := by
        simp [List.takeWhile, ht]
      rw [hlen]
      push_cast
      by_cases hfit : b + 1514 < (p.contents.length : Int)
      · rw [pdo_limbo_grows t { q with _schedule := schedule } p b hq hb hfit hs] at h
        dsimp only at h
        obtain ⟨i1, i2⟩ := ih _ q1 (b + 1514) rfl (by omega) hfit h
        constructor
        · intro hlt
          obtain ⟨j1, j2⟩ := i1 (by omega)
          refine ⟨?_, j2⟩
          rw [j1]
          congr 2
          ring
        · intro hge
          exact i2 (by omega)
      · obtain ⟨q2, D, f1, f2, -, -⟩ := pdo_limbo_complete t { q with _schedule := schedule }
          p b hq hbs (by omega) hs
        rw [f1] at h
        dsimp only at h
        obtain ⟨-, -, -, -, D2, -, g2⟩ := execute_schedule_spec now schedule q2 q1 h
        constructor
        · intro hlt
          exact absurd hlt (by omega)
        · intro _
          exact ⟨D.map (fun x => x.contents) ++ D2.map (fun x => x.contents),
            by rw [g2, f2]; simp⟩
    · rw [if_neg ht] at h
      simp only [Option.some.injEq] at h
      subst h
      have hlen : ((t :: schedule).takeWhile (fun t => decide (t ≤ now))).length = 0 := by
        simp [List.takeWhile, ht]
      rw [hlen]
      simp only [Nat.cast_zero, mul_zero, add_zero]
      exact ⟨fun _ => ⟨hq, trivial⟩, fun h => absurd h (by omega)⟩

/-- The same for `tick`: `n` is the number of opportunities it fires. -/
theorem tick_limbo (c : Config) (now : Nat) (p : DelayedPacket)
    (hs : (p.contents.length : Int) ≤ 2147482134) (q q1 : DelayQueue) (b : Int)
    (hq : q._limbo = [⟨b, p⟩]) (hb : 0 < b) (hbs : b < p.contents.length)
    (h : tick c now q = some q1) :
    (b + 1514 * (((due_schedule c now q).takeWhile (fun t => decide (t ≤ now))).length : Int)
        < p.contents.length →
      q1._limbo = [⟨b + 1514 *
        (((due_schedule c now q).takeWhile (fun t => decide (t ≤ now))).length : Int), p⟩] ∧
      q1._delivered = q._delivered) ∧
    ((p.contents.length : Int) ≤ b + 1514 *
        (((due_schedule c now q).takeWhile (fun t => decide (t ≤ now))).length : Int) →
      ∃ D : List Payload, q1._delivered = q._delivered ++ p.contents :: D) := by
  unfold tick at h
  split at h
  · exact absurd h (by simp)
  · next q2 hq2 =>
    dsimp only at h
    split at h
    · exact absurd h (by simp)
    · next q3 hq3 =>
      simp only [Option.some.injEq] at h
      have hq2' : q2 = { q with _schedule := due_schedule c now q } := by
        unfold due_schedule
        split_ifs at hq2 with he
        · rw [if_pos he]; exact (schedule_from_file_eq c now q q2 hq2).2
        · rw [if_neg he]; simp only [Option.some.injEq] at hq2; rw [← hq2]
      subst hq2'
      obtain ⟨-, -, -, f4, -, f6, -⟩ := bin_rollover_frame now (now / 1000 - q3._bin_sec) q3
      have := (fun hq' => execute_schedule_limbo now p hs _ _ q3 b hq' hb hbs hq3) hq
      dsimp only at this
      subst h
      rw [f4, f6]
      exact this

/-! ## The assertion of the schedule loader -/

theorem schedule_loop_chain (base : Nat) (file : List Nat) :
    ∀ (schedule s : List Nat), List.Chain' (fun a b => a ≤ b) schedule →
      schedule_loop base file schedule = some s → List.Chain' (fun a b => a ≤ b) s := by
  induction file with
  | nil =>
    intro schedule s hc h
    simp only [schedule_loop, Option.some.injEq] at h
    rw [← h]; exact hc
  | cons ms file ih =>
    intro schedule s hc h
    unfold schedule_loop at h
    dsimp only at h
    split at h
    · next hb =>
      have : schedule = [] := List.getLast?_eq_none_iff.mp hb
      subst this
      exact ih _ _ (by simp) h
    · next back hb =>
      split_ifs at h with hle
      refine ih _ _ ?_ h
      rw [List.chain'_append]
      refine ⟨hc, by simp, ?_⟩
      intro x hx y hy
      simp only [List.head?_cons, Option.mem_def, Option.some.injEq] at hy
      rw [hb] at hx
      simp only [Option.mem_def, Option.some.injEq] at hx
      rw [← hx, ← hy]; exact hle

/-! ## The generator shared by the two queues -/

theorem lost_iff (c : Config) (now : Nat) (r : ℚ) (packet : Payload) (q : DelayQueue) :
    lost c now r packet q = decide (r < c._loss_rate) := by
  unfold lost write UINT32
  dsimp only
  by_cases h : r < c._loss_rate
  · simp only [h, if_true, decide_True, decide_eq_true_eq]
    omega
  · simp only [h, if_false, decide_False, decide_eq_false_iff_not, not_not]
    split_ifs <;> rfl

theorem uplink_drops_eq (rnd : Nat → ℚ) (up down : Config) (es : List Event) :
    ∀ (s s1 : Links), steps rnd up down s es = some s1 →
      uplink_drops rnd up down s es
        = draws_at rnd up._loss_rate s.rand_calls (write_pattern es) ∧
      s1.rand_calls = s.rand_calls + (write_pattern es).length := by
  induction es with
  | nil =>
    intro s s1 h
    simp only [steps, Option.some.injEq] at h
    subst h
    simp [uplink_drops, write_pattern, draws_at]
  | cons e es ih =>
    intro s s1 h
    unfold steps at h
    split at h
    · exact absurd h (by simp)
    · next s2 hs2 =>
      obtain ⟨i1, i2⟩ := ih s2 s1 h
      unfold uplink_drops
      rw [hs2]
      dsimp only
      rcases e with op | op <;> cases op <;>
        simp only [step, run_op, op_draws] at hs2
      · simp only [Option.some.injEq] at hs2
        subst hs2
        simp only [write_pattern, draws_at, List.length_cons, lost_iff] at *
        exact ⟨by rw [i1], by omega⟩
      · split at hs2
        · exact absurd hs2 (by simp)
        · simp only [Option.some.injEq] at hs2
          subst hs2
          simp only [write_pattern, Nat.add_zero] at *
          exact ⟨i1, i2⟩
      · split at hs2
        · exact absurd hs2 (by simp)
        · simp only [Option.some.injEq] at hs2
          subst hs2
          simp only [write_pattern, Nat.add_zero] at *
          exact ⟨i1, i2⟩
      · simp only [Option.some.injEq] at hs2
        subst hs2
        simp only [write_pattern, draws_at, List.length_cons] at *
        exact ⟨by rw [i1], by omega⟩
      · split at hs2
        · exact absurd hs2 (by simp)
        · simp only [Option.some.injEq] at hs2
          subst hs2
          simp only [write_pattern, Nat.add_zero] at *
          exact ⟨i1, i2⟩
      · split at hs2
        · exact absurd hs2 (by simp)
        · simp only [Option.some.injEq] at hs2
          subst hs2
          simp only [write_pattern, Nat.add_zero] at *
          exact ⟨i1, i2⟩


theorem start_rand_calls (up down : Config) (now : Nat) (s : Links)
    (h : start up down now = some s) : s.rand_calls = 0 := by
  unfold start at h
  split at h
  · exact absurd h (by simp)
  · split at h
    · exact absurd h (by simp)
    · simp only [Option.some.injEq] at h
      rw [← h]

/-! ## Opportunities that find the queue empty -/

/-- An opportunity that finds `limbo` and `pdp` empty: 1514 bytes of capacity are
counted in `_total_bytes` and nothing else happens. -/
theorem pdo_underflow (t : Nat) (q : DelayQueue) (hl : q._limbo = []) (hp : q._pdp = []) :
    pdo t q = some { q with _output := q._output ++ [LogLine.opportunity t 1514],
                            _total_bytes := (q._total_bytes + 1514) % UINT64 } := by
  cases q
  simp only at hl hp
  subst hl hp
  rfl

theorem execute_schedule_underflow (now : Nat) (schedule : List Nat) :
    ∀ (q : DelayQueue), q._limbo = [] → q._pdp = [] →
      ∃ q1, execute_schedule now schedule q = some q1 ∧
        q1._limbo = [] ∧ q1._pdp = [] ∧ q1._delay = q._delay ∧
        q1._delivered = q._delivered ∧ q1._used_bytes = q._used_bytes ∧
        q1._bin_sec = q._bin_sec ∧
        q1._total_bytes % UINT64 = (q._total_bytes + 1514 *
          (schedule.takeWhile (fun t => decide (t ≤ now))).length) % UINT64 ∧
        (q._total_bytes + 1514 * (schedule.takeWhile (fun t => decide (t ≤ now))).length
            < UINT64 →
          q1._total_bytes = q._total_bytes + 1514 *
            (schedule.takeWhile (fun t => decide (t ≤ now))).length) := by
  induction schedule with
  | nil =>
    intro q hl hp
    exact ⟨_, rfl, hl, hp, rfl, rfl, rfl, rfl, by simp, fun _ => by simp⟩
  | cons t schedule ih =>
    intro q hl hp
    unfold execute_schedule
    by_cases ht : t ≤ now
    · rw [if_pos ht, pdo_underflow t { q with _schedule := schedule } hl hp]
      dsimp only
      obtain ⟨q1, e1, e2, e3, e4, e5, e6, e7, e8, e9⟩ := ih
        { q with _schedule := schedule,
                 _output := q._output ++ [LogLine.opportunity t 1514],
                 _total_bytes := (q._total_bytes + 1514) % UINT64 } hl hp
      dsimp only at e4 e5 e6 e7 e8 e9
      have hlen : ((t :: schedule).takeWhile (fun t => decide (t ≤ now))).length
          = (schedule.takeWhile (fun t => decide (t ≤ now))).length + 1 := by
        simp [List.takeWhile, ht]
      refine ⟨q1, e1, e2, e3, e4, e5, e6, e7, ?_, ?_⟩
      · rw [e8, hlen, Nat.mod_add_mod]
        congr 1
        ring
      · intro hlt
        rw [hlen] at hlt ⊢
        have h1 : (q._total_bytes + 1514) % UINT64 = q._total_bytes + 1514 :=
          Nat.mod_eq_of_lt (by omega)
        rw [h1] at e9
        rw [e9 (by omega)]
        ring
    · rw [if_neg ht]
      have hlen : ((t :: schedule).takeWhile (fun t => decide (t ≤ now))).length = 0 := by
        simp [List.takeWhile, ht]
      rw [hlen]
      exact ⟨_, rfl, hl, hp, rfl, rfl, rfl, rfl, by simp, fun _ => by simp⟩

theorem migrate_none (now : Nat) (delay pdp : List DelayedPacket)
    (h : ∀ p ∈ delay, now < p.release_time) : migrate now delay pdp = (delay, pdp) := by
  cases delay with
  | nil => rfl
  | cons p delay =>
    have := h p (List.mem_cons_self _ _)
    unfold migrate
    rw [if_neg (by omega)]

/-! ## The byte counters -/

theorem counts_zero (x : Nat) : counts x 0 x := by
  unfold counts; simp

theorem counts_add (x a : Nat) : counts x a ((x + a) % UINT64) := by
  unfold counts
  exact ⟨Nat.mod_mod _ _, fun h => Nat.mod_eq_of_lt h⟩

theorem counts_trans (x a y b z : Nat) (h1 : counts x a y) (h2 : counts y b z) :
    counts x (a + b) z := by
  unfold counts at *
  obtain ⟨a1, a2⟩ := h1
  obtain ⟨b1, b2⟩ := h2
  constructor
  · rw [b1, ← Nat.mod_add_mod, a1, Nat.mod_add_mod, Nat.add_assoc]
  · intro h
    have hy := a2 (by omega)
    rw [b2 (by omega), hy, Nat.add_assoc]

theorem tick_eq_serve (c : Config) (now : Nat) (q : DelayQueue) :
    tick c now q = match serve c now q with
      | none => none
      | some q2 => some (bin_rollover now (now / 1000 - q2._bin_sec) q2) := by
  unfold tick serve
  generalize (if q._schedule = [] then schedule_from_file c now q else some q) = o
  cases o <;> rfl

theorem serve_eq (c : Config) (now : Nat) (q q2 : DelayQueue) (h : serve c now q = some q2) :
    execute_schedule now (due_schedule c now q)
      { q with _schedule := due_schedule c now q,
               _delay := (migrate now q._delay q._pdp).1,
               _pdp := (migrate now q._delay q._pdp).2 } = some q2 := by
  unfold serve at h
  split at h
  · exact absurd h (by simp)
  · next q1 hq1 =>
    have hq : q1 = { q with _schedule := due_schedule c now q } := by
      unfold due_schedule
      split_ifs at hq1 with he
      · rw [if_pos he]; exact (schedule_from_file_eq c now q q1 hq1).2
      · rw [if_neg he]; simp only [Option.some.injEq] at hq1; rw [← hq1]
    subst hq
    exact h

theorem earned_limbo (q q1 : DelayQueue) (h : q1._limbo = q._limbo) : earned q1 = earned q := by
  unfold earned; rw [h]

theorem earned_nil (q : DelayQueue) (h : q._limbo = []) : earned q = 0 := by
  unfold earned; rw [h]

theorem bytes_cons (p : DelayedPacket) (l : List DelayedPacket) :
    bytes (p :: l) = p.contents.length + bytes l := by
  simp [bytes]

theorem bytes_append (l1 l2 : List DelayedPacket) : bytes (l1 ++ l2) = bytes l1 + bytes l2 := by
  simp [bytes]

/-- The accounts of the loop over `_pdp`: the packets `D` it delivers are counted in
`_used_bytes` and in `_total_bytes`, the capacity `W` it wastes in `_total_bytes`
only; when the sizes fit an `int`, the budget `b` is what was delivered and wasted
plus what the packet put in limbo has earned. -/
theorem execute_regular_account (t : Nat) (pdp : List DelayedPacket) :
    ∀ (q q1 : DelayQueue) (b : Int), execute_regular t pdp q b = some q1 →
      ∃ (D : List DelayedPacket) (W : Nat),
        q1._delivered = q._delivered ++ D.map (fun p => p.contents) ∧
        counts q._used_bytes (bytes D) q1._used_bytes ∧
        counts q._total_bytes (bytes D + W) q1._total_bytes ∧
        (q._limbo = [] → 0 ≤ b → b < 2147483648 →
          (∀ p ∈ pdp, (p.contents.length : Int) ≤ 2147482134) →
          (bytes D : Int) + W + earned q1 = b ∧ LimboFine q1 ∧
          ∀ p ∈ q1._pdp, (p.contents.length : Int) ≤ 2147482134) := by
  induction pdp with
  | nil =>
    intro q q1 b h
    unfold execute_regular at h
    split_ifs at h with h1 h2
    · simp only [Option.some.injEq] at h
      subst h
      refine ⟨[], b.toNat, by simp, counts_zero _, ?_, ?_⟩
      · simpa [bytes] using counts_add q._total_bytes b.toNat
      · intro hl _ _ _
        refine ⟨?_, Or.inl hl, by simp⟩
        simp only [earned, hl, bytes, List.map_nil, List.sum_nil, Nat.cast_zero, zero_add,
          add_zero]
        exact Int.toNat_of_nonneg (le_of_lt h1)
    · simp only [Option.some.injEq] at h
      subst h
      refine ⟨[], 0, by simp, counts_zero _, counts_zero _, ?_⟩
      intro hl hb _ _
      refine ⟨?_, Or.inl hl, by simp⟩
      simp only [earned, hl, bytes, List.map_nil, List.sum_nil, Nat.cast_zero, zero_add,
        add_zero]
      omega
  | cons packet pdp ih =>
    intro q q1 b h
    unfold execute_regular at h
    split_ifs at h with h1 h2 h3
    · obtain ⟨D, W, e1, e2, e3, e4⟩ := ih _ _ _ h
      refine ⟨packet :: D, W, ?_, ?_, ?_, ?_⟩
      · rw [e1]; simp [deliver]
      · rw [bytes_cons]
        exact counts_trans _ _ _ _ _ (counts_add q._used_bytes packet.contents.length) e2
      · rw [bytes_cons, Nat.add_assoc]
        exact counts_trans _ _ _ _ _ (counts_add q._total_bytes packet.contents.length) e3
      · intro hl hb0 hb1 hsz
        have hs := hsz packet (List.mem_cons_self _ _)
        have e5 : to_int (packet.contents.length : Int) = packet.contents.length :=
          to_int_of_bounds _ (by omega) (by omega)
        rw [e5] at h3
        have e6 : to_int (to_u64 (to_u64 b - (packet.contents.length : Int)))
            = b - packet.contents.length := by
          rw [to_int_sub_u64]
          exact to_int_of_bounds _ (by omega) (by omega)
        rw [e6] at e4
        obtain ⟨f1, f2, f3⟩ := e4 hl (by omega) (by omega)
          (fun p hp => hsz p (List.mem_cons_of_mem _ hp))
        refine ⟨?_, f2, f3⟩
        rw [bytes_cons]
        push_cast
        omega
    · dsimp only at h
      split_ifs at h with h4
      simp only [Option.some.injEq] at h
      subst h
      refine ⟨[], 0, by simp, counts_zero _, counts_zero _, ?_⟩
      intro hl hb0 hb1 hsz
      have hs := hsz packet (List.mem_cons_self _ _)
      have e5 : to_int (packet.contents.length : Int) = packet.contents.length :=
        to_int_of_bounds _ (by omega) (by omega)
      rw [e5] at h3
      refine ⟨?_, ?_, fun p hp => hsz p (List.mem_cons_of_mem _ hp)⟩
      · unfold earned
        simp only [hl, List.nil_append, bytes, List.map_nil, List.sum_nil, Nat.cast_zero,
          zero_add]
      · right
        exact ⟨⟨b, packet⟩, by simp only [hl, List.nil_append], h1, by
          simp only; omega⟩
    · simp only [Option.some.injEq] at h
      subst h
      refine ⟨[], 0, by simp, counts_zero _, counts_zero _, ?_⟩
      intro hl hb0 _ hsz
      refine ⟨?_, Or.inl hl, hsz⟩
      simp only [earned, hl, bytes, List.map_nil, List.sum_nil, Nat.cast_zero, zero_add,
        add_zero]
      omega

/-- The accounts of one opportunity: the packets `D` it delivers are counted in
`_used_bytes` and in `_total_bytes`, the capacity `W` it wastes in `_total_bytes`
only; when the sizes fit an `int`, its 1514 bytes are what was delivered and wasted
plus the growth of the bytes earned by the packet in limbo. -/
theorem pdo_account (t : Nat) (q q1 : DelayQueue) (h : pdo t q = some q1) :
    ∃ (D : List DelayedPacket) (W : Nat),
      q1._delivered = q._delivered ++ D.map (fun p => p.contents) ∧
      counts q._used_bytes (bytes D) q1._used_bytes ∧
      counts q._total_bytes (bytes D + W) q1._total_bytes ∧
      (LimboFine q →
        (∀ p ∈ q._limbo.map (fun l => l.packet) ++ q._pdp,
          (p.contents.length : Int) ≤ 2147482134) →
        (bytes D : Int) + W + earned q1 = earned q + 1514 ∧ LimboFine q1 ∧
        ∀ p ∈ q1._limbo.map (fun l => l.packet) ++ q1._pdp,
          (p.contents.length : Int) ≤ 2147482134) := by
  have hkeep : (∀ p ∈ q._limbo.map (fun l => l.packet) ++ q._pdp,
        (p.contents.length : Int) ≤ 2147482134) →
      ∀ p ∈ q1._limbo.map (fun l => l.packet) ++ q1._pdp,
        (p.contents.length : Int) ≤ 2147482134 := by
    intro hsz p hp
    obtain ⟨-, -, -, -, D, e, -⟩ := pdo_spec t q q1 h
    exact hsz p (by rw [e]; exact List.mem_append_right _ hp)
  unfold pdo at h
  dsimp only at h
  split at h
  · exact absurd h (by simp)
  · next q2 b hl =>
    rcases execute_limbo_cases t _ _ _ _ hl with
      ⟨c1, c2, c3⟩ | ⟨f, c1, c2, c3, c4, c5⟩ | ⟨f, r, c1, c2, c3, c4⟩
    · subst c2 c3
      dsimp only at c1
      obtain ⟨D, W, e1, e2, e3, e4⟩ := execute_regular_account t _ _ _ _ h
      refine ⟨D, W, e1, e2, e3, ?_⟩
      intro _ hsz
      obtain ⟨f1, f2, -⟩ := e4 c1 (by decide) (by decide)
        (fun p hp => hsz p (List.mem_append_right _ hp))
      refine ⟨?_, f2, hkeep hsz⟩
      rw [f1, earned_nil q c1]
      rfl
    · subst c3
      dsimp only at c1
      obtain ⟨D, W, e1, e2, e3, e4⟩ := execute_regular_account t _ _ _ _ h
      refine ⟨f.packet :: D, W, ?_, ?_, ?_, ?_⟩
      · rw [e1]; simp [deliver]
      · rw [bytes_cons]
        exact counts_trans _ _ _ _ _ (counts_add q._used_bytes f.packet.contents.length) e2
      · rw [bytes_cons, Nat.add_assoc]
        exact counts_trans _ _ _ _ _ (counts_add q._total_bytes f.packet.contents.length) e3
      · intro hfine hsz
        rcases hfine with hn | ⟨l, hl1, hl2, hl3⟩
        · rw [hn] at c1; exact absurd c1 (by simp)
        · rw [hl1] at c1
          simp only [List.cons.injEq, and_true] at c1
          subst c1
          have hs := hsz l.packet (by rw [hl1]; simp)
          have hb : b = 1514 - ((l.packet.contents.length : Int) - l.bytes_earned) := by
            rw [c4]
            exact to_int_of_bounds _ (by unfold SERVICE_PACKET_SIZE; omega)
              (by unfold SERVICE_PACKET_SIZE; omega)
          obtain ⟨f1, f2, -⟩ := e4 rfl c5 (by omega)
            (fun p hp => hsz p (List.mem_append_right _ hp))
          refine ⟨?_, f2, hkeep hsz⟩
          have he : earned q = l.bytes_earned := by
            unfold earned; rw [hl1]
          rw [bytes_cons, he]
          push_cast
          omega
    · subst c3 c4
      dsimp only at c1
      rw [execute_regular_zero t _ _ 0 (le_refl 0) rfl] at h
      simp only [Option.some.injEq] at h
      subst h
      refine ⟨[], 0, by simp, by simpa [bytes] using counts_zero q._used_bytes,
        by simpa [bytes] using counts_zero q._total_bytes, ?_⟩
      intro hfine hsz
      rcases hfine with hn | ⟨l, hl1, hl2, hl3⟩
      · rw [hn] at c1; exact absurd c1 (by simp)
      · rw [hl1] at c1
        simp only [List.cons.injEq] at c1
        obtain ⟨c1a, c1b⟩ := c1
        subst c1a c1b
        have hs := hsz l.packet (by rw [hl1]; simp)
        have e5 : to_int (l.bytes_earned + SERVICE_PACKET_SIZE) = l.bytes_earned + 1514 :=
          to_int_of_bounds _ (by unfold SERVICE_PACKET_SIZE; omega)
            (by unfold SERVICE_PACKET_SIZE; omega)
        have e6 : to_int (l.packet.contents.length : Int) = l.packet.contents.length :=
          to_int_of_bounds _ (by omega) (by omega)
        rw [e5, e6] at c2
        have he : earned q = l.bytes_earned := by
          unfold earned; rw [hl1]
        refine ⟨?_, ?_, hkeep hsz⟩
        · rw [he]
          simp only [earned, e5, bytes, List.map_nil, List.sum_nil, Nat.cast_zero, zero_add]
        · right
          exact ⟨⟨l.bytes_earned + 1514, l.packet⟩, by simp only [e5], by
            simp only; omega, by simp only; omega⟩

/-- The accounts of the schedule loop, over the opportunities it fires. -/
theorem execute_schedule_account (now : Nat) (schedule : List Nat) :
    ∀ (q q1 : DelayQueue), execute_schedule now schedule q = some q1 →
      ∃ (D : List DelayedPacket) (W : Nat),
        q1._delivered = q._delivered ++ D.map (fun p => p.contents) ∧
        counts q._used_bytes (bytes D) q1._used_bytes ∧
        counts q._total_bytes (bytes D + W) q1._total_bytes ∧
        (LimboFine q →
          (∀ p ∈ q._limbo.map (fun l => l.packet) ++ q._pdp,
            (p.contents.length : Int) ≤ 2147482134) →
          (bytes D : Int) + W + earned q1 = earned q + 1514 *
            ((schedule.takeWhile (fun t => decide (t ≤ now))).length : Int) ∧
          LimboFine q1 ∧
          ∀ p ∈ q1._limbo.map (fun l => l.packet) ++ q1._pdp,
            (p.contents.length : Int) ≤ 2147482134) := by
  induction schedule with
  | nil =>
    intro q q1 h
    simp only [execute_schedule, Option.some.injEq] at h
    subst h
    refine ⟨[], 0, by simp, by simpa [bytes] using counts_zero q._used_bytes,
      by simpa [bytes] using counts_zero q._total_bytes, ?_⟩
    intro hf hsz
    refine ⟨?_, hf, hsz⟩
    simp [bytes, earned]
  | cons t schedule ih =>
    intro q q1 h
    unfold execute_schedule at h
    by_cases ht : t ≤ now
    · rw [if_pos ht] at h
      split at h
      · exact absurd h (by simp)
      · next q2 hp =>
        obtain ⟨D1, W1, a1, a2, a3, a4⟩ := pdo_account t _ _ hp
        obtain ⟨D2, W2, b1, b2, b3, b4⟩ := ih _ _ h
        dsimp only at a1 a2 a3 a4
        have hlen : ((t :: schedule).takeWhile (fun t => decide (t ≤ now))).length
            = (schedule.takeWhile (fun t => decide (t ≤ now))).length + 1 := by
          simp [List.takeWhile, ht]
        refine ⟨D1 ++ D2, W1 + W2, ?_, ?_, ?_, ?_⟩
        · rw [b1, a1]; simp
        · rw [bytes_append]
          exact counts_trans _ _ _ _ _ a2 b2
        · have : bytes (D1 ++ D2) + (W1 + W2) = (bytes D1 + W1) + (bytes D2 + W2) := by
            rw [bytes_append]; omega
          rw [this]
          exact counts_trans _ _ _ _ _ a3 b3
        · intro hf hsz
          obtain ⟨f1, f2, f3⟩ := a4 hf hsz
          obtain ⟨g1, g2, g3⟩ := b4 f2 f3
          refine ⟨?_, g2, g3⟩
          have he : earned { q with _schedule := schedule } = earned q := rfl
          rw [he] at f1
          rw [hlen, bytes_append]
          push_cast
          omega
    · rw [if_neg ht] at h
      simp only [Option.some.injEq] at h
      subst h
      have hlen : ((t :: schedule).takeWhile (fun t => decide (t ≤ now))).length = 0 := by
        simp [List.takeWhile, ht]
      refine ⟨[], 0, by simp, by simpa [bytes] using counts_zero q._used_bytes,
        by simpa [bytes] using counts_zero q._total_bytes, ?_⟩
      intro hf hsz
      refine ⟨?_, hf, hsz⟩
      rw [hlen]
      simp [bytes, earned]

/-- The accounts of `tick` up to the bin rollover; `k` is the number of opportunities
fired. -/
theorem serve_account (c : Config) (now : Nat) (q q2 : DelayQueue)
    (h : serve c now q = some q2) :
    ∃ (D : List DelayedPacket) (W : Nat),
      q2._delivered = q._delivered ++ D.map (fun p => p.contents) ∧
      counts q._used_bytes (bytes D) q2._used_bytes ∧
      counts q._total_bytes (bytes D + W) q2._total_bytes ∧
      pdo_times q2._output = pdo_times q._output ++
        (due_schedule c now q).takeWhile (fun t => decide (t ≤ now)) ∧
      q2._bin_sec = q._bin_sec ∧
      (LimboFine q → Sized q →
        (bytes D : Int) + W + earned q2 = earned q + 1514 *
          (((due_schedule c now q).takeWhile (fun t => decide (t ≤ now))).length : Int) ∧
        LimboFine q2 ∧ Sized q2) := by
  have h2 := serve_eq c now q q2 h
  obtain ⟨D, W, e1, e2, e3, e4⟩ := execute_schedule_account now _ _ _ h2
  obtain ⟨s1, s2, -, s4, -⟩ := execute_schedule_spec now _ _ _ h2
  dsimp only at e1 e2 e3 e4 s1 s2 s4
  refine ⟨D, W, e1, e2, e3, s4, s2, ?_⟩
  intro hf hsz
  have hin : ∀ p ∈ q._limbo.map (fun l => l.packet) ++ (migrate now q._delay q._pdp).2,
      (p.contents.length : Int) ≤ 2147482134 := by
    intro p hp
    apply hsz p
    unfold pending
    rw [migrate_snd, ← List.append_assoc] at hp
    rcases List.mem_append.mp hp with hp | hp
    · exact List.mem_append_left _ hp
    · exact List.mem_append_right _ (List.takeWhile_subset _ hp)
  obtain ⟨f1, f2, f3⟩ := e4 hf hin
  refine ⟨f1, f2, ?_⟩
  intro p hp
  unfold pending at hp
  rcases List.mem_append.mp hp with hp | hp
  · exact f3 p hp
  · rw [s1, migrate_fst] at hp
    apply hsz p
    unfold pending
    exact List.mem_append_right _ ((List.dropWhile_sublist _).subset hp)

theorem bin_rollover_fine (now fuel : Nat) (q : DelayQueue) :
    (LimboFine q → LimboFine (bin_rollover now fuel q)) ∧
    (Sized q → Sized (bin_rollover now fuel q)) ∧
    earned (bin_rollover now fuel q) = earned q := by
  obtain ⟨-, f2, f3, f4, -⟩ := bin_rollover_frame now fuel q
  refine ⟨?_, ?_, ?_⟩
  · intro h; unfold LimboFine at *; rw [f4]; exact h
  · intro h; unfold Sized pending at *; rw [f2, f3, f4]; exact h
  · unfold earned; rw [f4]

theorem tick_fine (c : Config) (now : Nat) (q q1 : DelayQueue) (h : tick c now q = some q1)
    (hf : LimboFine q) (hs : Sized q) : LimboFine q1 ∧ Sized q1 := by
  rw [tick_eq_serve] at h
  split at h
  · exact absurd h (by simp)
  · next q2 hq2 =>
    simp only [Option.some.injEq] at h
    obtain ⟨D, W, -, -, -, -, -, e⟩ := serve_account c now q q2 hq2
    obtain ⟨-, f2, f3⟩ := e hf hs
    obtain ⟨g1, g2, -⟩ := bin_rollover_fine now (now / 1000 - q2._bin_sec) q2
    rw [← h]
    exact ⟨g1 f2, g2 f3⟩

theorem reachableSized_fine (c : Config) (q : DelayQueue) (h : ReachableSized c q) :
    LimboFine q ∧ Sized q := by
  induction h with
  | init base q h0 =>
    obtain ⟨i1, i2, i3, -⟩ := init_fields c base q h0
    refine ⟨Or.inl i3, ?_⟩
    intro p hp
    simp [pending, i1, i2, i3] at hp
  | write q now r packet _ hsz ih =>
    obtain ⟨ih1, ih2⟩ := ih
    have hl : (write c now r packet q)._limbo = q._limbo := by
      unfold write; dsimp only; split_ifs <;> rfl
    have hp : (write c now r packet q)._pdp = q._pdp := by
      unfold write; dsimp only; split_ifs <;> rfl
    have hd : (write c now r packet q)._delay = q._delay ∨
        (write c now r packet q)._delay
          = q._delay ++ [⟨now, (now + c._ms_delay) % UINT64, packet⟩] := by
      unfold write; dsimp only; split_ifs
      · exact Or.inl rfl
      · exact Or.inl rfl
      · exact Or.inr rfl
    constructor
    · unfold LimboFine at *; rw [hl]; exact ih1
    · intro p hm
      unfold Sized pending at *
      rw [hl, hp] at hm
      rcases hd with hd | hd
      · rw [hd] at hm; exact ih2 p hm
      · rw [hd, ← List.append_assoc, List.mem_append] at hm
        rcases hm with hm | hm
        · exact ih2 p hm
        · simp only [List.mem_singleton] at hm
          rw [hm]; exact hsz
  | read q now out q1 _ hr ih =>
    obtain ⟨q2, t1, -, t3⟩ := read_tick c now q q1 out hr
    obtain ⟨f1, f2⟩ := tick_fine c now q q2 t1 ih.1 ih.2
    subst t3
    exact ⟨f1, f2⟩
  | wait_time q now w q1 _ hw ih =>
    exact tick_fine c now q q1 (wait_time_tick c now q q1 w hw) ih.1 ih.2

/-! ## The counters at the rollover -/

theorem bin_rollover_zero (now : Nat) : ∀ (fuel : Nat) (q : DelayQueue),
    q._used_bytes = 0 → q._total_bytes = 0 →
    (bin_rollover now fuel q)._used_bytes = 0 ∧ (bin_rollover now fuel q)._total_bytes = 0 := by
  intro fuel
  induction fuel with
  | zero => intro q h1 h2; exact ⟨h1, h2⟩
  | succ n ih =>
    intro q h1 h2
    unfold bin_rollover
    split_ifs
    · exact ih _ rfl rfl
    · exact ⟨h1, h2⟩

/-- The rollover zeroes the two counters together when `now` lies in a later second
than `_bin_sec`, and leaves them alone otherwise. -/
theorem bin_rollover_counters (now : Nat) (q : DelayQueue) :
    (q._bin_sec < now / 1000 →
      (bin_rollover now (now / 1000 - q._bin_sec) q)._used_bytes = 0 ∧
      (bin_rollover now (now / 1000 - q._bin_sec) q)._total_bytes = 0) ∧
    (now / 1000 ≤ q._bin_sec → bin_rollover now (now / 1000 - q._bin_sec) q = q) := by
  constructor
  · intro h
    obtain ⟨n, hn⟩ : ∃ n, now / 1000 - q._bin_sec = n + 1 := ⟨now / 1000 - q._bin_sec - 1, by omega⟩
    rw [hn]
    unfold bin_rollover
    rw [if_pos h]
    exact bin_rollover_zero now n _ rfl rfl
  · intro h
    exact bin_rollover_done now _ q h

/-! ## The claims -/

/-- C1: over any sequence of `write` / `read` / `wait_time` calls on a constructed
queue, what `read` has returned so far is a first part of the accepted payloads, in
the order in which they were accepted, and followed by `flow` of the queue it is the
whole of them; `tick` leaves `flow = delivered ++ limbo ++ pdp ++ delay` unchanged
and `write` extends it at the back by the payload exactly when it accepts it. -/
theorem delivery_is_fifo (c : Config) (base : Nat) (q0 : DelayQueue) (calls : List Call)
    (h : History) (h0 : init c base = some q0)
    (hr : run c { queue := q0, returned := [], accepted := [] } calls = some h) :
    h.returned <+: h.accepted ∧
    h.returned ++ flow h.queue = h.accepted ∧
    (∀ now q q1, tick c now q = some q1 → flow q1 = flow q) ∧
    (∀ now r packet q, flow (write c now r packet q)
        = if accepts c r q then flow q ++ [packet] else flow q) := by
  obtain ⟨new, e1, e2⟩ := run_flow c calls _ _ hr
  obtain ⟨i1, i2, i3, i4, -⟩ := init_fields c base q0 h0
  have hq0 : flow q0 = [] := by simp [flow, pending, i1, i2, i3, i4]
  simp only [List.nil_append, hq0] at e1 e2
  refine ⟨?_, ?_, tick_flow c, write_flow c⟩
  · exact ⟨flow h.queue, by rw [e2, e1]⟩
  · rw [e2, e1]

theorem delivery_is_fifo_witness :
    ∃ q0 h, init ⟨"uplink", 0, 0, "trace", [0, 5]⟩ 0 = some q0 ∧
      run ⟨"uplink", 0, 0, "trace", [0, 5]⟩ { queue := q0, returned := [], accepted := [] }
        [Call.write 0 0 [1, 2], Call.read 0, Call.write 3 0 [7], Call.wait_time 4,
         Call.write 5 0 [8, 9], Call.read 5, Call.write 6 0 [4]] = some h ∧
      h.returned = [[1, 2], [7], [8, 9]] ∧ h.accepted = [[1, 2], [7], [8, 9], [4]] ∧
      h.returned <+: h.accepted := by
  refine ⟨_, _, rfl, rfl, rfl, rfl, ?_⟩
  exact (delivery_is_fifo ⟨"uplink", 0, 0, "trace", [0, 5]⟩ 0 _
    [Call.write 0 0 [1, 2], Call.read 0, Call.write 3 0 [7], Call.wait_time 4,
     Call.write 5 0 [8, 9], Call.read 5, Call.write 6 0 [4]] _ rfl rfl).1

/-- C2, as amended: in a run of calls at non-decreasing times every packet that a
`tick` running at time `now` appends to `delivered` was written at a time
`entry_time ≤ now` and has `release_time ≤ now`, where
`release_time = (entry_time + propagation delay) mod 2^64` as `write` set it; the
packets delivered are a first part of the pending ones, in order. (The time of the
delivering opportunity is not bounded below by the release time.) -/
theorem delivered_after_release (c : Config) (T now : Nat) (q q1 : DelayQueue)
    (hq : ReachableAt c T q) (hT : T ≤ now) (h : tick c now q = some q1) :
    ∃ D, pending q = D ++ pending q1 ∧
      q1._delivered = q._delivered ++ D.map (fun p => p.contents) ∧
      ∀ p ∈ D, p.entry_time ≤ now ∧ p.release_time ≤ now ∧
        p.release_time = (p.entry_time + c._ms_delay) % UINT64 := by
  obtain ⟨r1, r2⟩ := reachableAt_released c T q hq
  obtain ⟨D, e1, e2, e3⟩ := tick_pending c now q q1 h
  refine ⟨D, e1, e2, ?_⟩
  intro p hp
  have hpend := r2 p (by rw [e1]; exact List.mem_append_left _ hp)
  refine ⟨le_trans hpend.1 hT, ?_, hpend.2⟩
  rcases e3 p (List.mem_append_left _ hp) with hm | hm
  · exact le_trans (r1 p hm) hT
  · exact hm.2

theorem delivered_after_release_witness :
    ∃ D : List DelayedPacket,
      pending (write ⟨"uplink", 10, 0, "trace", [1, 30]⟩ 0 0 [1, 2, 3]
          ⟨[LogLine.initialized "trace" 2, LogLine.direction "uplink",
            LogLine.base_timestamp 0], [], [], [], [1, 30], [], 0, 0, 0, 0, 0, 0, 0⟩)
        = D ++ pending
          ⟨[LogLine.initialized "trace" 2, LogLine.direction "uplink",
            LogLine.base_timestamp 0, LogLine.enqueued 0 3, LogLine.opportunity 1 1514,
            LogLine.delivery 1 3 1], [], [], [], [30], [[1, 2, 3]], 1514, 3, 3, 0, 0, 1, 0⟩ ∧
      ([[1, 2, 3]] : List Payload) = [] ++ D.map (fun p => p.contents) ∧
      ∀ p ∈ D, p.entry_time ≤ 20 ∧ p.release_time ≤ 20 ∧
        p.release_time = (p.entry_time + 10) % UINT64 :=
  delivered_after_release ⟨"uplink", 10, 0, "trace", [1, 30]⟩ 0 20
    (write ⟨"uplink", 10, 0, "trace", [1, 30]⟩ 0 0 [1, 2, 3]
      ⟨[LogLine.initialized "trace" 2, LogLine.direction "uplink",
        LogLine.base_timestamp 0], [], [], [], [1, 30], [], 0, 0, 0, 0, 0, 0, 0⟩)
    ⟨[LogLine.initialized "trace" 2, LogLine.direction "uplink",
      LogLine.base_timestamp 0, LogLine.enqueued 0 3, LogLine.opportunity 1 1514,
      LogLine.delivery 1 3 1], [], [], [], [30], [[1, 2, 3]], 1514, 3, 3, 0, 0, 1, 0⟩
    (ReachableAt.write 0 _ 0 0 [1, 2, 3] (ReachableAt.init 0 0 _ (by decide)) (le_refl 0))
    (by decide) (by decide)

/-- C2 as stated fails. Trace `1, 30`, delay 10: a packet written at time 0 and read at
time 20 is delivered by the opportunity of time 1, nine milliseconds before its
release time, with latency 1 in the record. Trace `5`, delay 0: a packet written at
time 10 and read at time 10 is delivered by the opportunity of time 5, before it
entered, and the record carries the latency `-5`. -/
theorem delivered_before_release :
    (∃ q0 h, init ⟨"uplink", 10, 0, "trace", [1, 30]⟩ 0 = some q0 ∧
      run ⟨"uplink", 10, 0, "trace", [1, 30]⟩ { queue := q0, returned := [], accepted := [] }
        [Call.write 0 0 [1, 2, 3], Call.read 20] = some h ∧
      h.returned = [[1, 2, 3]] ∧
      h.queue._output.getLast? = some (LogLine.delivery 1 3 1) ∧
      ¬ (1 ≥ 0 + 10)) ∧
    (∃ q0 h, init ⟨"uplink", 0, 0, "trace", [5]⟩ 0 = some q0 ∧
      run ⟨"uplink", 0, 0, "trace", [5]⟩ { queue := q0, returned := [], accepted := [] }
        [Call.write 10 0 [1, 2, 3], Call.read 10] = some h ∧
      h.returned = [[1, 2, 3]] ∧
      h.queue._output.getLast? = some (LogLine.delivery 5 3 (-5)) ∧
      ¬ (5 ≥ 10 + 0)) :=
  ⟨⟨_, _, rfl, rfl, rfl, by decide, by decide⟩, ⟨_, _, rfl, rfl, rfl, by decide, by decide⟩⟩

/-- C3, as amended: for every state `q`, trace and `uint64_t` time `now` at which `tick`
returns, a second `tick` at `now` returns the very same state (all members and the
log) if and only if the first one left the schedule non-empty or the trace is
empty. -/
theorem tick_idempotent_iff (c : Config) (now : Nat) (q q1 : DelayQueue) (hnow : now < UINT64)
    (h : tick c now q = some q1) :
    tick c now q1 = some q1 ↔ (q1._schedule ≠ [] ∨ c.trace = []) := by
  obtain ⟨e1, e2, -, e4, -⟩ := tick_spec c now q q1 h
  constructor
  · intro h2
    obtain ⟨-, f2, f3, -⟩ := tick_spec c now q1 q1 h2
    by_cases hs : q1._schedule = []
    · right
      have f3' : (due_schedule c now q1).takeWhile (fun t => decide (t ≤ now)) = [] := by
        simpa using f3
      have f2' : (due_schedule c now q1).dropWhile (fun t => decide (t ≤ now)) = [] := by
        rw [← f2, hs]
      have hd : due_schedule c now q1 = [] := by
        rw [← List.takeWhile_append_dropWhile (fun t => decide (t ≤ now)) (due_schedule c now q1),
          f3', f2']
        rfl
      simpa [due_schedule, hs, reload] using hd
    · exact Or.inl hs
  · intro h2
    have hq : q1 = { q1 with _delay := q1._delay, _pdp := q1._pdp } := rfl
    have hmig : migrate now q1._delay q1._pdp = (q1._delay, q1._pdp) := by
      rw [e1]; exact migrate_dropWhile now q._delay q1._pdp
    have hroll : bin_rollover now (now / 1000 - q1._bin_sec) q1 = q1 :=
      bin_rollover_done now _ q1 (e4 hnow)
    by_cases hs : q1._schedule = []
    · have ht : c.trace = [] := by
        rcases h2 with h2 | h2
        · exact absurd hs h2
        · exact h2
      have hq1 : { q1 with _schedule := [] } = q1 := by
        cases q1; simp only at hs; subst hs; rfl
      unfold tick
      simp only [hs, if_true, schedule_from_file, ht, schedule_loop, hmig, execute_schedule,
        hq1, hroll]
    · have hexec : execute_schedule now q1._schedule q1 = some q1 := by
        have := execute_schedule_dropWhile now (due_schedule c now q) q1
        rw [← e2] at this
        rw [this]
      unfold tick
      rw [if_neg hs]
      simp only [hmig, hexec, hroll]

theorem tick_idempotent_iff_witness :
    tick ⟨"uplink", 0, 0, "trace", [0, 10]⟩ 0
        ⟨[LogLine.initialized "trace" 2, LogLine.direction "uplink", LogLine.base_timestamp 0,
          LogLine.opportunity 0 1514], [], [], [], [10], [], 1514, 0, 0, 0, 0, 0, 0⟩
      = some ⟨[LogLine.initialized "trace" 2, LogLine.direction "uplink",
          LogLine.base_timestamp 0, LogLine.opportunity 0 1514],
          [], [], [], [10], [], 1514, 0, 0, 0, 0, 0, 0⟩ ↔
    ((([10] : List Nat) ≠ []) ∨ ([0, 10] : List Nat) = []) :=
  tick_idempotent_iff ⟨"uplink", 0, 0, "trace", [0, 10]⟩ 0
    ⟨[LogLine.initialized "trace" 2, LogLine.direction "uplink", LogLine.base_timestamp 0],
      [], [], [], [0, 10], [], 0, 0, 0, 0, 0, 0, 0⟩
    ⟨[LogLine.initialized "trace" 2, LogLine.direction "uplink", LogLine.base_timestamp 0,
      LogLine.opportunity 0 1514], [], [], [], [10], [], 1514, 0, 0, 0, 0, 0, 0⟩
    (by decide) (by decide)

/-- C3 as stated fails: with the trace `0` the queue constructed at time 0 fires its
only opportunity at the first `tick` at time 0; the second `tick` at time 0 reloads
the schedule and fires it again (3028 bytes counted instead of 1514). -/
theorem tick_not_idempotent :
    ∃ q0 q1 q2, init ⟨"uplink", 0, 0, "trace", [0]⟩ 0 = some q0 ∧
      tick ⟨"uplink", 0, 0, "trace", [0]⟩ 0 q0 = some q1 ∧
      tick ⟨"uplink", 0, 0, "trace", [0]⟩ 0 q1 = some q2 ∧
      q1._total_bytes = 1514 ∧ q2._total_bytes = 3028 ∧
      pdo_times q1._output = [0] ∧ pdo_times q2._output = [0, 0] ∧ q2 ≠ q1 :=
  ⟨_, _, _, rfl, rfl, rfl, rfl, rfl, rfl, rfl, by decide⟩

/-- C4: `write` equals the reference definition `write_reference` for every state,
payload, time and loss draw: `packets_added` grows by one in all cases; on a loss
drop only `packets_dropped` grows besides; on a queue-limit drop `delay`,
`queued_bytes` and `packets_dropped` keep their values; otherwise one entry
`(now, now + delay, payload)` is appended to `delay` and the size is added to
`queued_bytes`; the loss test comes first. -/
theorem write_eq_reference (c : Config) (now : Nat) (r : ℚ) (packet : Payload)
    (q : DelayQueue) :
    write c now r packet q = write_reference c now r packet q ∧
    (write c now r packet q)._packets_added = (q._packets_added + 1) % UINT32 ∧
    (r < c._loss_rate → write c now r packet q =
      { q with _packets_added := (q._packets_added + 1) % UINT32,
               _packets_dropped := (q._packets_dropped + 1) % UINT32 }) ∧
    (¬ r < c._loss_rate → 256 ≤ q._delay.length →
      (write c now r packet q)._delay = q._delay ∧
      (write c now r packet q)._queued_bytes = q._queued_bytes ∧
      (write c now r packet q)._packets_dropped = q._packets_dropped) ∧
    (¬ r < c._loss_rate → q._delay.length < 256 →
      (write c now r packet q)._delay
        = q._delay ++ [⟨now, (now + c._ms_delay) % UINT64, packet⟩] ∧
      (write c now r packet q)._queued_bytes = (q._queued_bytes + packet.length) % UINT64 ∧
      (write c now r packet q)._packets_dropped = q._packets_dropped) ∧
    (q._packets_added + 1 < UINT32 →
      (write c now r packet q)._packets_added = q._packets_added + 1) := by
  have hplain : q._packets_added + 1 < UINT32 →
      (q._packets_added + 1) % UINT32 = q._packets_added + 1 := Nat.mod_eq_of_lt
  unfold write write_reference queue_limit_in_packets convert_timestamp
  dsimp only
  by_cases h1 : r < c._loss_rate
  · simpa [h1] using hplain
  · by_cases h2 : 256 ≤ q._delay.length
    · simpa [h1, h2, Nat.not_lt.mpr h2] using hplain
    · simpa [h1, h2, Nat.not_le.mp h2] using hplain

theorem write_eq_reference_witness :
    (write ⟨"uplink", 20, 1/2, "trace", [0]⟩ 7 (3/4) [1, 2, 3]
        ⟨[], [], [], [], [0], [], 0, 0, 0, 0, 0, 4, 1⟩)._delay = [⟨7, 27, [1, 2, 3]⟩] ∧
    (write ⟨"uplink", 20, 1/2, "trace", [0]⟩ 7 (1/4) [1, 2, 3]
        ⟨[], [], [], [], [0], [], 0, 0, 0, 0, 0, 4, 1⟩)
      = ⟨[], [], [], [], [0], [], 0, 0, 0, 0, 0, 5, 2⟩ := by
  have h := write_eq_reference ⟨"uplink", 20, 1/2, "trace", [0]⟩ 7 (3/4) [1, 2, 3]
    ⟨[], [], [], [], [0], [], 0, 0, 0, 0, 0, 4, 1⟩
  have h2 := write_eq_reference ⟨"uplink", 20, 1/2, "trace", [0]⟩ 7 (1/4) [1, 2, 3]
    ⟨[], [], [], [], [0], [], 0, 0, 0, 0, 0, 4, 1⟩
  refine ⟨?_, ?_⟩
  · rw [(h.2.2.2.2.1 (by norm_num) (by decide)).1]; decide
  · rw [h2.2.2.1 (by norm_num)]; decide

/-- C5: in every state reachable from construction by calls of `write`, `read` and
`wait_time`, `delay` holds at most 256 packets; and 257 writes that the loss draw
lets through, made at one instant on a newly constructed queue, leave in `delay`
exactly the first 256 payloads (the 257th is discarded) and `delivered` empty. -/
theorem delay_bounded (c : Config) :
    (∀ q, Reachable c q → q._delay.length ≤ queue_limit_in_packets) ∧
    (∀ base q0 now (ws : List (ℚ × Payload)), init c base = some q0 →
      (∀ w ∈ ws, ¬ w.1 < c._loss_rate) → ws.length = 257 →
      (write_all c now ws q0)._delay
        = (ws.take 256).map (fun w => ⟨now, (now + c._ms_delay) % UINT64, w.2⟩) ∧
      (write_all c now ws q0)._delay.length = 256 ∧
      (write_all c now ws q0)._delivered = []) := by
  constructor
  · intro q hq
    have hdrop : ∀ (now : Nat) (q q1 : DelayQueue), tick c now q = some q1 →
        q._delay.length ≤ queue_limit_in_packets →
        q1._delay.length ≤ queue_limit_in_packets := by
      intro now q q1 ht hle
      rw [(tick_spec c now q q1 ht).1]
      exact le_trans (List.Sublist.length_le (List.dropWhile_sublist _)) hle
    induction hq with
    | init base q h0 => simp [(init_fields c base q h0).1]
    | write q now r packet _ ih =>
      unfold write queue_limit_in_packets at *
      dsimp only
      split_ifs with h1 h2
      · exact ih
      · exact ih
      · simp only [List.length_append, List.length_singleton]; omega
    | read q now out q1 _ hr ih =>
      obtain ⟨q2, t1, -, t3⟩ := read_tick c now q q1 out hr
      subst t3
      exact hdrop now q q2 t1 ih
    | wait_time q now w q1 _ hw ih =>
      exact hdrop now q q1 (wait_time_tick c now q q1 w hw) ih
  · intro base q0 now ws h0 hw hlen
    obtain ⟨i1, -, -, i4, -⟩ := init_fields c base q0 h0
    obtain ⟨e1, e2⟩ := write_all_delay c now ws hw q0
    rw [i1] at e1
    simp only [List.length_nil, Nat.sub_zero, List.nil_append, queue_limit_in_packets] at e1
    refine ⟨e1, ?_, by rw [e2, i4]⟩
    rw [e1]
    simp [hlen]

theorem delay_bounded_witness :
    (write ⟨"uplink", 10000, 0, "trace", [20000]⟩ 0 0 [1]
        ⟨[LogLine.initialized "trace" 1, LogLine.direction "uplink", LogLine.base_timestamp 0],
          [], [], [], [20000], [], 0, 0, 0, 0, 0, 0, 0⟩)._delay.length
      ≤ queue_limit_in_packets ∧
    (write_all ⟨"uplink", 10000, 0, "trace", [20000]⟩ 0
        (List.replicate 256 (0, [1]) ++ [(0, [2])])
        ⟨[LogLine.initialized "trace" 1, LogLine.direction "uplink", LogLine.base_timestamp 0],
          [], [], [], [20000], [], 0, 0, 0, 0, 0, 0, 0⟩)._delay
      = List.replicate 256 ⟨0, 10000, [1]⟩ := by
  have h := delay_bounded ⟨"uplink", 10000, 0, "trace", [20000]⟩
  refine ⟨h.1 _ (Reachable.write _ 0 0 [1] (Reachable.init 0 _ (by decide))), ?_⟩
  have hw : ∀ w ∈ List.replicate 256 ((0 : ℚ), ([1] : Payload)) ++ [(0, [2])],
      ¬ w.1 < (0 : ℚ) := by
    intro w hw
    rw [List.mem_append] at hw
    rcases hw with hw | hw
    · rw [List.eq_of_mem_replicate hw]; norm_num
    · rw [List.mem_singleton] at hw; rw [hw]; norm_num
  have hlen : (List.replicate 256 ((0 : ℚ), ([1] : Payload)) ++ [(0, [2])]).length = 257 := by
    rw [List.length_append, List.length_replicate]; rfl
  rw [(h.2 0 _ 0 (List.replicate 256 (0, [1]) ++ [(0, [2])]) (by decide) hw hlen).1,
    List.take_left' (List.length_replicate 256 _), List.map_replicate]
  rfl

/-- C6: for every state and time, `read` fails when `tick` fails and otherwise returns
the `delivered` buffer of the state that `tick` produces, which is the old buffer
followed by the packets this `tick` delivered, in order, and leaves the state of
`tick` with `delivered` emptied; and between a `read` and the next `read`, with any
writes and `wait_time` calls in between, the second `read` returns exactly the
packets that left the queue since the first one, each once and in order. -/
theorem read_drains (c : Config) :
    (∀ now q, tick c now q = none → read c now q = none) ∧
    (∀ now q q2, tick c now q = some q2 →
      read c now q = some (q2._delivered, { q2 with _delivered := [] }) ∧
      ∃ D, q2._delivered = q._delivered ++ D.map (fun p => p.contents) ∧
        pending q = D ++ pending q2) ∧
    (∀ now1 q out1 q1 calls h now2 out2 q2, read c now1 q = some (out1, q1) →
      no_read calls = true →
      run c { queue := q1, returned := [], accepted := [] } calls = some h →
      read c now2 h.queue = some (out2, q2) →
      q1._delivered = [] ∧ q2._delivered = [] ∧
      out2 ++ (pending q2).map (fun p => p.contents)
        = (pending q1).map (fun p => p.contents) ++ h.accepted) := by
  refine ⟨?_, ?_, ?_⟩
  · intro now q h
    simp [read, h]
  · intro now q q2 h
    obtain ⟨D, e1, e2, -⟩ := tick_pending c now q q2 h
    exact ⟨by simp [read, h], D, e2, e1⟩
  · intro now1 q out1 q1 calls h now2 out2 q2 hr1 hn hrun hr2
    obtain ⟨qa, -, -, ea⟩ := read_tick c now1 q q1 out1 hr1
    obtain ⟨qb, -, -, eb⟩ := read_tick c now2 h.queue q2 out2 hr2
    have d1 : q1._delivered = [] := by rw [ea]
    have d2 : q2._delivered = [] := by rw [eb]
    obtain ⟨new, f1, f2⟩ := run_flow c calls _ _ hrun
    have f3 := run_no_read c calls _ _ hn hrun
    have f4 := read_flow c now2 h.queue q2 out2 hr2
    simp only [List.nil_append] at f1 f2 f3
    rw [f3, List.nil_append] at f2
    refine ⟨d1, d2, ?_⟩
    rw [f1]
    have g1 : flow q1 = (pending q1).map (fun p => p.contents) := by simp [flow, d1]
    have g2 : flow q2 = (pending q2).map (fun p => p.contents) := by simp [flow, d2]
    rw [← g1, ← g2, f4, f2]

theorem read_drains_witness :
    read ⟨"uplink", 0, 0, "trace", [0, 5]⟩ 5
        ⟨[], [], [⟨3, 3, [7]⟩], [], [5], [[1, 2]], 0, 0, 0, 0, 0, 0, 0⟩
      = some ([[1, 2], [7]],
          ⟨[LogLine.opportunity 5 1514, LogLine.delivery 5 1 2],
            [], [], [], [], [], 1514, 1, 0, 0, 0, 0, 0⟩) :=
  ((read_drains ⟨"uplink", 0, 0, "trace", [0, 5]⟩).2.1 5
    ⟨[], [], [⟨3, 3, [7]⟩], [], [5], [[1, 2]], 0, 0, 0, 0, 0, 0, 0⟩
    ⟨[LogLine.opportunity 5 1514, LogLine.delivery 5 1 2],
      [], [], [], [], [[1, 2], [7]], 1514, 1, 0, 0, 0, 0, 0⟩ (by decide)).1

/-- The value of `wait_time` when the waits fit an `int`. For every state and time
`now` at which `tick` returns a state `q1`, (1) when the front of `delay` and the
front of `schedule` of `q1` (if there are such) lie less than `2^31` ms after `now`,
`wait_time` returns `min(d, s)` computed on `q1`, with
`d = max(0, release_time of the front of delay - now)` or `INT_MAX` when `delay` is
empty and `s = front of schedule - now` or `INT_MAX` when `schedule` is empty;
(2) whenever `wait_time` returns, the state is `q1`, the value is not negative and at
most `INT_MAX`, and it is `INT_MAX` when `delay` and `schedule` are both empty. -/
theorem wait_time_value (c : Config) (now : Nat) (q q1 : DelayQueue)
    (ht : tick c now q = some q1) :
    ((∀ p rest, q1._delay = p :: rest → (p.release_time : Int) - now < 2147483648) →
      (∀ t rest, q1._schedule = t :: rest → (t : Int) - now < 2147483648) →
      wait_time c now q
        = some (min (delay_deadline now q1) (schedule_deadline now q1), q1)) ∧
    (∀ w q2, wait_time c now q = some (w, q2) →
      q2 = q1 ∧ 0 ≤ w ∧ w ≤ INT_MAX ∧
      (q1._delay = [] → q1._schedule = [] → w = INT_MAX)) := by
  obtain ⟨f1, f2⟩ := tick_fronts c now q q1 ht
  constructor
  · intro hd hs
    have hdw : (match q1._delay with
        | [] => INT_MAX
        | front :: _ =>
          if to_int (to_u64 ((front.release_time : Int) - now)) < 0 then 0
          else to_int (to_u64 ((front.release_time : Int) - now)))
        = delay_deadline now q1 := by
      unfold delay_deadline
      cases hq : q1._delay with
      | nil => rfl
      | cons p rest =>
        have h1 := f1 p rest hq
        have h2 := hd p rest hq
        have h3 : to_int (to_u64 ((p.release_time : Int) - now))
            = (p.release_time : Int) - now := by
          rw [to_int_to_u64]; exact to_int_of_bounds _ (by omega) h2
        simp only [h3]
        rw [if_neg (by omega), max_eq_right (by omega)]
    unfold wait_time
    rw [ht]
    dsimp only
    rw [hdw]
    cases hq : q1._schedule with
    | nil =>
      have hsd : schedule_deadline now q1 = INT_MAX := by simp [schedule_deadline, hq]
      rw [hsd]
    | cons t rest =>
      have h1 := f2 t rest hq
      have h2 := hs t rest hq
      have h3 : to_int (to_u64 ((t : Int) - now)) = (t : Int) - now := by
        rw [to_int_to_u64]; exact to_int_of_bounds _ (by omega) h2
      have hsd : schedule_deadline now q1 = (t : Int) - now := by
        simp [schedule_deadline, hq]
      simp only [h3]
      rw [hsd, if_pos (by omega)]
  · intro w q2 hw
    unfold wait_time at hw
    rw [ht] at hw
    dsimp only at hw
    generalize hdw : (match q1._delay with
        | [] => INT_MAX
        | front :: _ =>
          if to_int (to_u64 ((front.release_time : Int) - now)) < 0 then 0
          else to_int (to_u64 ((front.release_time : Int) - now))) = dw at hw
    have hd : 0 ≤ dw ∧ dw ≤ INT_MAX ∧ (q1._delay = [] → dw = INT_MAX) := by
      cases hq : q1._delay with
      | nil =>
        rw [hq] at hdw
        dsimp only at hdw
        subst hdw
        exact ⟨by decide, le_refl _, fun _ => rfl⟩
      | cons p rest =>
        rw [hq] at hdw
        dsimp only at hdw
        have hb := to_int_bounds (to_u64 ((p.release_time : Int) - now))
        unfold INT_MAX
        split_ifs at hdw with h0
        · subst hdw; exact ⟨le_refl _, by decide, fun h => by simp at h⟩
        · subst hdw; exact ⟨by omega, by omega, fun h => by simp at h⟩
    obtain ⟨d1, d2, d3⟩ := hd
    cases hq : q1._schedule with
    | nil =>
      rw [hq] at hw
      simp only [Option.some.injEq, Prod.mk.injEq] at hw
      obtain ⟨hw1, hw2⟩ := hw
      refine ⟨hw2.symm, ?_, ?_, ?_⟩
      · rw [← hw1]; exact le_min d1 (by decide)
      · rw [← hw1]; exact min_le_right _ _
      · intro hdel _
        rw [← hw1, d3 hdel]
        exact min_self _
    | cons t rest =>
      rw [hq] at hw
      dsimp only at hw
      have hb := to_int_bounds (to_u64 ((t : Int) - now))
      split_ifs at hw with h0
      simp only [Option.some.injEq, Prod.mk.injEq] at hw
      obtain ⟨hw1, hw2⟩ := hw
      refine ⟨hw2.symm, ?_, ?_, ?_⟩
      · rw [← hw1]; exact le_min d1 h0
      · rw [← hw1]; exact le_trans (min_le_left _ _) d2
      · intro _ hsch
        simp at hsch

theorem wait_time_value_witness :
    wait_time ⟨"uplink", 20, 0, "trace", [0, 10]⟩ 3
        ⟨[], [⟨0, 20, [1]⟩], [], [], [10], [], 0, 0, 0, 0, 0, 0, 0⟩
      = some (min (delay_deadline 3 ⟨[], [⟨0, 20, [1]⟩], [], [], [10], [], 0, 0, 0, 0, 0, 0, 0⟩)
          (schedule_deadline 3 ⟨[], [⟨0, 20, [1]⟩], [], [], [10], [], 0, 0, 0, 0, 0, 0, 0⟩),
          ⟨[], [⟨0, 20, [1]⟩], [], [], [10], [], 0, 0, 0, 0, 0, 0, 0⟩) ∧
    min (delay_deadline 3 ⟨[], [⟨0, 20, [1]⟩], [], [], [10], [], 0, 0, 0, 0, 0, 0, 0⟩)
      (schedule_deadline 3 ⟨[], [⟨0, 20, [1]⟩], [], [], [10], [], 0, 0, 0, 0, 0, 0, 0⟩) = 7 :=
  ⟨(wait_time_value ⟨"uplink", 20, 0, "trace", [0, 10]⟩ 3
      ⟨[], [⟨0, 20, [1]⟩], [], [], [10], [], 0, 0, 0, 0, 0, 0, 0⟩
      ⟨[], [⟨0, 20, [1]⟩], [], [], [10], [], 0, 0, 0, 0, 0, 0, 0⟩ (by decide)).1
      (by intro p rest h; simp only [List.cons.injEq] at h; rw [← h.1]; decide)
      (by intro t rest h; simp only [List.cons.injEq] at h; rw [← h.1]; decide),
    by decide⟩

/-- C7: the code at two inputs where it departs from the claim. With the trace
`3000000000` the queue constructed at time 0 has its only opportunity 3000000000 ms
ahead; `tick` at time 0 returns, leaving `delay` empty and that opportunity in the
schedule, but `wait_time` at time 0 does not return `min(INT_MAX, 3000000000)`: the
`int` holding the difference is negative and the assertion fails. With a
propagation delay of 3000000000 ms and an empty trace, after a write at time 0
`wait_time` at time 0 returns 0, where `min(d, s) = INT_MAX`. -/
theorem wait_time_overflow :
    (∃ q0 q1, init ⟨"uplink", 0, 0, "trace", [3000000000]⟩ 0 = some q0 ∧
      tick ⟨"uplink", 0, 0, "trace", [3000000000]⟩ 0 q0 = some q1 ∧
      q1._delay = [] ∧ q1._schedule = [3000000000] ∧
      wait_time ⟨"uplink", 0, 0, "trace", [3000000000]⟩ 0 q0 = none) ∧
    (∃ q0 q1, init ⟨"uplink", 3000000000, 0, "trace", []⟩ 0 = some q0 ∧
      wait_time ⟨"uplink", 3000000000, 0, "trace", []⟩ 0
        (write ⟨"uplink", 3000000000, 0, "trace", []⟩ 0 0 [1, 2, 3] q0) = some (0, q1) ∧
      q1._delay = [⟨0, 3000000000, [1, 2, 3]⟩] ∧ q1._schedule = [] ∧
      min (delay_deadline 0 q1) (schedule_deadline 0 q1) = INT_MAX ∧ (0 : Int) ≠ INT_MAX) :=
  ⟨⟨_, _, rfl, rfl, rfl, rfl, by decide⟩, ⟨_, _, rfl, rfl, rfl, rfl, by decide, by decide⟩⟩

/-- C8, as amended (sizes up to `2^31 - 1514` bytes): a packet of size `s` that sits in
limbo with `b` bytes earned, `0 < b < s`, is delivered by exactly the `k`-th
opportunity fired after that, `k = ⌈(s - b) / 1514⌉`: after `j ≤ k - 1` of them it is
still in limbo with `b + 1514 j` bytes earned and nothing has been delivered, and
the `k`-th appends it to `delivered` before any other packet, with a delivery record
of that opportunity. In particular a packet of size `s > 1514` at the head of `pdp`
with `limbo` empty is put in limbo with 1514 bytes earned by the next opportunity
and delivered by the `⌈s / 1514⌉`-th (a 2000-byte packet with opportunities at 0
and 5: 1514 bytes earned after the first, delivered by the second). For `tick` as a
whole: a `tick` that fires `n` opportunities leaves the packet in limbo with
`b + 1514 n` bytes earned and delivers nothing when `b + 1514 n < s`, and delivers
the packet before anything else when `b + 1514 n ≥ s`. -/
theorem limbo_completion :
    (∀ (p : DelayedPacket) (b : Int) (ts : List Nat) (t : Nat) (q : DelayQueue),
      (p.contents.length : Int) ≤ 2147482134 → 0 < b → b < p.contents.length →
      q._limbo = [⟨b, p⟩] →
      (ts.length : Int) + 1 = ⌈((((p.contents.length : Int) - b : Int)) : ℚ) / 1514⌉ →
      (∀ j, j ≤ ts.length → ∃ qj, fire (ts.take j) q = some qj ∧
        qj._limbo = [⟨b + 1514 * j, p⟩] ∧ qj._delivered = q._delivered ∧
        qj._pdp = q._pdp) ∧
      ∃ q1 q2 D, fire ts q = some q1 ∧ pdo t q1 = some q2 ∧
        q2._delivered = q._delivered ++ p.contents :: D.map (fun x => x.contents) ∧
        q._pdp = D ++ (q2._limbo.map (fun l => l.packet) ++ q2._pdp) ∧
        LogLine.delivery t p.contents.length (to_int (to_u64 ((t : Int) - p.entry_time)))
          ∈ q2._output) ∧
    (∀ (p : DelayedPacket) (ts : List Nat) (t0 t : Nat) (q : DelayQueue)
      (rest : List DelayedPacket),
      (p.contents.length : Int) ≤ 2147482134 → 1514 < (p.contents.length : Int) →
      q._limbo = [] → q._pdp = p :: rest →
      (ts.length : Int) + 2 = ⌈(((p.contents.length : Int)) : ℚ) / 1514⌉ →
      ∃ q0 q1 q2 D, pdo t0 q = some q0 ∧ q0._limbo = [⟨1514, p⟩] ∧
        q0._delivered = q._delivered ∧ fire ts q0 = some q1 ∧
        q1._delivered = q._delivered ∧ pdo t q1 = some q2 ∧
        q2._delivered = q._delivered ++ p.contents :: D.map (fun x => x.contents) ∧
        rest = D ++ (q2._limbo.map (fun l => l.packet) ++ q2._pdp) ∧
        LogLine.delivery t p.contents.length (to_int (to_u64 ((t : Int) - p.entry_time)))
          ∈ q2._output) ∧
    (∀ (c : Config) (now : Nat) (p : DelayedPacket) (b : Int) (q q1 : DelayQueue),
      (p.contents.length : Int) ≤ 2147482134 → 0 < b → b < p.contents.length →
      q._limbo = [⟨b, p⟩] → tick c now q = some q1 →
      (b + 1514 *
          (((due_schedule c now q).takeWhile (fun t => decide (t ≤ now))).length : Int)
          < p.contents.length →
        q1._limbo = [⟨b + 1514 *
          (((due_schedule c now q).takeWhile (fun t => decide (t ≤ now))).length : Int), p⟩] ∧
        q1._delivered = q._delivered) ∧
      ((p.contents.length : Int) ≤ b + 1514 *
          (((due_schedule c now q).takeWhile (fun t => decide (t ≤ now))).length : Int) →
        ∃ D : List Payload, q1._delivered = q._delivered ++ p.contents :: D)) := by
  refine ⟨?_, ?_, ?_⟩
  · intro p b ts t q hs hb hbs hq hk
    obtain ⟨k1, k2⟩ := ceil_div_1514 _ _ hk
    exact limbo_completion_steps p hs b ts t q hb hq (by omega) (by omega)
  · intro p ts t0 t q rest hs hgt hl hp hk
    obtain ⟨k1, k2⟩ := ceil_div_1514 _ _ hk
    have h0 := pdo_pdp_limbo t0 q p rest hl hp hgt hs
    obtain ⟨-, q1, q2, D, e1, e2, e3, e4, e5⟩ := limbo_completion_steps p hs 1514 ts t
      { q with _pdp := rest, _limbo := [⟨1514, p⟩],
               _output := q._output ++ [LogLine.opportunity t0 1514] }
      (by decide) rfl (by omega) (by omega)
    have e6 : q1._delivered = q._delivered := by
      obtain ⟨q1', f1, -, f3, -⟩ := fire_grows p hs ts
        { q with _pdp := rest, _limbo := [⟨1514, p⟩],
                 _output := q._output ++ [LogLine.opportunity t0 1514] } 1514 rfl (by decide)
        (by omega)
      rw [e1] at f1
      simp only [Option.some.injEq] at f1
      rw [f1]; exact f3
    exact ⟨_, q1, q2, D, h0, rfl, rfl, e1, e6, e2, e3, e4, e5⟩
  · intro c now p b q q1 hs hb hbs hq h
    exact tick_limbo c now p hs q q1 b hq hb hbs h

theorem limbo_completion_witness :
    ∃ q0 q2,
      pdo 0 ⟨[], [], [⟨0, 0, List.replicate 2000 0⟩], [], [5], [], 0, 0, 2000, 0, 0, 1, 0⟩
        = some q0 ∧
      q0._limbo = [⟨1514, ⟨0, 0, List.replicate 2000 0⟩⟩] ∧ q0._delivered = [] ∧
      pdo 5 q0 = some q2 ∧ q2._delivered = [List.replicate 2000 0] ∧
      LogLine.delivery 5 2000 5 ∈ q2._output := by
  have hlen : (List.replicate 2000 (0 : UInt8)).length = 2000 := List.length_replicate _ _
  obtain ⟨q0, q1, q2, D, h1, h2, h3, h4, -, h6, h7, h8, h9⟩ :=
    limbo_completion.2.1 ⟨0, 0, List.replicate 2000 0⟩ [] 0 5
      ⟨[], [], [⟨0, 0, List.replicate 2000 0⟩], [], [5], [], 0, 0, 2000, 0, 0, 1, 0⟩ []
      (by rw [hlen]; decide) (by rw [hlen]; decide) rfl rfl
      (by rw [hlen]; exact (Int.ceil_eq_iff.mpr ⟨by norm_num, by norm_num⟩).symm)
  simp only [fire, Option.some.injEq] at h4
  subst h4
  have hD : D = [] := by
    have := congrArg List.length h8
    simp only [List.length_nil, List.length_append] at this
    exact List.eq_nil_of_length_eq_zero (by omega)
  subst hD
  simp only [List.map_nil, List.nil_append] at h7
  refine ⟨q0, q2, h1, h2, h3, h6, h7, ?_⟩
  rw [hlen] at h9
  exact h9

/-- C8 as stated fails for a packet whose size does not fit an `int`: a packet of
`2^32 + 2000` bytes in limbo with 1514 bytes earned is delivered by the first
opportunity fired after that, not by the `⌈(s - b) / 1514⌉`-th, the 2836835th. -/
theorem limbo_completion_giant :
    (List.replicate 4294969296 (0 : UInt8)).length = 4294969296 ∧
    ⌈(((4294969296 : Int) - 1514 : Int) : ℚ) / 1514⌉ = 2836835 ∧
    ∃ q2, pdo 5 ⟨[], [], [], [⟨1514, ⟨0, 0, List.replicate 4294969296 0⟩⟩], [], [],
        0, 0, 0, 0, 0, 0, 0⟩ = some q2 ∧
      q2._delivered = [List.replicate 4294969296 0] := by
  have hlen : (List.replicate 4294969296 (0 : UInt8)).length = 4294969296 :=
    List.length_replicate _ _
  refine ⟨hlen, Int.ceil_eq_iff.mpr ⟨by norm_num, by norm_num⟩, ?_⟩
  obtain ⟨q2, D, h1, h2, h3⟩ := pdo_limbo_complete_int 5
    ⟨[], [], [], [⟨1514, ⟨0, 0, List.replicate 4294969296 0⟩⟩], [], [], 0, 0, 0, 0, 0, 0, 0⟩
    ⟨0, 0, List.replicate 4294969296 0⟩ 1514 rfl
    (by rw [hlen]; decide) (by rw [hlen]; decide)
  have hD : D = [] := by
    have := congrArg List.length h3
    simp only [List.length_nil, List.length_append] at this
    exact List.eq_nil_of_length_eq_zero (by omega)
  subst hD
  simp only [List.map_nil, List.nil_append] at h2
  exact ⟨q2, h1, h2⟩

/-- C9: migration precedes service within one `tick`. For every state with `limbo` and
`pdp` empty whose front-of-delay packet has at most 1514 bytes and a release time
`≤ now`, and whose schedule front is an opportunity of time `t ≤ now` (equality
included in both), `tick` at `now` returns, that packet is the first payload it
appends to `delivered`, and the first records it prints are the opportunity `t` and
the delivery of the packet at `t`. -/
theorem migration_before_service (c : Config) (now : Nat) (q : DelayQueue) (p : DelayedPacket)
    (delay : List DelayedPacket) (t : Nat) (schedule : List Nat)
    (hl : q._limbo = []) (hp : q._pdp = []) (hd : q._delay = p :: delay)
    (hsz : p.contents.length ≤ 1514) (hr : p.release_time ≤ now)
    (hs : q._schedule = t :: schedule) (ht : t ≤ now) :
    ∃ (q1 : DelayQueue) (D : List Payload) (L : List LogLine), tick c now q = some q1 ∧
      q1._delivered = q._delivered ++ p.contents :: D ∧
      q1._output = q._output ++ LogLine.opportunity t 1514 ::
        LogLine.delivery t p.contents.length (to_int (to_u64 ((t : Int) - p.entry_time)))
          :: L := by
  have hne : ¬ q._schedule = [] := by rw [hs]; simp
  have hm : (migrate now q._delay q._pdp).2
      = p :: delay.takeWhile (fun x => decide (x.release_time ≤ now)) := by
    rw [migrate_snd, hp, hd]
    simp [List.takeWhile, hr]
  obtain ⟨q3, D3, a1, a2, a3, L3, a4⟩ := pdo_head_fits t
    { q with _delay := (migrate now q._delay q._pdp).1,
             _pdp := (migrate now q._delay q._pdp).2, _schedule := schedule }
    p _ hl hm hsz
  obtain ⟨q4, b1, -⟩ := execute_schedule_ok now schedule q3 a2
  obtain ⟨-, -, -, -, D4, -, b3⟩ := execute_schedule_spec now schedule q3 q4 b1
  obtain ⟨L4, b4⟩ := execute_schedule_output now schedule q3 q4 b1
  obtain ⟨f1, -, -, -, -, f6, -⟩ := bin_rollover_frame now (now / 1000 - q4._bin_sec) q4
  refine ⟨bin_rollover now (now / 1000 - q4._bin_sec) q4,
    D3.map (fun x => x.contents) ++ D4.map (fun x => x.contents), L3 ++ L4, ?_, ?_, ?_⟩
  · unfold tick
    rw [if_neg hne]
    dsimp only
    rw [hs]
    unfold execute_schedule
    rw [if_pos ht]
    dsimp only
    rw [a1]
    dsimp only
    rw [b1]
  · rw [f6, b3, a3]; simp
  · rw [f1, b4, a4]; simp

set_option maxRecDepth 100000 in
theorem migration_before_service_witness :
    ∃ (q1 : DelayQueue) (D : List Payload) (L : List LogLine),
      tick ⟨"uplink", 0, 0, "trace", [0]⟩ 0
        (write ⟨"uplink", 0, 0, "trace", [0]⟩ 0 0 (List.replicate 500 0)
          ⟨[LogLine.initialized "trace" 1, LogLine.direction "uplink",
            LogLine.base_timestamp 0], [], [], [], [0], [], 0, 0, 0, 0, 0, 0, 0⟩) = some q1 ∧
      q1._delivered = [] ++ List.replicate 500 0 :: D ∧
      q1._output = [LogLine.initialized "trace" 1, LogLine.direction "uplink",
          LogLine.base_timestamp 0, LogLine.enqueued 0 500] ++
        LogLine.opportunity 0 1514 :: LogLine.delivery 0 500 0 :: L ∧
      init ⟨"uplink", 0, 0, "trace", [0]⟩ 0
        = some ⟨[LogLine.initialized "trace" 1, LogLine.direction "uplink",
            LogLine.base_timestamp 0], [], [], [], [0], [], 0, 0, 0, 0, 0, 0, 0⟩ ∧
      (read ⟨"uplink", 0, 0, "trace", [0]⟩ 0
        (write ⟨"uplink", 0, 0, "trace", [0]⟩ 0 0 (List.replicate 500 0)
          ⟨[LogLine.initialized "trace" 1, LogLine.direction "uplink",
            LogLine.base_timestamp 0], [], [], [], [0], [], 0, 0, 0, 0, 0, 0, 0⟩)).map
        (fun x => x.1) = some [List.replicate 500 0] := by
  have hlen : (List.replicate 500 (0 : UInt8)).length = 500 := List.length_replicate _ _
  have h := migration_before_service ⟨"uplink", 0, 0, "trace", [0]⟩ 0
    (write ⟨"uplink", 0, 0, "trace", [0]⟩ 0 0 (List.replicate 500 0)
      ⟨[LogLine.initialized "trace" 1, LogLine.direction "uplink",
        LogLine.base_timestamp 0], [], [], [], [0], [], 0, 0, 0, 0, 0, 0, 0⟩)
    ⟨0, 0, List.replicate 500 0⟩ [] 0 [] rfl rfl rfl (by rw [hlen]; decide) (le_refl 0) rfl
    (le_refl 0)
  have hout : (write ⟨"uplink", 0, 0, "trace", [0]⟩ 0 0 (List.replicate 500 0)
      ⟨[LogLine.initialized "trace" 1, LogLine.direction "uplink",
        LogLine.base_timestamp 0], [], [], [], [0], [], 0, 0, 0, 0, 0, 0, 0⟩)._output
      = [LogLine.initialized "trace" 1, LogLine.direction "uplink",
          LogLine.base_timestamp 0, LogLine.enqueued 0 500] := by
    rw [← hlen]; rfl
  rw [hout] at h
  simp only [hlen] at h
  obtain ⟨q1, D, L, h1, h2, h3⟩ := h
  exact ⟨q1, D, L, h1, h2, h3, by decide, by decide⟩

/-- C10, as amended (timestamps `now + o` below `2^64`, limbo queue in order): for every
state whose schedule is empty, every trace with non-decreasing offsets and every time
`now`, `tick` at `now` returns, having reloaded the schedule as `now + o_1, ...,
now + o_n`, fired in order exactly those of them that are `≤ now`, and left the
others as the schedule. -/
theorem schedule_repopulation (c : Config) (now : Nat) (q : DelayQueue)
    (hq : q._schedule = []) (hl : LimboOK q)
    (hsorted : c.trace.Sorted (fun a b => a ≤ b))
    (hrange : ∀ o ∈ c.trace, o + now < UINT64) :
    ∃ q1, tick c now q = some q1 ∧
      due_schedule c now q = c.trace.map (fun o => now + o) ∧
      pdo_times q1._output = pdo_times q._output ++
        (c.trace.map (fun o => now + o)).filter (fun t => decide (t ≤ now)) ∧
      q1._schedule = (c.trace.map (fun o => now + o)).filter (fun t => decide (now < t)) := by
  have hr := reload_of_range c now hrange
  have hs2 : (c.trace.map (fun o => now + o)).Sorted (fun a b => a ≤ b) := by
    unfold List.Sorted at *
    rw [List.pairwise_map]
    exact hsorted.imp (fun h => by omega)
  have hdue : due_schedule c now q = c.trace.map (fun o => now + o) := by
    unfold due_schedule
    rw [if_pos hq, hr]
  obtain ⟨q1, e1, -⟩ := tick_ok c now q hl (fun _ => by rw [hr]; exact hs2.chain')
  obtain ⟨-, f2, f3, -⟩ := tick_spec c now q q1 e1
  obtain ⟨g1, g2⟩ := takeWhile_eq_filter_of_sorted now _ hs2
  refine ⟨q1, e1, hdue, ?_, ?_⟩
  · rw [f3, hdue, g1]
  · rw [f2, hdue, g2]

theorem schedule_repopulation_witness :
    (∃ q1, tick ⟨"uplink", 0, 0, "trace", [0, 10]⟩ 20
        ⟨[LogLine.initialized "trace" 2, LogLine.direction "uplink", LogLine.base_timestamp 0,
          LogLine.opportunity 0 1514, LogLine.opportunity 10 1514],
          [], [], [], [], [], 3028, 0, 0, 0, 0, 0, 0⟩ = some q1 ∧
      due_schedule ⟨"uplink", 0, 0, "trace", [0, 10]⟩ 20
        ⟨[LogLine.initialized "trace" 2, LogLine.direction "uplink", LogLine.base_timestamp 0,
          LogLine.opportunity 0 1514, LogLine.opportunity 10 1514],
          [], [], [], [], [], 3028, 0, 0, 0, 0, 0, 0⟩ = [20, 30] ∧
      pdo_times q1._output = [0, 10] ++ [20] ∧
      q1._schedule = [30]) ∧
    init ⟨"uplink", 0, 0, "trace", [0, 10]⟩ 0
      = some ⟨[LogLine.initialized "trace" 2, LogLine.direction "uplink",
          LogLine.base_timestamp 0], [], [], [], [0, 10], [], 0, 0, 0, 0, 0, 0, 0⟩ ∧
    wait_time ⟨"uplink", 0, 0, "trace", [0, 10]⟩ 10
        ⟨[LogLine.initialized "trace" 2, LogLine.direction "uplink",
          LogLine.base_timestamp 0], [], [], [], [0, 10], [], 0, 0, 0, 0, 0, 0, 0⟩
      = some (2147483647,
          ⟨[LogLine.initialized "trace" 2, LogLine.direction "uplink", LogLine.base_timestamp 0,
            LogLine.opportunity 0 1514, LogLine.opportunity 10 1514],
            [], [], [], [], [], 3028, 0, 0, 0, 0, 0, 0⟩) ∧
    wait_time ⟨"uplink", 0, 0, "trace", [0, 10]⟩ 20
        ⟨[LogLine.initialized "trace" 2, LogLine.direction "uplink", LogLine.base_timestamp 0,
          LogLine.opportunity 0 1514, LogLine.opportunity 10 1514],
          [], [], [], [], [], 3028, 0, 0, 0, 0, 0, 0⟩
      = some (10,
          ⟨[LogLine.initialized "trace" 2, LogLine.direction "uplink", LogLine.base_timestamp 0,
            LogLine.opportunity 0 1514, LogLine.opportunity 10 1514, LogLine.opportunity 20 1514],
            [], [], [], [30], [], 4542, 0, 0, 0, 0, 0, 0⟩) :=
  ⟨schedule_repopulation ⟨"uplink", 0, 0, "trace", [0, 10]⟩ 20
      ⟨[LogLine.initialized "trace" 2, LogLine.direction "uplink", LogLine.base_timestamp 0,
        LogLine.opportunity 0 1514, LogLine.opportunity 10 1514],
        [], [], [], [], [], 3028, 0, 0, 0, 0, 0, 0⟩
      rfl (Or.inl rfl) (by decide) (by decide),
    by decide, by decide, by decide⟩

/-- C10 as stated fails. With the non-decreasing trace `0, 18446744073709551615` and an
empty schedule, `tick` at time 1 does not reload the schedule: the second timestamp
wraps around to 0, below the first, and the assertion of `schedule_from_file` fails
(so does the constructor with base 1). With the trace `0` and a state that holds two
packets in limbo, `tick` at time 0 reloads the schedule, fires the opportunity and
fails the assertion that limbo is empty after the delivery. -/
theorem schedule_repopulation_wraps :
    List.Sorted (fun a b => a ≤ b) [0, 18446744073709551615] ∧
    tick ⟨"uplink", 0, 0, "trace", [0, 18446744073709551615]⟩ 1
      ⟨[], [], [], [], [], [], 0, 0, 0, 0, 0, 0, 0⟩ = none ∧
    init ⟨"uplink", 0, 0, "trace", [0, 18446744073709551615]⟩ 1 = none ∧
    tick ⟨"uplink", 0, 0, "trace", [0]⟩ 0
      ⟨[], [], [], [⟨0, ⟨0, 0, [1]⟩⟩, ⟨0, ⟨0, 0, [1]⟩⟩], [], [], 0, 0, 0, 0, 0, 0, 0⟩ = none :=
  ⟨by decide, by decide, by decide, by decide⟩

/-- C11, as amended (timestamps `b + o` below `2^64`): for every base timestamp `b` and
every list of offsets `o_1 .. o_n` read from the trace file with `b + o_i < 2^64`,
`schedule_from_file` called on an empty schedule returns (no assertion fails) if and
only if the offsets are non-decreasing, and then the schedule is exactly
`b + o_1, ..., b + o_n` in file order, which is non-decreasing; called on a non-empty
schedule it fails its assertion. -/
theorem schedule_from_file_contract (c : Config) (b : Nat) (q : DelayQueue)
    (hrange : ∀ o ∈ c.trace, o + b < UINT64) :
    (q._schedule = [] →
      ((∃ q1, schedule_from_file c b q = some q1) ↔ c.trace.Sorted (fun x y => x ≤ y)) ∧
      (∀ q1, schedule_from_file c b q = some q1 →
        q1 = { q with _schedule := c.trace.map (fun o => b + o) } ∧
        q1._schedule.Sorted (fun x y => x ≤ y))) ∧
    (q._schedule ≠ [] → schedule_from_file c b q = none) := by
  have hr := reload_of_range c b hrange
  have hmap : List.Chain' (fun x y => x ≤ y) (c.trace.map (fun o => b + o)) ↔
      List.Chain' (fun x y => x ≤ y) c.trace := by
    rw [List.chain'_map]
    constructor <;> intro h <;> exact h.imp (fun h => by omega)
  constructor
  · intro hq
    have hsome : ∀ q1, schedule_from_file c b q = some q1 →
        q1 = { q with _schedule := c.trace.map (fun o => b + o) } ∧
        List.Chain' (fun x y => x ≤ y) (c.trace.map (fun o => b + o)) := by
      intro q1 h
      obtain ⟨-, e⟩ := schedule_from_file_eq c b q q1 h
      rw [hr] at e
      refine ⟨e, ?_⟩
      unfold schedule_from_file at h
      rw [if_pos hq, hq] at h
      split at h
      · exact absurd h (by simp)
      · next s hs =>
        have h1 := schedule_loop_chain b c.trace [] s (by simp) hs
        have h2 := schedule_loop_eq b c.trace [] s hs
        rw [h2] at h1
        simp only [List.nil_append] at h1
        unfold reload at hr
        rw [hr] at h1
        exact h1
    refine ⟨⟨?_, ?_⟩, ?_⟩
    · rintro ⟨q1, h⟩
      exact List.chain'_iff_pairwise.mp (hmap.mp (hsome q1 h).2)
    · intro hs
      have hc : List.Chain' (fun a b => a ≤ b)
          ([] ++ c.trace.map (fun ms => (ms + b) % UINT64)) := by
        unfold reload at hr
        rw [List.nil_append, hr]
        exact hmap.mpr hs.chain'
      have := schedule_loop_sorted b c.trace [] hc
      unfold schedule_from_file
      rw [if_pos hq, hq, this]
      exact ⟨_, rfl⟩
    · intro q1 h
      obtain ⟨e1, e2⟩ := hsome q1 h
      refine ⟨e1, ?_⟩
      rw [e1]
      exact List.chain'_iff_pairwise.mp e2
  · intro hq
    unfold schedule_from_file
    rw [if_neg hq]

theorem schedule_from_file_contract_witness :
    ((∃ q1, schedule_from_file ⟨"uplink", 0, 0, "trace", [0, 10, 10]⟩ 100
        ⟨[], [], [], [], [], [], 0, 0, 0, 0, 100, 0, 0⟩ = some q1) ↔
      List.Sorted (fun x y => x ≤ y) [0, 10, 10]) ∧
    schedule_from_file ⟨"uplink", 0, 0, "trace", [0, 10, 10]⟩ 100
        ⟨[], [], [], [], [], [], 0, 0, 0, 0, 100, 0, 0⟩
      = some ⟨[], [], [], [], [100, 110, 110], [], 0, 0, 0, 0, 100, 0, 0⟩ ∧
    schedule_from_file ⟨"uplink", 0, 0, "trace", [10, 0]⟩ 100
        ⟨[], [], [], [], [], [], 0, 0, 0, 0, 100, 0, 0⟩ = none ∧
    schedule_from_file ⟨"uplink", 0, 0, "trace", [0, 10, 10]⟩ 100
        ⟨[], [], [], [], [120], [], 0, 0, 0, 0, 100, 0, 0⟩ = none :=
  ⟨((schedule_from_file_contract ⟨"uplink", 0, 0, "trace", [0, 10, 10]⟩ 100
      ⟨[], [], [], [], [], [], 0, 0, 0, 0, 100, 0, 0⟩ (by decide)).1 rfl).1,
    by decide, by decide, by decide⟩

/-- C11 as stated fails in both directions when a timestamp passes `2^64`. With base 3
the non-decreasing offsets `5, 18446744073709551615` give the timestamps `8, 2`, and
the assertion of the loader fails; the decreasing offsets `18446744073709551615, 0`
give `2, 3`, and the loader returns with that schedule. -/
theorem schedule_from_file_wraps :
    (List.Sorted (fun x y => x ≤ y) [5, 18446744073709551615] ∧
      schedule_from_file ⟨"uplink", 0, 0, "trace", [5, 18446744073709551615]⟩ 3
        ⟨[], [], [], [], [], [], 0, 0, 0, 0, 3, 0, 0⟩ = none) ∧
    (¬ List.Sorted (fun x y => x ≤ y) [18446744073709551615, 0] ∧
      schedule_from_file ⟨"uplink", 0, 0, "trace", [18446744073709551615, 0]⟩ 3
        ⟨[], [], [], [], [], [], 0, 0, 0, 0, 3, 0, 0⟩
        = some ⟨[], [], [], [], [2, 3], [], 0, 0, 0, 0, 3, 0, 0⟩) :=
  ⟨⟨by decide, by decide⟩, ⟨by decide, by decide⟩⟩

/-- C12, as amended (the record starts with `# `): for every payload of size `n` written
at time `now` when the loss draw does not drop it and `delay` already holds 256 or
more entries, `write` counts the packet in `packets_added`, changes nothing else in
the queue, and appends to the log exactly one record, whose text is
`# {now} + {n} (dropped)`: a hash sign and a space, then the text `{now} + {n}` of the
record of an admitted packet, then ` (dropped)`. -/
theorem write_queue_full_record (c : Config) (now : Nat) (r : ℚ) (packet : Payload)
    (q : DelayQueue) (hr : ¬ r < c._loss_rate) (hfull : 256 ≤ q._delay.length) :
    write c now r packet q
      = { q with _packets_added := (q._packets_added + 1) % UINT32,
                 _output := q._output ++ [LogLine.queue_full now packet.length] } ∧
    (write c now r packet q)._output.map render = q._output.map render ++
      ["# " ++ toString now ++ " + " ++ toString packet.length ++ " (dropped)"] ∧
    render (LogLine.queue_full now packet.length)
      = "# " ++ render (LogLine.enqueued now packet.length) ++ " (dropped)" := by
  have h : write c now r packet q
      = { q with _packets_added := (q._packets_added + 1) % UINT32,
                 _output := q._output ++ [LogLine.queue_full now packet.length] } := by
    unfold write queue_limit_in_packets convert_timestamp
    dsimp only
    rw [if_neg hr, if_pos hfull]
  refine ⟨h, ?_, ?_⟩
  · rw [h]
    simp only [List.map_append, List.map_cons, List.map_nil, render]
  · simp only [render, String.append_assoc]

theorem write_queue_full_record_witness :
    (write ⟨"uplink", 10000, 0, "trace", []⟩ 10 0 [1, 2, 3]
        ⟨[LogLine.direction "uplink"], List.replicate 256 ⟨0, 10000, [1]⟩, [], [], [], [],
          0, 0, 256, 0, 0, 256, 0⟩)._output.map render
      = ["# Direction: uplink", "# 10 + 3 (dropped)"] := by
  have h := (write_queue_full_record ⟨"uplink", 10000, 0, "trace", []⟩ 10 0 [1, 2, 3]
    ⟨[LogLine.direction "uplink"], List.replicate 256 ⟨0, 10000, [1]⟩, [], [], [], [],
      0, 0, 256, 0, 0, 256, 0⟩ (by norm_num)
    (by rw [List.length_replicate])).2.1
  rw [h]
  decide

/-- C12 as stated fails: a 3-byte packet written at time 10 to a queue whose `delay`
holds 256 packets gets the record `# 10 + 3 (dropped)`, which is not
`10 + 3 (dropped)`: a hash sign and a space stand before the timestamp. -/
theorem dropped_record_prefix :
    (write ⟨"uplink", 10000, 0, "trace", []⟩ 10 0 [1, 2, 3]
        ⟨[], List.replicate 256 ⟨0, 10000, [1]⟩, [], [], [], [],
          0, 0, 256, 0, 0, 256, 0⟩)._output.map render = ["# 10 + 3 (dropped)"] ∧
    "# 10 + 3 (dropped)" ≠ "10 + 3 (dropped)" := by
  constructor
  · unfold write queue_limit_in_packets
    dsimp only
    rw [if_neg (by norm_num), if_pos (by rw [List.length_replicate])]
    decide
  · decide

/-- C13, as amended (one generator for the two queues): the loss decisions of the uplink
are the tests `rnd k < loss_rate` at the positions `k` that its writes have in the
sequence of all `write` calls of the process, to either queue (`rand()` has been
called once per `write`). Hence for any two runs that complete, in which the uplink
is constructed with the same loss rate and the `write` calls go to the two queues in
the same order, the uplink writes that are stochastically dropped are the same,
whatever the payloads, the times, the configuration otherwise and the `read` and
`wait_time` calls in between. -/
theorem loss_decisions (rnd : Nat → ℚ) (up down up2 down2 : Config) (now now2 : Nat)
    (s0 s1 t0 t1 : Links) (es fs : List Event)
    (hloss : up2._loss_rate = up._loss_rate)
    (hs0 : start up down now = some s0) (ht0 : start up2 down2 now2 = some t0)
    (hs : steps rnd up down s0 es = some s1) (ht : steps rnd up2 down2 t0 fs = some t1) :
    uplink_drops rnd up down s0 es = draws_at rnd up._loss_rate 0 (write_pattern es) ∧
    s1.rand_calls = (write_pattern es).length ∧
    (write_pattern es = write_pattern fs →
      uplink_drops rnd up down s0 es = uplink_drops rnd up2 down2 t0 fs) := by
  obtain ⟨a1, a2⟩ := uplink_drops_eq rnd up down es s0 s1 hs
  obtain ⟨b1, -⟩ := uplink_drops_eq rnd up2 down2 fs t0 t1 ht
  rw [start_rand_calls up down now s0 hs0] at a1 a2
  rw [start_rand_calls up2 down2 now2 t0 ht0] at b1
  refine ⟨a1, by omega, ?_⟩
  intro hp
  rw [a1, b1, hp, hloss]

theorem loss_decisions_witness :
    uplink_drops (fun k => if k = 0 then 3 / 4 else 1 / 4)
        ⟨"uplink", 0, 1 / 2, "up", [0]⟩ ⟨"downlink", 0, 1 / 2, "down", [0]⟩
        ⟨⟨[LogLine.initialized "up" 1, LogLine.direction "uplink", LogLine.base_timestamp 0],
            [], [], [], [0], [], 0, 0, 0, 0, 0, 0, 0⟩,
          ⟨[LogLine.initialized "down" 1, LogLine.direction "downlink",
            LogLine.base_timestamp 0], [], [], [], [0], [], 0, 0, 0, 0, 0, 0, 0⟩, 0⟩
        [Event.downlink (Op.write 0 [9]), Event.uplink (Op.write 0 [1])]
      = uplink_drops (fun k => if k = 0 then 3 / 4 else 1 / 4)
        ⟨"uplink", 0, 1 / 2, "up", [0]⟩ ⟨"downlink", 0, 1 / 2, "down", [0]⟩
        ⟨⟨[LogLine.initialized "up" 1, LogLine.direction "uplink", LogLine.base_timestamp 0],
            [], [], [], [0], [], 0, 0, 0, 0, 0, 0, 0⟩,
          ⟨[LogLine.initialized "down" 1, LogLine.direction "downlink",
            LogLine.base_timestamp 0], [], [], [], [0], [], 0, 0, 0, 0, 0, 0, 0⟩, 0⟩
        [Event.downlink (Op.write 5 [7, 7]), Event.uplink (Op.write 6 [2, 3])] := by
  have hs : steps (fun k => if k = 0 then 3 / 4 else 1 / 4)
      ⟨"uplink", 0, 1 / 2, "up", [0]⟩ ⟨"downlink", 0, 1 / 2, "down", [0]⟩
      ⟨⟨[LogLine.initialized "up" 1, LogLine.direction "uplink", LogLine.base_timestamp 0],
          [], [], [], [0], [], 0, 0, 0, 0, 0, 0, 0⟩,
        ⟨[LogLine.initialized "down" 1, LogLine.direction "downlink",
          LogLine.base_timestamp 0], [], [], [], [0], [], 0, 0, 0, 0, 0, 0, 0⟩, 0⟩
      [Event.downlink (Op.write 0 [9]), Event.uplink (Op.write 0 [1])]
      = some
        ⟨⟨[LogLine.initialized "up" 1, LogLine.direction "uplink", LogLine.base_timestamp 0],
            [], [], [], [0], [], 0, 0, 0, 0, 0, 1, 1⟩,
          ⟨[LogLine.initialized "down" 1, LogLine.direction "downlink",
            LogLine.base_timestamp 0, LogLine.enqueued 0 1], [⟨0, 0, [9]⟩], [], [], [0], [],
            0, 0, 1, 0, 0, 1, 0⟩, 2⟩ := by
    simp only [steps, step, run_op, op_draws, write]
    norm_num [UINT32, UINT64, queue_limit_in_packets, convert_timestamp]
  have ht : steps (fun k => if k = 0 then 3 / 4 else 1 / 4)
      ⟨"uplink", 0, 1 / 2, "up", [0]⟩ ⟨"downlink", 0, 1 / 2, "down", [0]⟩
      ⟨⟨[LogLine.initialized "up" 1, LogLine.direction "uplink", LogLine.base_timestamp 0],
          [], [], [], [0], [], 0, 0, 0, 0, 0, 0, 0⟩,
        ⟨[LogLine.initialized "down" 1, LogLine.direction "downlink",
          LogLine.base_timestamp 0], [], [], [], [0], [], 0, 0, 0, 0, 0, 0, 0⟩, 0⟩
      [Event.downlink (Op.write 5 [7, 7]), Event.uplink (Op.write 6 [2, 3])]
      = some
        ⟨⟨[LogLine.initialized "up" 1, LogLine.direction "uplink", LogLine.base_timestamp 0],
            [], [], [], [0], [], 0, 0, 0, 0, 0, 1, 1⟩,
          ⟨[LogLine.initialized "down" 1, LogLine.direction "downlink",
            LogLine.base_timestamp 0, LogLine.enqueued 5 2], [⟨5, 5, [7, 7]⟩], [], [], [0], [],
            0, 0, 2, 0, 0, 1, 0⟩, 2⟩ := by
    simp only [steps, step, run_op, op_draws, write]
    norm_num [UINT32, UINT64, queue_limit_in_packets, convert_timestamp]
  exact (loss_decisions (fun k => if k = 0 then 3 / 4 else 1 / 4)
    ⟨"uplink", 0, 1 / 2, "up", [0]⟩ ⟨"downlink", 0, 1 / 2, "down", [0]⟩
    ⟨"uplink", 0, 1 / 2, "up", [0]⟩ ⟨"downlink", 0, 1 / 2, "down", [0]⟩ 0 0
    _ _ _ _ _ _ rfl (by decide) (by decide) hs ht).2.2 rfl

/-- C13 as stated fails. Both queues have loss rate 1/2 and the generator gives 3/4 at
its first call and 1/4 afterwards. The uplink receives the same single `write` in
two runs: alone, it takes the first draw and the packet is kept; after one `write`
to the downlink, it takes the second draw and the packet is dropped. -/
theorem loss_decisions_shared :
    start ⟨"uplink", 0, 1 / 2, "up", [0]⟩ ⟨"downlink", 0, 1 / 2, "down", [0]⟩ 0
      = some
        ⟨⟨[LogLine.initialized "up" 1, LogLine.direction "uplink", LogLine.base_timestamp 0],
            [], [], [], [0], [], 0, 0, 0, 0, 0, 0, 0⟩,
          ⟨[LogLine.initialized "down" 1, LogLine.direction "downlink",
            LogLine.base_timestamp 0], [], [], [], [0], [], 0, 0, 0, 0, 0, 0, 0⟩, 0⟩ ∧
    uplink_writes [Event.uplink (Op.write 0 [1])]
      = uplink_writes [Event.downlink (Op.write 0 [9]), Event.uplink (Op.write 0 [1])] ∧
    uplink_drops (fun k => if k = 0 then 3 / 4 else 1 / 4)
        ⟨"uplink", 0, 1 / 2, "up", [0]⟩ ⟨"downlink", 0, 1 / 2, "down", [0]⟩
        ⟨⟨[LogLine.initialized "up" 1, LogLine.direction "uplink", LogLine.base_timestamp 0],
            [], [], [], [0], [], 0, 0, 0, 0, 0, 0, 0⟩,
          ⟨[LogLine.initialized "down" 1, LogLine.direction "downlink",
            LogLine.base_timestamp 0], [], [], [], [0], [], 0, 0, 0, 0, 0, 0, 0⟩, 0⟩
        [Event.uplink (Op.write 0 [1])] = [false] ∧
    uplink_drops (fun k => if k = 0 then 3 / 4 else 1 / 4)
        ⟨"uplink", 0, 1 / 2, "up", [0]⟩ ⟨"downlink", 0, 1 / 2, "down", [0]⟩
        ⟨⟨[LogLine.initialized "up" 1, LogLine.direction "uplink", LogLine.base_timestamp 0],
            [], [], [], [0], [], 0, 0, 0, 0, 0, 0, 0⟩,
          ⟨[LogLine.initialized "down" 1, LogLine.direction "downlink",
            LogLine.base_timestamp 0], [], [], [], [0], [], 0, 0, 0, 0, 0, 0, 0⟩, 0⟩
        [Event.downlink (Op.write 0 [9]), Event.uplink (Op.write 0 [1])] = [true] := by
  refine ⟨by decide, rfl, ?_, ?_⟩
  · simp only [uplink_drops, step, run_op, op_draws, lost_iff]
    norm_num
  · simp only [uplink_drops, step, run_op, op_draws, lost_iff]
    norm_num

/-- C14, as amended (`write` does not run `tick`): for every state, payload, loss draw and
time `now`, `write` at `now` is the admission step on the state as it stands. It
leaves `schedule`, `pdp`, `limbo`, `delivered`, `total_bytes`, `used_bytes` and the
bin as they are and fires no opportunity; every entry of `delay` stays in `delay`,
released or not, and when `delay` holds 256 entries or more nothing is added to it,
whatever their release times. -/
theorem write_admission_only (c : Config) (now : Nat) (r : ℚ) (packet : Payload)
    (q : DelayQueue) :
    (write c now r packet q)._schedule = q._schedule ∧
    (write c now r packet q)._pdp = q._pdp ∧
    (write c now r packet q)._limbo = q._limbo ∧
    (write c now r packet q)._delivered = q._delivered ∧
    (write c now r packet q)._total_bytes = q._total_bytes ∧
    (write c now r packet q)._used_bytes = q._used_bytes ∧
    (write c now r packet q)._bin_sec = q._bin_sec ∧
    pdo_times (write c now r packet q)._output = pdo_times q._output ∧
    q._delay <+: (write c now r packet q)._delay ∧
    (256 ≤ q._delay.length → (write c now r packet q)._delay = q._delay) := by
  unfold write queue_limit_in_packets
  dsimp only
  split_ifs with h1 h2
  · exact ⟨rfl, rfl, rfl, rfl, rfl, rfl, rfl, rfl, List.prefix_refl _, fun _ => rfl⟩
  · refine ⟨rfl, rfl, rfl, rfl, rfl, rfl, rfl, ?_, List.prefix_refl _, fun _ => rfl⟩
    simp [pdo_times_append, pdo_times]
  · refine ⟨rfl, rfl, rfl, rfl, rfl, rfl, rfl, ?_, List.prefix_append _ _, fun h => ?_⟩
    · simp [pdo_times_append, pdo_times]
    · exact absurd h h2

/-- C14 as stated fails. Trace `5`, queue constructed at time 0: `write` at time 10 leaves
the opportunity of time 5 in the schedule and `total_bytes` at 0, where `tick` at 10
followed by the admission fires it (schedule empty, 1514 bytes counted). A queue
whose `delay` holds 256 packets released at time 0: `write` at time 10 discards the
new packet with a dropped-packet record, where after `tick` at 10 `delay` is empty
and the admission keeps the packet. -/
theorem write_skips_tick :
    (∃ q0 q1, init ⟨"uplink", 0, 0, "trace", [5]⟩ 0 = some q0 ∧
      tick ⟨"uplink", 0, 0, "trace", [5]⟩ 10 q0 = some q1 ∧
      write ⟨"uplink", 0, 0, "trace", [5]⟩ 10 0 [1, 2, 3] q0
        ≠ write ⟨"uplink", 0, 0, "trace", [5]⟩ 10 0 [1, 2, 3] q1 ∧
      (write ⟨"uplink", 0, 0, "trace", [5]⟩ 10 0 [1, 2, 3] q0)._schedule = [5] ∧
      (write ⟨"uplink", 0, 0, "trace", [5]⟩ 10 0 [1, 2, 3] q0)._total_bytes = 0 ∧
      (write ⟨"uplink", 0, 0, "trace", [5]⟩ 10 0 [1, 2, 3] q1)._schedule = [] ∧
      (write ⟨"uplink", 0, 0, "trace", [5]⟩ 10 0 [1, 2, 3] q1)._total_bytes = 1514) ∧
    (∃ q1, tick ⟨"uplink", 0, 0, "trace", [5]⟩ 10
        ⟨[], List.replicate 256 ⟨0, 0, [1]⟩, [], [], [20], [], 0, 0, 256, 0, 0, 256, 0⟩
        = some q1 ∧
      q1._delay = [] ∧
      (write ⟨"uplink", 0, 0, "trace", [5]⟩ 10 0 [1, 2, 3] q1)._delay = [⟨10, 10, [1, 2, 3]⟩] ∧
      (write ⟨"uplink", 0, 0, "trace", [5]⟩ 10 0 [1, 2, 3]
        ⟨[], List.replicate 256 ⟨0, 0, [1]⟩, [], [], [20], [], 0, 0, 256, 0, 0, 256, 0⟩)._delay
        = List.replicate 256 ⟨0, 0, [1]⟩ ∧
      (write ⟨"uplink", 0, 0, "trace", [5]⟩ 10 0 [1, 2, 3]
        ⟨[], List.replicate 256 ⟨0, 0, [1]⟩, [], [], [20], [], 0, 0, 256, 0, 0, 256, 0⟩)._output
        = [LogLine.queue_full 10 3]) := by
  constructor
  · exact ⟨_, _, rfl, rfl, by decide, rfl, rfl, rfl, rfl⟩
  · obtain ⟨q1, h1, -⟩ := tick_ok ⟨"uplink", 0, 0, "trace", [5]⟩ 10
      ⟨[], List.replicate 256 ⟨0, 0, [1]⟩, [], [], [20], [], 0, 0, 256, 0, 0, 256, 0⟩
      (Or.inl rfl) (fun h => absurd h (by simp))
    have h2 : q1._delay = [] := by
      rw [(tick_spec _ _ _ _ h1).1]
      rw [List.dropWhile_eq_nil_iff]
      intro x hx
      rw [List.eq_of_mem_replicate hx]
      decide
    have hw : ∀ (q : DelayQueue), q._delay.length = 256 →
        (write ⟨"uplink", 0, 0, "trace", [5]⟩ 10 0 [1, 2, 3] q)._delay = q._delay ∧
        (write ⟨"uplink", 0, 0, "trace", [5]⟩ 10 0 [1, 2, 3] q)._output
          = q._output ++ [LogLine.queue_full 10 3] := by
      intro q hq
      unfold write queue_limit_in_packets convert_timestamp
      dsimp only
      rw [if_neg (by norm_num), if_pos (by omega)]
      exact ⟨rfl, rfl⟩
    refine ⟨q1, h1, h2, ?_, ?_, ?_⟩
    · unfold write queue_limit_in_packets
      dsimp only
      rw [if_neg (by norm_num), if_neg (by rw [h2]; decide), h2]
      rfl
    · exact (hw _ (List.length_replicate _ _)).1
    · exact (hw _ (List.length_replicate _ _)).2

/-- C15: the code at an input where it departs from the claim. With the trace
`2500000000` the queue constructed at time 1000 has its only opportunity at time
2500001000. `tick` at time 1003 returns and leaves it at the front of the schedule,
strictly after `now`; but the `int` that `wait_time` computes from the difference
2499999997 is -1794967299, and the assertion `schedule_wait >= 0` fails. -/
theorem schedule_wait_negative :
    ∃ q0 q1, init ⟨"uplink", 0, 0, "trace", [2500000000]⟩ 1000 = some q0 ∧
      tick ⟨"uplink", 0, 0, "trace", [2500000000]⟩ 1003 q0 = some q1 ∧
      q1._schedule = [2500001000] ∧ 1003 < 2500001000 ∧
      to_int (to_u64 ((2500001000 : Int) - 1003)) = -1794967299 ∧
      wait_time ⟨"uplink", 0, 0, "trace", [2500000000]⟩ 1003 q0 = none :=
  ⟨_, _, rfl, rfl, rfl, by decide, by decide, by decide⟩

/-- C17: underflow accounting. For every state with `limbo` and `pdp` empty and no entry
of `delay` released by `now`, a `tick` at `now` that crosses no one-second boundary
(`now / 1000 ≤ bin_sec`) and fires `k` opportunities appends nothing to `delivered`,
leaves `used_bytes` unchanged and adds `1514 k` to the `uint64_t` counter
`total_bytes` (the sum taken modulo `2^64`; the plain sum when that is below
`2^64`); such a `tick` returns whenever the schedule is non-empty or reloads in
order. An opportunity that finds `pdp` empty with a budget `r > 0` left adds `r` to
`total_bytes` and changes nothing else. With the trace `0, 10` and no writes, the
queue constructed at time 0 and ticked at time 10 has fired both opportunities:
`total_bytes = 3028`, `used_bytes = 0`, nothing delivered. -/
theorem underflow_accounting :
    (∀ (c : Config) (now : Nat) (q q1 : DelayQueue),
      q._limbo = [] → q._pdp = [] → (∀ p ∈ q._delay, now < p.release_time) →
      now / 1000 ≤ q._bin_sec → tick c now q = some q1 →
      q1._delivered = q._delivered ∧ q1._used_bytes = q._used_bytes ∧
      pdo_times q1._output = pdo_times q._output ++
        (due_schedule c now q).takeWhile (fun t => decide (t ≤ now)) ∧
      q1._total_bytes % UINT64 = (q._total_bytes + 1514 *
        ((due_schedule c now q).takeWhile (fun t => decide (t ≤ now))).length) % UINT64 ∧
      (q._total_bytes + 1514 *
          ((due_schedule c now q).takeWhile (fun t => decide (t ≤ now))).length < UINT64 →
        q1._total_bytes = q._total_bytes + 1514 *
          ((due_schedule c now q).takeWhile (fun t => decide (t ≤ now))).length)) ∧
    (∀ (c : Config) (now : Nat) (q : DelayQueue), q._limbo = [] →
      (q._schedule = [] → List.Chain' (fun x y => x ≤ y) (reload c now)) →
      ∃ q1, tick c now q = some q1) ∧
    (∀ (t : Nat) (q : DelayQueue) (r : Int), 0 < r → q._limbo = [] →
      execute_regular t [] q r
        = some { q with _pdp := [], _total_bytes := (q._total_bytes + r.toNat) % UINT64 }) ∧
    (∃ q0 q1, init ⟨"uplink", 0, 0, "trace", [0, 10]⟩ 0 = some q0 ∧
      tick ⟨"uplink", 0, 0, "trace", [0, 10]⟩ 10 q0 = some q1 ∧
      pdo_times q1._output = [0, 10] ∧
      q1._total_bytes = 3028 ∧ q1._used_bytes = 0 ∧ q1._delivered = []) := by
  refine ⟨?_, ?_, ?_, ⟨_, _, rfl, rfl, rfl, rfl, rfl, rfl⟩⟩
  · intro c now q q1 hl hp hd hbin h
    obtain ⟨-, -, e3, -⟩ := tick_spec c now q q1 h
    refine ⟨?_, ?_, e3, ?_⟩
    all_goals
      unfold tick at h
      split at h
      · exact absurd h (by simp)
      · next q2 hq2 =>
        dsimp only at h
        have hq2' : q2 = { q with _schedule := due_schedule c now q } := by
          unfold due_schedule
          split_ifs at hq2 with he
          · rw [if_pos he]; exact (schedule_from_file_eq c now q q2 hq2).2
          · rw [if_neg he]; simp only [Option.some.injEq] at hq2; rw [← hq2]
        subst hq2'
        dsimp only at h
        rw [migrate_none now q._delay q._pdp hd] at h
        obtain ⟨q3, f1, -, -, -, f5, f6, f7, f8, f9⟩ := execute_schedule_underflow now
          (due_schedule c now q)
          { q with _schedule := due_schedule c now q, _delay := q._delay, _pdp := q._pdp } hl hp
        dsimp only at f5 f6 f7 f8 f9
        rw [f1] at h
        simp only [Option.some.injEq] at h
        rw [bin_rollover_done now _ q3 (by rw [f7]; exact hbin)] at h
        subst h
        first
          | exact f5
          | exact f6
          | exact ⟨f8, f9⟩
  · intro c now q hl hs
    obtain ⟨q1, h, -⟩ := tick_ok c now q (Or.inl hl) hs
    exact ⟨q1, h⟩
  · intro t q r hr hl
    unfold execute_regular
    rw [if_pos hr, if_pos hl]


theorem underflow_accounting_witness :
    tick ⟨"uplink", 0, 0, "trace", [0]⟩ 10
        ⟨[], [⟨0, 50, [1]⟩], [], [], [3, 7, 40], [], 100, 20, 1, 0, 0, 1, 0⟩
      = some ⟨[LogLine.opportunity 3 1514, LogLine.opportunity 7 1514],
          [⟨0, 50, [1]⟩], [], [], [40], [], 3128, 20, 1, 0, 0, 1, 0⟩ ∧
    (3128 : Nat) = 100 + 1514 * 2 :=
  ⟨by decide,
    (underflow_accounting.1 ⟨"uplink", 0, 0, "trace", [0]⟩ 10
      ⟨[], [⟨0, 50, [1]⟩], [], [], [3, 7, 40], [], 100, 20, 1, 0, 0, 1, 0⟩
      ⟨[LogLine.opportunity 3 1514, LogLine.opportunity 7 1514],
        [⟨0, 50, [1]⟩], [], [], [40], [], 3128, 20, 1, 0, 0, 1, 0⟩
      rfl rfl (by decide) (by decide) (by decide)).2.2.2.2 (by decide)⟩

/-- C18, as amended (deliveries are counted by `tick`, not by the bin of the opportunity):
for every state and time at which `tick` reaches its rollover step, the state `q2`
just before that step has the bin of the state in which `tick` began, and its
`used_bytes` has grown by exactly the total size of the payloads `D` that this `tick`
appended to `delivered` (the sum of the `uint64_t` counter: modulo `2^64`, and plain
when it is below `2^64`); the rollover step then zeroes `used_bytes` when `now` lies
in a later second than that bin and leaves it alone otherwise. -/
theorem used_bytes_account (c : Config) (now : Nat) (q q2 : DelayQueue)
    (h : serve c now q = some q2) :
    tick c now q = some (bin_rollover now (now / 1000 - q2._bin_sec) q2) ∧
    q2._bin_sec = q._bin_sec ∧
    (∃ D : List Payload, q2._delivered = q._delivered ++ D ∧
      q2._used_bytes % UINT64 = (q._used_bytes + (D.map List.length).sum) % UINT64 ∧
      (q._used_bytes + (D.map List.length).sum < UINT64 →
        q2._used_bytes = q._used_bytes + (D.map List.length).sum)) ∧
    (q._bin_sec < now / 1000 →
      (bin_rollover now (now / 1000 - q2._bin_sec) q2)._used_bytes = 0) ∧
    (now / 1000 ≤ q._bin_sec →
      (bin_rollover now (now / 1000 - q2._bin_sec) q2)._used_bytes = q2._used_bytes) := by
  obtain ⟨D, W, e1, e2, -, -, e5, -⟩ := serve_account c now q q2 h
  obtain ⟨r1, r2⟩ := bin_rollover_counters now q2
  have hb : bytes D = ((D.map (fun p => p.contents)).map List.length).sum := by
    simp [bytes, Function.comp_def]
  refine ⟨by rw [tick_eq_serve, h], e5, ⟨D.map (fun p => p.contents), e1, ?_, ?_⟩, ?_, ?_⟩
  · rw [← hb]; exact e2.1
  · rw [← hb]; exact e2.2
  · intro hlt
    exact (r1 (by rw [e5]; exact hlt)).1
  · intro hle
    rw [r2 (by rw [e5]; exact hle)]

theorem used_bytes_account_witness :
    ∃ D : List Payload,
      ([[9], [1, 2, 3], [4, 5, 6, 7, 8]] : List Payload) = [[9]] ++ D ∧
      11 % UINT64 = (3 + (D.map List.length).sum) % UINT64 ∧
      (3 + (D.map List.length).sum < UINT64 → 11 = 3 + (D.map List.length).sum) :=
  (used_bytes_account ⟨"uplink", 0, 0, "trace", [500, 1500]⟩ 1500
    ⟨[], [⟨0, 0, [1, 2, 3]⟩, ⟨0, 0, [4, 5, 6, 7, 8]⟩], [], [], [500, 1500], [[9]],
      1514, 3, 8, 0, 0, 2, 0⟩
    ⟨[LogLine.opportunity 500 1514, LogLine.delivery 500 3 500, LogLine.delivery 500 5 500,
      LogLine.opportunity 1500 1514],
      [], [], [], [], [[9], [1, 2, 3], [4, 5, 6, 7, 8]], 4542, 11, 8, 0, 0, 2, 0⟩
    (by decide)).2.2.1

/-- C18 as stated fails. Trace `1500`, queue constructed at time 0, a 3-byte packet
written at time 0. The `tick` at time 1500 delivers the packet at the opportunity of
time 1500, which lies in bin 1, and counts it in `used_bytes` while the bin is still
bin 0: just before the rollover that closes bin 0, `used_bytes = 3`, while no packet
was delivered at an opportunity of bin 0. When a `tick` at time 2000 closes bin 1,
`used_bytes = 0` just before, while the packet delivered at an opportunity of bin 1
has 3 bytes. -/
theorem used_bytes_other_bin :
    ∃ q0 q2 q3 q4, init ⟨"uplink", 0, 0, "trace", [1500]⟩ 0 = some q0 ∧
      serve ⟨"uplink", 0, 0, "trace", [1500]⟩ 1500
        (write ⟨"uplink", 0, 0, "trace", [1500]⟩ 0 0 [1, 2, 3] q0) = some q2 ∧
      q2._bin_sec = 0 ∧ q2._used_bytes = 3 ∧ delivered_in_bin 0 q2._output = 0 ∧
      tick ⟨"uplink", 0, 0, "trace", [1500]⟩ 1500
        (write ⟨"uplink", 0, 0, "trace", [1500]⟩ 0 0 [1, 2, 3] q0) = some q3 ∧
      q3._bin_sec = 1 ∧ q3._used_bytes = 0 ∧
      serve ⟨"uplink", 0, 0, "trace", [1500]⟩ 2000 q3 = some q4 ∧
      q4._bin_sec = 1 ∧ q4._used_bytes = 0 ∧ delivered_in_bin 1 q4._output = 3 ∧
      q4._output = [LogLine.initialized "trace" 1, LogLine.direction "uplink",
        LogLine.base_timestamp 0, LogLine.enqueued 0 3, LogLine.opportunity 1500 1514,
        LogLine.delivery 1500 3 1500] :=
  ⟨_, _, _, _, rfl, rfl, rfl, rfl, rfl, rfl, rfl, rfl, rfl, rfl, rfl, rfl, rfl⟩

end Cellsim
